import Mathlib

/-!
Verification development for the DSP (data-structure-protocol) CLI
(`src/skills/data-structure-protocol/scripts/dsp-cli.py`).

The store is a directory tree under `.dsp/`; we embed it as a record of
association lists keyed by entity uid / file name:

* line-oriented list files (imports, shared, TOC) are kept as raw line
  lists; reads normalize exactly as `_read_lines` does (strip each line,
  drop blanks);
* text files (description records, export recipient files) are kept as
  the stored string; `_write_text` stores `text.rstrip() + "\n"` and
  `_read_text` strips, which we mirror with `pyStripR` / `pyStrip`;
* an `exports/` directory is a pair of flat recipient files and
  per-shared-uid subdirectories; presence of the directory itself is
  tracked by presence of the association-list entry (matching the
  `is_dir()` checks in the source).

Python string primitives (`str.strip`, `str.split`, `str.splitlines`,
lexicographic comparison by code point) are re-implemented on `List Char`
so that all definitions are executable and kernel-reducible.
-/

deriving instance DecidableEq for Except

namespace DSP

/-! ## Python-style string primitives -/

/-- Character-list core of Python `str.strip()`. -/
def stripCore (l : List Char) : List Char :=
  ((l.dropWhile Char.isWhitespace).reverse.dropWhile Char.isWhitespace).reverse

/-- Python `str.strip()` (whitespace at both ends). -/
def pyStrip (s : String) : String := ⟨stripCore s.data⟩

/-- Python `str.rstrip()`. -/
def pyStripR (s : String) : String :=
  ⟨(s.data.reverse.dropWhile Char.isWhitespace).reverse⟩

/-- Python `str.lstrip()`. -/
def pyStripL (s : String) : String :=
  ⟨s.data.dropWhile Char.isWhitespace⟩

/-- Auxiliary splitter on a newline character, accumulator holds the
current segment reversed. -/
def splitNLAux : List Char → List Char → List String
  | acc, [] => [⟨acc.reverse⟩]
  | acc, c :: cs =>
    if c = '\n' then ⟨acc.reverse⟩ :: splitNLAux [] cs
    else splitNLAux (c :: acc) cs

/-- Split a string at newline characters (always returns at least one
segment, like `str.split("\n")`). -/
def splitNL (s : String) : List String :=
  splitNLAux [] s.data

/-- Python `str.splitlines()` for strings whose only line separator is
`"\n"` (the only separator this program ever writes): the empty string
yields no lines, and a trailing newline does not create a final empty
line.  The stored texts in this development never end in a newline after
the `strip()` done by `_read_text`, so we only special-case `""`. -/
def pySplitlines (s : String) : List String :=
  if s = "" then [] else splitNL s

/-- Auxiliary splitter on whitespace, accumulator holds the current
segment reversed. -/
def splitWSAux : List Char → List Char → List String
  | acc, [] => [⟨acc.reverse⟩]
  | acc, c :: cs =>
    if c.isWhitespace then ⟨acc.reverse⟩ :: splitWSAux [] cs
    else splitWSAux (c :: acc) cs

/-- Python `str.split()` with no separator: split on whitespace runs,
discarding empty segments. -/
def pySplitWS (s : String) : List String :=
  (splitWSAux [] s.data).filter (fun t => ¬ t = "")

/-- Code-point comparison of characters, as Python compares strings. -/
def charLe (a b : Char) : Bool := a.val ≤ b.val

/-- Lexicographic order on character lists by code point. -/
def listLe : List Char → List Char → Bool
  | [], _ => true
  | _ :: _, [] => false
  | a :: as, b :: bs =>
    if a.val < b.val then true
    else if b.val < a.val then false
    else listLe as bs

/-- Python string `<=` (lexicographic by code point). -/
def strLe (a b : String) : Bool := listLe a.data b.data

/-- Python `sorted` on strings (insertion sort is stable, like Python's
sort, and by code point via `strLe`). -/
def sortStr (l : List String) : List String :=
  l.insertionSort (fun a b => strLe a b)

/-- Python `sorted` on (name, payload) pairs, by name (names are unique
in a directory, so sorting by name alone matches `sorted(iterdir())`). -/
def sortByName {α : Type} (l : List (String × α)) : List (String × α) :=
  l.insertionSort (fun p q => strLe p.1 q.1)

/-- Python `startswith`. -/
def strStarts (s p : String) : Bool := p.data.isPrefixOf s.data

/-- Python `str[n:]` (drop the first `n` characters). -/
def strDrop (s : String) (n : Nat) : String := ⟨s.data.drop n⟩

/-! ## Association lists (files in a directory, keyed by name) -/

/-- First value bound to a key. -/
def look {α : Type} : List (String × α) → String → Option α
  | [], _ => none
  | p :: t, k => if p.1 = k then some p.2 else look t k

/-- Replace the first binding of a key, or append a new one (writing a
file in a directory). -/
def aset {α : Type} : List (String × α) → String → α → List (String × α)
  | [], k, v => [(k, v)]
  | p :: t, k, v => if p.1 = k then (k, v) :: t else p :: aset t k v

/-- Remove every binding of a key (deleting a file; names are unique on
a real filesystem, so at most one binding is ever present). -/
def aerase {α : Type} (l : List (String × α)) (k : String) : List (String × α) :=
  l.filter (fun p => ¬ p.1 = k)

/-- Keys of an association list. -/
def akeys {α : Type} (l : List (String × α)) : List String := l.map (fun p => p.1)

/-! ## Record codec: import lines -/

/-- Mirrors `_parse_import_line`: first whitespace-separated token is the
uid, the last `via=`-tagged token supplies the exporter. -/
def parse_import_line (line : String) : String × Option String :=
  match pySplitWS line with
  | [] => ("", none)
  | uid :: rest =>
    (uid, rest.foldl (fun via p => if strStarts p "via=" then some (strDrop p 4) else via) none)

/-- Mirrors `_format_import_line`; note the Python truthiness test on
`via` (an empty exporter string formats as a plain line). -/
def format_import_line (uid : String) (via : Option String) : String :=
  match via with
  | some v => if v = "" then uid else uid ++ " via=" ++ v
  | none => uid

/-! ## Record codec: description records -/

/-- Key characters accepted by the `^([a-z_]+):` pattern. -/
def isKeyChar (c : Char) : Bool := ('a' ≤ c ∧ c ≤ 'z') ∨ c = '_'

/-- Mirrors the regex `^([a-z_]+):\s?(.*)` of `_DESC_KEY_RE` applied to a
single line: returns the key and the remainder after the colon and an
optional single whitespace character. -/
def descKeyMatch (line : String) : Option (String × String) :=
  let keyChars := line.data.takeWhile isKeyChar
  match line.data.drop keyChars.length with
  | ':' :: rest =>
    if keyChars = [] then none
    else
      match rest with
      | c :: rest2 => if c.isWhitespace then some (⟨keyChars⟩, ⟨rest2⟩) else some (⟨keyChars⟩, ⟨rest⟩)
      | [] => some (⟨keyChars⟩, "")
  | _ => none

/-- Loop of `_parse_desc`: `cur` is the key currently being collected
together with its accumulated lines; completed keys are assigned into
the result dict (assignment overwrites in place, `aset`). -/
def parse_desc_aux : List (String × String) → Option (String × List String) → List String →
    List (String × String)
  | res, none, [] => res
  | res, some (k, ls), [] => aset res k (pyStrip (String.intercalate "\n" ls))
  | res, cur, line :: rest =>
    match descKeyMatch line with
    | some (k, v0) =>
      match cur with
      | none => parse_desc_aux res (some (k, [v0])) rest
      | some (ck, cls) =>
        parse_desc_aux (aset res ck (pyStrip (String.intercalate "\n" cls))) (some (k, [v0])) rest
    | none =>
      match cur with
      | none => parse_desc_aux res none rest
      | some (ck, cls) => parse_desc_aux res (some (ck, cls ++ [line])) rest

/-- Mirrors `_parse_desc`. -/
def parse_desc (text : String) : List (String × String) :=
  parse_desc_aux [] none (pySplitlines text)

/-- The reserved keys, in their fixed serialization order. -/
def descOrdered : List String := ["source", "kind", "purpose"]

/-- Mirrors `_serialize_desc`: reserved keys first, in fixed order, then
the remaining fields in insertion order. -/
def serialize_desc (fields : List (String × String)) : String :=
  let resLines := descOrdered.filterMap (fun k =>
    (look fields k).map (fun v => k ++ ": " ++ v))
  let extraLines := (fields.filter (fun p => ¬ p.1 ∈ descOrdered)).map
    (fun p => p.1 ++ ": " ++ p.2)
  String.intercalate "\n" (resLines ++ extraLines)

/-! ## Text-file primitives -/

/-- Content stored by `_write_text`. -/
def storeTxt (t : String) : String := pyStripR t ++ "\n"

/-- Content returned by `_read_text` on an existing file. -/
def readTxt (c : String) : String := pyStrip c

/-! ## The persisted store state -/

/-- An `exports/` directory of one entity: flat recipient files
(name ↦ stored content) and per-shared-uid subdirectories, each a list
of files (one of which may be the `description` file). -/
structure ExpArea where
  files : List (String × String)
  subs : List (String × List (String × String))
  deriving DecidableEq, Repr

/-- The empty exports directory. -/
def ExpArea.empty : ExpArea := ⟨[], []⟩

/-- The whole `.dsp/` tree.  Line files (`imports`, `shared`, TOC) hold
their raw lines; an absent association entry is an absent file, an entry
with `[]` is an existing empty file.  `exps` entries correspond to
existing `exports/` directories. -/
structure St where
  initialized : Bool
  ents : List String
  imp : List (String × List String)
  shr : List (String × List String)
  descr : List (String × String)
  exps : List (String × ExpArea)
  tocs : List (String × List String)
  deriving DecidableEq, Repr

/-- Error taxonomy of §7 (what `_fail` reports). -/
inductive Err where
  | storeUninit : Err
  | entityNotFound : String → Err
  | reverseNotFound : Err
  | tocNotFound : Err
  deriving DecidableEq, Repr

/-! ## Store primitives -/

/-- Mirrors `_read_lines`: strip every line, drop blanks; a missing file
reads as no lines. -/
def read_lines_of (raw : List String) : List String :=
  (raw.map pyStrip).filter (fun t => ¬ t = "")

/-- Read a line file from a map of line files. -/
def read_lines (m : List (String × List String)) (k : String) : List String :=
  read_lines_of ((look m k).getD [])

/-- Mirrors `_write_lines` (the map entry comes to exist even for an
empty list, as `path.write_text("")` creates the file). -/
def write_lines (m : List (String × List String)) (k : String) (ls : List String) :
    List (String × List String) :=
  aset m k ls

/-- Mirrors `_append_line_unique`: no write at all when the line is
already present (after normalization), otherwise the normalized list
plus the new line is written back. -/
def append_line_unique (m : List (String × List String)) (k : String) (line : String) :
    List (String × List String) :=
  let existing := read_lines m k
  if line ∈ existing then m else write_lines m k (existing ++ [line])

/-- Mirrors `_remove_line_value` (always writes the filtered, normalized
list back — creating the file when it was absent). -/
def remove_line_value (m : List (String × List String)) (k : String) (target : String) :
    List (String × List String) :=
  write_lines m k ((read_lines m k).filter (fun ln => ¬ ln = target))

/-- Mirrors `Store.entity_exists` (`(base / uid).is_dir()`). -/
def entity_exists (s : St) (uid : String) : Bool := uid ∈ s.ents

/-- Mirrors `Store.all_uids`: entity directories with a recognized
category prefix, sorted lexicographically. -/
def all_uids (s : St) : List String :=
  sortStr (s.ents.filter (fun d => strStarts d "obj-" || strStarts d "func-"))

/-- Mirrors `Store.toc_path` (just the file name). -/
def toc_name (root_uid : Option String) : String :=
  match root_uid with
  | some u => if u = "" then "TOC" else "TOC-" ++ u
  | none => "TOC"

/-- Mirrors `Store.all_toc_paths`: names of existing files starting with
`TOC`, sorted. -/
def all_toc_names (s : St) : List String :=
  sortStr ((akeys s.tocs).filter (fun n => strStarts n "TOC"))

/-- Mirrors `Store.read_desc` (a missing description file parses to the
empty mapping). -/
def read_desc (s : St) (uid : String) : List (String × String) :=
  parse_desc (readTxt ((look s.descr uid).getD ""))

/-- Mirrors `Store.write_desc`. -/
def write_desc (s : St) (uid : String) (fields : List (String × String)) : St :=
  { s with descr := aset s.descr uid (storeTxt (serialize_desc fields)) }

/-- Mirrors `Store.read_imports`. -/
def read_imports (s : St) (uid : String) : List (String × Option String) :=
  (read_lines s.imp uid).map parse_import_line

/-- Mirrors `Store.read_import_uids`. -/
def read_import_uids (s : St) (uid : String) : List String :=
  ((read_imports s uid).map (fun p => p.1)).filter (fun u => ¬ u = "")

/-- Mirrors `Store.read_shared`. -/
def read_shared (s : St) (uid : String) : List String :=
  read_lines s.shr uid

/-- The exports directory of an entity; absent directory behaves as the
empty one for every read. -/
def expOf (s : St) (uid : String) : ExpArea :=
  (look s.exps uid).getD ExpArea.empty

/-- Whether the exports directory exists (`exports_dir(uid).is_dir()`). -/
def expIsDir (s : St) (uid : String) : Bool := (look s.exps uid).isSome

/-- Mirrors `Store.read_direct_recipients`: flat files of the exports
directory, sorted by name, with their text read (stripped). -/
def read_direct_recipients (s : St) (uid : String) : List (String × String) :=
  (sortByName (expOf s uid).files).map (fun p => (p.1, readTxt p.2))

/-- Files of one shared sub-collection, `none` when the subdirectory does
not exist. -/
def subOf (s : St) (uid sub : String) : Option (List (String × String)) :=
  look (expOf s uid).subs sub

/-- Recipient entries of a shared sub-collection, sorted by name and
excluding the `description` file (used at several places in the
source). -/
def sub_recipients (files : List (String × String)) : List (String × String) :=
  ((sortByName files).filter (fun p => ¬ p.1 = "description")).map
    (fun p => (p.1, readTxt p.2))

/-! ## Filesystem mutation helpers on the exports area -/

/-- Write a flat recipient file (with `exp.mkdir(..., exist_ok=True)`
creating the directory entry). -/
def writeDirectFile (s : St) (uid name text : String) : St :=
  let e := expOf s uid
  { s with exps := aset s.exps uid { e with files := aset e.files name (storeTxt text) } }

/-- Ensure the exports directory exists (plain `mkdir`). -/
def mkExpDir (s : St) (uid : String) : St :=
  { s with exps := aset s.exps uid (expOf s uid) }

/-- Ensure a shared sub-collection directory exists. -/
def mkSubDir (s : St) (uid sub : String) : St :=
  let e := expOf s uid
  { s with exps := aset s.exps uid { e with subs := aset e.subs sub ((look e.subs sub).getD []) } }

/-- Write a file inside a shared sub-collection (creating directories as
needed, `rev_dir.mkdir(parents=True, exist_ok=True)`). -/
def writeSubFile (s : St) (uid sub name text : String) : St :=
  let e := expOf s uid
  let sf := (look e.subs sub).getD []
  { s with exps := aset s.exps uid { e with subs := aset e.subs sub (aset sf name (storeTxt text)) } }

/-- Mirrors `_safe_unlink` on a flat recipient file: nothing happens
unless the directory and the file exist. -/
def safe_unlink_direct (s : St) (uid name : String) : St :=
  match look s.exps uid with
  | none => s
  | some e =>
    if name ∈ akeys e.files then
      { s with exps := aset s.exps uid { e with files := aerase e.files name } }
    else s

/-- Mirrors `_safe_unlink` on a file inside a shared sub-collection. -/
def safe_unlink_sub (s : St) (uid sub name : String) : St :=
  match look s.exps uid with
  | none => s
  | some e =>
    match look e.subs sub with
    | none => s
    | some sf =>
      if name ∈ akeys sf then
        { s with exps := aset s.exps uid { e with subs := aset e.subs sub (aerase sf name) } }
      else s

/-- Mirrors `_safe_rmtree` on a shared sub-collection directory. -/
def safe_rmtree_sub (s : St) (uid sub : String) : St :=
  match look s.exps uid with
  | none => s
  | some e =>
    if sub ∈ akeys e.subs then
      { s with exps := aset s.exps uid { e with subs := aerase e.subs sub } }
    else s

/-- Mirrors `_safe_rmtree` on a whole entity directory (`remove_entity`
step (e)): the directory and everything inside it disappears. -/
def rm_entity_dir (s : St) (uid : String) : St :=
  { s with
    ents := s.ents.filter (fun d => ¬ d = uid)
    imp := aerase s.imp uid
    shr := aerase s.shr uid
    descr := aerase s.descr uid
    exps := aerase s.exps uid }

/-- Python truthiness of an optional string (`if exporter:`). -/
def optTruthy : Option String → Bool
  | some v => ¬ v = ""
  | none => false

/-! ## Engine mutation operations

Each mutation returns the store after whatever writes happened together
with the error, if any, that aborted it (`_fail` exits the process, so
writes made before a failing check persist on disk). -/

/-- Mirrors `Engine.add_import`.  Note the order of operations in the
source: the forward import line is appended to the importer's list
before the imported/exporter entity is checked to exist. -/
def add_import (s : St) (importer imported why : String) (exporter : Option String) :
    St × Option Err :=
  if ¬ s.initialized then (s, some .storeUninit)
  else if ¬ entity_exists s importer then (s, some (.entityNotFound importer))
  else
    let line := format_import_line imported exporter
    let s1 := { s with imp := append_line_unique s.imp importer line }
    if optTruthy exporter then
      let e := exporter.getD ""
      if ¬ entity_exists s1 e then (s1, some (.entityNotFound e))
      else (writeSubFile s1 e imported importer why, none)
    else
      if ¬ entity_exists s1 imported then (s1, some (.entityNotFound imported))
      else (writeDirectFile s1 imported importer why, none)

/-- Python `dict.update`: overwrite existing keys in place, append new
keys in the order given. -/
def dictUpdate (cur fields : List (String × String)) : List (String × String) :=
  fields.foldl (fun acc p => aset acc p.1 p.2) cur

/-- Mirrors `Engine.update_description`. -/
def update_description (s : St) (uid : String) (fields : List (String × String)) :
    St × Option Err :=
  if ¬ s.initialized then (s, some .storeUninit)
  else if ¬ entity_exists s uid then (s, some (.entityNotFound uid))
  else (write_desc s uid (dictUpdate (read_desc s uid) fields), none)

/-- Mirrors `Engine.update_import_why`: no entity-existence checks at
all; only the reverse record's presence is tested. -/
def update_import_why (s : St) (importer imported new_why : String) (exporter : Option String) :
    St × Option Err :=
  if ¬ s.initialized then (s, some .storeUninit)
  else if optTruthy exporter then
    let e := exporter.getD ""
    match subOf s e imported with
    | some sf =>
      if importer ∈ akeys sf then (writeSubFile s e imported importer new_why, none)
      else (s, some .reverseNotFound)
    | none => (s, some .reverseNotFound)
  else
    if importer ∈ akeys (expOf s imported).files ∧ expIsDir s imported then
      (writeDirectFile s imported importer new_why, none)
    else (s, some .reverseNotFound)

/-- The first-match removal loop of `Engine.remove_import`: once an edge
matched, every later pair is kept unchanged. -/
def remove_first_edge : List (String × Option String) → String → Option String →
    List (String × Option String)
  | [], _, _ => []
  | (u, v) :: t, m, e =>
    if u = m ∧ (e = none ∨ v = e) then t
    else (u, v) :: remove_first_edge t m e

/-- Mirrors `Engine.remove_import`. -/
def remove_import (s : St) (importer imported : String) (exporter : Option String) :
    St × Option Err :=
  if ¬ s.initialized then (s, some .storeUninit)
  else if ¬ entity_exists s importer then (s, some (.entityNotFound importer))
  else
    let kept := remove_first_edge (read_imports s importer) imported exporter
    let s1 := { s with imp := (write_lines s.imp importer
      (kept.map (fun p => format_import_line p.1 p.2))) }
    if optTruthy exporter then
      (safe_unlink_sub s1 (exporter.getD "") imported importer, none)
    else
      (safe_unlink_direct s1 imported importer, none)

/-- Mirrors `Engine.create_shared` (set-append to the shared list, then
first-write-wins creation of the sub-collection description). -/
def create_shared (s : St) (exporter : String) (shared_uids : List String) :
    St × Option Err :=
  if ¬ s.initialized then (s, some .storeUninit)
  else if ¬ entity_exists s exporter then (s, some (.entityNotFound exporter))
  else
    let s0 := mkExpDir s exporter
    let s2 := shared_uids.foldl (fun st sid =>
      let st1 := { st with shr := append_line_unique st.shr exporter sid }
      let st2 := mkSubDir st1 exporter sid
      if "description" ∈ akeys ((subOf st2 exporter sid).getD []) then st2
      else
        let purpose :=
          if entity_exists st2 sid then (look (read_desc st2 sid) "purpose").getD "" else ""
        writeSubFile st2 exporter sid "description" (if purpose = "" then sid else purpose)) s0
    (s2, none)

/-- Mirrors `Engine.remove_entity`, cascading in the source's order:
(a) strip `uid` from every other entity's import list, (b) delete the
reverse record of every import edge of `uid`, (c) remove `uid` from
every other entity's shared list and delete the sub-collection,
(d) remove `uid` from every TOC file, (e) delete `uid`'s directory. -/
def remove_entity (s : St) (uid : String) : St × Option Err :=
  if ¬ s.initialized then (s, some .storeUninit)
  else if ¬ entity_exists s uid then (s, some (.entityNotFound uid))
  else
    let us := all_uids s
    let s1 := us.foldl (fun st other =>
      if other = uid then st
      else
        let imports := read_imports st other
        if imports.any (fun p => p.1 = uid ∨ p.2 = some uid) then
          { st with imp := (write_lines st.imp other
            ((imports.filter (fun p => ¬ (p.1 = uid ∨ p.2 = some uid))).map
              (fun p => format_import_line p.1 p.2))) }
        else st) s
    let s2 := (read_imports s1 uid).foldl (fun st p =>
      match p.2 with
      | some via => if ¬ via = "" then safe_unlink_sub st via p.1 uid
                    else safe_unlink_direct st p.1 uid
      | none => safe_unlink_direct st p.1 uid) s1
    let s3 := us.foldl (fun st other =>
      if other = uid then st
      else if uid ∈ read_shared st other then
        safe_rmtree_sub { st with shr := remove_line_value st.shr other uid } other uid
      else st) s2
    let s4 := (all_toc_names s3).foldl (fun st tn =>
      { st with tocs := remove_line_value st.tocs tn uid }) s3
    (rm_entity_dir s4 uid, none)

/-! ## Engine query operations -/

/-- Keep the first pair for each key, sharing one seen-set — the shape
of the three precedence-ordered passes of `Engine._all_importers`. -/
def dedupFst : List (String × String) → List String → List (String × String)
  | [], _ => []
  | (k, v) :: t, seen => if k ∈ seen then dedupFst t seen else (k, v) :: dedupFst t (k :: seen)

/-- Pass 1 of `_all_importers`: direct export records. -/
def importers_pass1 (s : St) (uid : String) : List (String × String) :=
  read_direct_recipients s uid

/-- Pass 2 of `_all_importers`: recipients recorded under other
entities' shared sub-collections for `uid`. -/
def importers_pass2 (s : St) (uid : String) : List (String × String) :=
  (all_uids s).flatMap (fun other =>
    if uid ∈ read_shared s other then
      match subOf s other uid with
      | some sf => sub_recipients sf
      | none => []
    else [])

/-- Pass 3 of `_all_importers`: fallback scan of forward import lists. -/
def importers_pass3 (s : St) (uid : String) : List (String × String) :=
  ((all_uids s).filter (fun other => (read_imports s other).any (fun p => p.1 = uid))).map
    (fun o => (o, ""))

/-- Mirrors `Engine._all_importers`: the three passes run in order with
a single seen-set, first occurrence of each recipient uid winning. -/
def all_importers (s : St) (uid : String) : List (String × String) :=
  dedupFst (importers_pass1 s uid ++ importers_pass2 s uid ++ importers_pass3 s uid) []

/-- Mirrors `Engine.get_recipients`. -/
def get_recipients (s : St) (uid : String) : Except Err (List (String × String)) :=
  if ¬ s.initialized then .error .storeUninit
  else if ¬ entity_exists s uid then .error (.entityNotFound uid)
  else .ok (all_importers s uid)

/-- Snapshot returned by `Engine.get_entity`. -/
structure EntityInfo where
  uid : String
  description : List (String × String)
  imports : List (String × Option String)
  shared : List String
  exported_to : List (String × String)
  deriving DecidableEq, Repr

/-- Mirrors `Engine.get_entity`. -/
def get_entity (s : St) (uid : String) : Except Err EntityInfo :=
  if ¬ s.initialized then .error .storeUninit
  else if ¬ entity_exists s uid then .error (.entityNotFound uid)
  else .ok ⟨uid, read_desc s uid, read_imports s uid, read_shared s uid, all_importers s uid⟩

/-! ## Bounded tree traversal (`get_children` / `get_parents`) -/

/-- A node of the traversal result.  `why` is set only by `get_parents`
(the Python dict gains a `"why"` key there); `cycle` mirrors the
`"cycle"` flag. -/
structure TNode where
  uid : String
  kind : String
  purpose : String
  cycle : Bool
  why : Option String
  children : List TNode

/-- Node skeleton shared by both traversals (`desc` read only when the
entity exists). -/
def mkNode (s : St) (u : String) (cyc : Bool) (why : Option String) (cs : List TNode) : TNode :=
  let d := if entity_exists s u then read_desc s u else []
  ⟨u, (look d "kind").getD "", (look d "purpose").getD "", cyc, why, cs⟩

/-- The `walk` closure of `Engine.get_children`, with the shared
visited-set threaded explicitly; the `for` loop over the node's import
list is a left fold appending each child. -/
def walkC (s : St) : Nat → String → List String → TNode × List String
  | d, u, vis =>
    if u ∈ vis then (mkNode s u true none [], vis)
    else
      match d with
      | 0 => (mkNode s u false none [], u :: vis)
      | d9 + 1 =>
        let r := (read_imports s u).foldl
          (fun (acc : List TNode × List String) p =>
            let r1 := walkC s d9 p.1 acc.2
            (acc.1 ++ [r1.1], r1.2)) ([], u :: vis)
        (mkNode s u false none r.1, r.2)

/-- Mirrors `Engine.get_children`. -/
def get_children (s : St) (uid : String) (depth : Nat) : Except Err TNode :=
  if ¬ s.initialized then .error .storeUninit
  else if ¬ entity_exists s uid then .error (.entityNotFound uid)
  else .ok (walkC s depth uid []).1

/-- The `walk` closure of `Engine.get_parents`: like `walkC` but over
the computed importers, attaching each edge's reason to its child. -/
def walkP (s : St) : Nat → String → List String → TNode × List String
  | d, u, vis =>
    if u ∈ vis then (mkNode s u true none [], vis)
    else
      match d with
      | 0 => (mkNode s u false none [], u :: vis)
      | d9 + 1 =>
        let r := (all_importers s u).foldl
          (fun (acc : List TNode × List String) p =>
            let r1 := walkP s d9 p.1 acc.2
            (acc.1 ++ [{ r1.1 with why := some p.2 }], r1.2)) ([], u :: vis)
        (mkNode s u false none r.1, r.2)

/-- Mirrors `Engine.get_parents`. -/
def get_parents (s : St) (uid : String) (depth : Nat) : Except Err TNode :=
  if ¬ s.initialized then .error .storeUninit
  else if ¬ entity_exists s uid then .error (.entityNotFound uid)
  else .ok (walkP s depth uid []).1

/-! ## Shortest path (`get_path`) -/

/-- Neighbor expansion of `get_path`: the sorted set union of the
forward import targets and the computed importers. -/
def neighbors_of (s : St) (u : String) : List String :=
  sortStr (((read_imports s u).map (fun p => p.1) ++
    (all_importers s u).map (fun p => p.1)).dedup)

/-- Inner neighbor loop of the BFS: early return on the target,
otherwise enqueue unvisited existing entities. -/
def bfs_expand (s : St) (tgt : String) (path : List String) :
    List String → List String → List (String × List String) →
    (List String × List (String × List String)) ⊕ List String
  | [], vis, q => Sum.inl (vis, q)
  | nb :: rest, vis, q =>
    if nb = tgt then Sum.inr (path ++ [nb])
    else if ¬ nb ∈ vis ∧ entity_exists s nb then
      bfs_expand s tgt path rest (vis ++ [nb]) (q ++ [(nb, path ++ [nb])])
    else bfs_expand s tgt path rest vis q

/-- The `while queue` loop of `get_path` (fuel-indexed; the fuel chosen
in `get_path` strictly exceeds the number of possible dequeues). -/
def bfs_loop (s : St) (tgt : String) : Nat → List String → List (String × List String) →
    Option (List String)
  | 0, _, _ => none
  | _ + 1, _, [] => none
  | fuel + 1, vis, (cur, path) :: rest =>
    match bfs_expand s tgt path (neighbors_of s cur) vis rest with
    | Sum.inr p => some p
    | Sum.inl (vis2, q2) => bfs_loop s tgt fuel vis2 q2

/-- Mirrors `Engine.get_path` (`none` inside `ok` is the "no path"
result). -/
def get_path (s : St) (fr tgt : String) : Except Err (Option (List String)) :=
  if ¬ s.initialized then .error .storeUninit
  else if ¬ entity_exists s fr then .error (.entityNotFound fr)
  else if ¬ entity_exists s tgt then .error (.entityNotFound tgt)
  else if fr = tgt then .ok (some [fr])
  else .ok (bfs_loop s tgt (s.ents.length + 1) [fr] [(fr, [fr])])

/-! ## Cycle detection (`detect_cycles`) -/

/-- State of the three-color depth-first search: colors (0 white,
1 gray, 2 black), the explicit DFS stack, and the reported cycles. -/
structure DfsSt where
  color : List (String × Nat)
  stk : List String
  cycles : List (List String)
  deriving DecidableEq, Repr

/-- The reported cycle: suffix of the stack from the gray node's first
occurrence, closed by repeating it. -/
def cycle_from (stk : List String) (v : String) : List String :=
  stk.drop (stk.indexOf v) ++ [v]

/-- The recursive `dfs` of `detect_cycles` (fuel strictly exceeds the
number of white nodes whenever `detect_cycles` invokes it): the edge
loop reports a cycle on gray targets, recurses into white targets, and
skips black or unknown targets. -/
def dfs (s : St) : Nat → String → DfsSt → DfsSt
  | 0, _, st => st
  | fuel + 1, u, st =>
    let st1 : DfsSt := { st with color := aset st.color u 1, stk := st.stk ++ [u] }
    let st2 := (read_import_uids s u).foldl
      (fun acc v =>
        match look acc.color v with
        | some 1 => { acc with cycles := acc.cycles ++ [cycle_from acc.stk v] }
        | some 0 => dfs s fuel v acc
        | _ => acc) st1
    { st2 with stk := st2.stk.dropLast, color := aset st2.color u 2 }

/-- Mirrors `Engine.detect_cycles`. -/
def detect_cycles (s : St) : Except Err (List (List String)) :=
  if ¬ s.initialized then .error .storeUninit
  else
    let us := all_uids s
    let st0 : DfsSt := ⟨us.map (fun u => (u, 0)), [], []⟩
    let fin := us.foldl (fun st u =>
      if look st.color u = some 0 then dfs s (us.length + 1) u st else st) st0
    .ok fin.cycles

/-! ## Orphan analysis (`get_orphans`) -/

/-- Mirrors `Engine.get_orphans`: not a designated TOC root, never
the imported or via value of an import edge, and an empty or absent
export area. -/
def get_orphans (s : St) : Except Err (List String) :=
  if ¬ s.initialized then .error .storeUninit
  else
    let roots := (all_toc_names s).foldl (fun acc tn =>
      match read_lines s.tocs tn with
      | [] => acc
      | x :: _ => acc ++ [x]) []
    let imported := (all_uids s).flatMap (fun u =>
      (read_imports s u).flatMap (fun p =>
        (if ¬ p.1 = "" then [p.1] else []) ++
        (match p.2 with
         | some v => if ¬ v = "" then [v] else []
         | none => [])))
    .ok ((all_uids s).filter (fun uid =>
      ¬ uid ∈ roots ∧ ¬ uid ∈ imported ∧
      ¬ (expIsDir s uid ∧ 0 < (expOf s uid).files.length + (expOf s uid).subs.length)))

/-! ## General lemmas about the store primitives -/

theorem look_aset_self {α : Type} (l : List (String × α)) (k : String) (v : α) :
    look (aset l k v) k = some v := by
  induction l with
  | nil => simp [aset, look]
  | cons p t ih =>
    by_cases h : p.1 = k
    · simp [aset, h, look]
    · simp [aset, h, look, ih]

theorem look_aset_ne {α : Type} (l : List (String × α)) (k k2 : String) (v : α)
    (h : ¬ k2 = k) : look (aset l k v) k2 = look l k2 := by
  have hne : ¬ k = k2 := fun hh => h hh.symm
  induction l with
  | nil => simp only [aset, look, if_neg hne]
  | cons p t ih =>
    by_cases hp : p.1 = k
    · have h2 : ¬ p.1 = k2 := by rw [hp]; exact hne
      simp only [aset, if_pos hp, look, if_neg hne, if_neg h2]
    · simp only [aset, if_neg hp, look]
      by_cases hq : p.1 = k2
      · simp only [if_pos hq]
      · simp only [if_neg hq, ih]

theorem look_aerase_self {α : Type} (l : List (String × α)) (k : String) :
    look (aerase l k) k = none := by
  induction l with
  | nil => rfl
  | cons p t ih =>
    by_cases h : p.1 = k
    · simpa [aerase, h] using ih
    · simpa [aerase, h, look] using ih

theorem look_aerase_ne {α : Type} (l : List (String × α)) (k k2 : String)
    (h : ¬ k2 = k) : look (aerase l k) k2 = look l k2 := by
  induction l with
  | nil => rfl
  | cons p t ih =>
    by_cases hp : p.1 = k
    · have h2 : ¬ p.1 = k2 := by rw [hp]; exact fun hh => h hh.symm
      rw [show aerase (p :: t) k = aerase t k by simp [aerase, hp]]
      rw [ih]
      simp only [look, if_neg h2]
    · rw [show aerase (p :: t) k = p :: aerase t k by simp [aerase, hp]]
      by_cases hq : p.1 = k2
      · simp only [look, if_pos hq]
      · simp only [look, if_neg hq, ih]

theorem look_mem {α : Type} {l : List (String × α)} {k : String} {v : α}
    (h : look l k = some v) : (k, v) ∈ l := by
  induction l with
  | nil => simp [look] at h
  | cons p t ih =>
    by_cases hp : p.1 = k
    · simp only [look, if_pos hp] at h
      have hv : p.2 = v := Option.some.inj h
      have hpv : p = (k, v) := by
        cases p
        simp only [Prod.mk.injEq]
        exact ⟨hp, hv⟩
      rw [← hpv]
      exact List.mem_cons_self _ _
    · simp only [look, if_neg hp] at h
      exact List.mem_cons_of_mem _ (ih h)

theorem look_eq_none {α : Type} {l : List (String × α)} {k : String}
    (h : ¬ k ∈ akeys l) : look l k = none := by
  induction l with
  | nil => rfl
  | cons p t ih =>
    simp only [akeys, List.map_cons, List.mem_cons, not_or] at h
    obtain ⟨h1, h2⟩ := h
    simp only [look]
    rw [if_neg (fun hh => h1 hh.symm)]
    exact ih (by simpa only [akeys] using h2)

theorem mem_akeys_of_look {α : Type} {l : List (String × α)} {k : String} {v : α}
    (h : look l k = some v) : k ∈ akeys l := by
  have := look_mem h
  simp only [akeys, List.mem_map]
  exact ⟨(k, v), this, rfl⟩

theorem dropWhile_self {α : Type} (p : α → Bool) (l : List α) :
    (l.dropWhile p).dropWhile p = l.dropWhile p := by
  induction l with
  | nil => rfl
  | cons a t ih =>
    by_cases h : p a
    · simpa [List.dropWhile_cons, h] using ih
    · simp [List.dropWhile_cons, h]

theorem dropWhile_eq_self_of_head {α : Type} (p : α → Bool) (a : α) (t : List α)
    (h : ¬ p a) : (a :: t).dropWhile p = a :: t := by
  simp [List.dropWhile_cons, h]

theorem stripCore_idem (l : List Char) : stripCore (stripCore l) = stripCore l := by
  unfold stripCore
  set ws := Char.isWhitespace with hws
  set A := l.dropWhile ws with hA
  set B := A.reverse.dropWhile ws with hB
  have hBB : B.dropWhile ws = B := by rw [hB]; exact dropWhile_self ws A.reverse
  have hArev : B.reverse.dropWhile ws = B.reverse := by
    rcases hBrev : B.reverse with _ | ⟨c, cs⟩
    · simp
    · have h1 : A.reverse.takeWhile ws ++ B = A.reverse := by
        rw [hB]; exact List.takeWhile_append_dropWhile ws A.reverse
      have h2 : A = B.reverse ++ (A.reverse.takeWhile ws).reverse := by
        have h3 := congrArg List.reverse h1
        simp only [List.reverse_append, List.reverse_reverse] at h3
        exact h3.symm
      have hpre2 : A = c :: (cs ++ (A.reverse.takeWhile ws).reverse) := by
        conv_lhs => rw [h2, hBrev]
        rw [List.cons_append]
      have hne2 : l.dropWhile ws ≠ [] := by
        rw [← hA, hpre2]; exact List.cons_ne_nil _ _
      have hcf : ws ((l.dropWhile ws).head hne2) = false := List.head_dropWhile_not ws l hne2
      have hh1 : (l.dropWhile ws).head? = some ((l.dropWhile ws).head hne2) :=
        List.head?_eq_head hne2
      have hh2 : (l.dropWhile ws).head? = some c := by
        rw [← hA, hpre2]; rfl
      have heq : (l.dropWhile ws).head hne2 = c := by
        rw [hh1] at hh2
        exact Option.some.inj hh2
      have hcH : ws c = false := heq ▸ hcf
      exact dropWhile_eq_self_of_head ws c cs (by simp [hcH])
  rw [hArev, List.reverse_reverse, hBB]

theorem pyStrip_idem (s : String) : pyStrip (pyStrip s) = pyStrip s := by
  unfold pyStrip
  exact congrArg String.mk (stripCore_idem s.data)

theorem pyStrip_empty : pyStrip "" = "" := rfl

theorem read_lines_of_idem (raw : List String) :
    read_lines_of (read_lines_of raw) = read_lines_of raw := by
  unfold read_lines_of
  induction raw with
  | nil => rfl
  | cons a t ih =>
    simp only [List.map_cons, List.filter_cons]
    by_cases h : pyStrip a = ""
    · simp only [h]
      simpa using ih
    · have hd : (decide (¬ pyStrip a = "")) = true := by simp [h]
      simp only [hd, if_pos]
      simp only [List.map_cons, List.filter_cons, pyStrip_idem a, hd, if_pos]
      simpa using ih

theorem read_lines_aset_self (m : List (String × List String)) (k : String)
    (ls : List String) : read_lines (aset m k ls) k = read_lines_of ls := by
  unfold read_lines
  rw [look_aset_self]
  rfl

theorem read_lines_aset_ne (m : List (String × List String)) (k k2 : String)
    (ls : List String) (h : ¬ k2 = k) :
    read_lines (aset m k ls) k2 = read_lines m k2 := by
  unfold read_lines
  rw [look_aset_ne _ _ _ _ h]

/-! ## Claim C3 — error handling of mutations on missing entities -/

/-- Store for the C3 failing input: one entity, nothing else. -/
def c3s : St := ⟨true, ["obj-a"], [], [], [], [], []⟩

/-- Claim C3 (code bug): the spec requires mutation operations to
validate the existence of every referenced uid before making any write
(no partial application), failing with `EntityNotFound`.
`add_import` violates this: with importer `obj-a` present and imported
`obj-b` absent, it appends the forward import line to `obj-a`'s imports
file and only then fails, leaving the store changed (an edge without its
reverse record, violating invariant 1).  Moreover `update_import_why`
with missing entities reports `ReverseRecordNotFound`, never
`EntityNotFound`. -/
theorem c3_add_import_writes_before_validation :
    (add_import c3s "obj-a" "obj-b" "why" none).2 = some (Err.entityNotFound "obj-b") ∧
    ¬ (add_import c3s "obj-a" "obj-b" "why" none).1 = c3s ∧
    read_imports c3s "obj-a" = [] ∧
    read_imports (add_import c3s "obj-a" "obj-b" "why" none).1 "obj-a" = [("obj-b", none)] ∧
    (add_import c3s "obj-a" "obj-b" "why" (some "obj-c")).2 =
      some (Err.entityNotFound "obj-c") ∧
    read_imports (add_import c3s "obj-a" "obj-b" "why" (some "obj-c")).1 "obj-a" =
      [("obj-b", some "obj-c")] ∧
    (update_import_why c3s "obj-a" "obj-b" "new" none).2 = some Err.reverseNotFound := by
  refine ⟨rfl, ?_, rfl, rfl, rfl, rfl, rfl⟩
  decide

/-! ## Claim C9 — deletion primitives on absent targets -/

/-- Claim C9, counterexample: `_remove_line_value` applied to a path
whose file does not exist (target value therefore absent) does not
leave the persisted state unchanged — it creates an empty file.  Here
the map of line files gains an entry. -/
theorem c9_counterexample :
    ¬ remove_line_value ([] : List (String × List String)) "obj-a" "x" = [] := by
  decide

/-- Claim C9 as amended: when the target is absent, `_remove_line_value`
changes no observable line content (every subsequent `_read_lines` of
every file is unchanged), though it may rewrite or create the underlying
file in normalized form; `_safe_unlink` and `_safe_rmtree` are exact
no-ops on absent targets; and the Engine-level removal of an absent
edge (`remove_import`) succeeds without error. -/
theorem c9_amended :
    (∀ (m : List (String × List String)) (k t : String), ¬ t ∈ read_lines m k →
      ∀ k2, read_lines (remove_line_value m k t) k2 = read_lines m k2) ∧
    (∀ (s : St) (uid name : String), ¬ name ∈ akeys (expOf s uid).files →
      safe_unlink_direct s uid name = s) ∧
    (∀ (s : St) (uid sub name : String),
      (subOf s uid sub).elim True (fun sf => ¬ name ∈ akeys sf) →
      safe_unlink_sub s uid sub name = s) ∧
    (∀ (s : St) (uid sub : String), ¬ sub ∈ akeys (expOf s uid).subs →
      safe_rmtree_sub s uid sub = s) ∧
    (∀ (s : St) (importer imported : String) (exporter : Option String),
      s.initialized = true → entity_exists s importer = true →
      (remove_import s importer imported exporter).2 = none) := by
  refine ⟨?_, ?_, ?_, ?_, ?_⟩
  · intro m k t ht k2
    have hfilter : (read_lines m k).filter (fun ln => ¬ ln = t) = read_lines m k := by
      rw [List.filter_eq_self]
      intro a ha
      simp only [decide_eq_true_eq]
      intro hc
      exact ht (hc ▸ ha)
    unfold remove_line_value write_lines
    rw [hfilter]
    by_cases hk : k2 = k
    · subst hk
      rw [read_lines_aset_self]
      unfold read_lines
      exact read_lines_of_idem _
    · exact read_lines_aset_ne _ _ _ _ hk
  · intro s uid name h
    unfold safe_unlink_direct
    rcases hl : look s.exps uid with _ | e
    · rfl
    · have he : expOf s uid = e := by unfold expOf; rw [hl]; rfl
      dsimp only
      rw [if_neg (he ▸ h)]
  · intro s uid sub name h
    unfold safe_unlink_sub
    rcases hl : look s.exps uid with _ | e
    · rfl
    · have he : expOf s uid = e := by unfold expOf; rw [hl]; rfl
      dsimp only
      rcases hs : look e.subs sub with _ | sf
      · rfl
      · have hsub : subOf s uid sub = some sf := by unfold subOf; rw [he, hs]
        rw [hsub] at h
        simp only [Option.elim] at h
        dsimp only
        rw [if_neg h]
  · intro s uid sub h
    unfold safe_rmtree_sub
    rcases hl : look s.exps uid with _ | e
    · rfl
    · have he : expOf s uid = e := by unfold expOf; rw [hl]; rfl
      dsimp only
      rw [if_neg (he ▸ h)]
  · intro s importer imported exporter hinit hent
    unfold remove_import
    rw [if_neg (by simp [hinit]), if_neg (by simp [hent])]
    by_cases ho : optTruthy exporter
    · simp [ho]
    · simp [ho]

/-- Witness for `c9_amended` at concrete inputs. -/
theorem c9_amended_witness :
    (¬ "x" ∈ read_lines [("obj-b", ["y"])] "obj-b") ∧
    read_lines (remove_line_value [("obj-b", ["y"])] "obj-b" "x") "obj-b" =
      read_lines [("obj-b", ["y"])] "obj-b" ∧
    (remove_import c3s "obj-a" "obj-zzz" none).2 = none := by
  refine ⟨by decide, ?_, ?_⟩
  · exact c9_amended.1 [("obj-b", ["y"])] "obj-b" "x" (by decide) "obj-b"
  · exact c9_amended.2.2.2.2 c3s "obj-a" "obj-zzz" none (by decide) (by decide)

/-! ## Claim C10 — re-export does not prevent orphan status -/

/-- Claim C10: an entity `S` that another entity re-exports (appears in
its shared list) but that is no TOC root, is never the imported or via
value of any import edge, and whose own exports area is empty or absent,
is reported by `get_orphans`; and `create_shared` never touches `S`'s
own export area (all its writes are keyed by the exporter). -/
theorem c10_shared_does_not_block_orphan
    (s : St) (S O : String)
    (hinit : s.initialized = true)
    (hS : S ∈ all_uids s)
    (hshared : S ∈ read_shared s O)
    (hOS : ¬ O = S)
    (hroot : ∀ tn ∈ all_toc_names s, ¬ (read_lines s.tocs tn).head? = some S)
    (himp : ∀ u ∈ all_uids s, ∀ p ∈ read_imports s u, ¬ p.1 = S ∧ ¬ p.2 = some S)
    (hexp : expOf s S = ExpArea.empty) :
    (∃ L, get_orphans s = Except.ok L ∧ S ∈ L) ∧
    (∀ E sids, ¬ E = S →
      look ((create_shared s E sids).1).exps S = look s.exps S) := by
  constructor
  · refine ⟨_, by unfold get_orphans; rw [if_neg (by simp [hinit])], ?_⟩
    rw [List.mem_filter]
    refine ⟨hS, ?_⟩
    simp only [decide_eq_true_eq]
    refine ⟨?_, ?_, ?_⟩
    · intro hmem
      have : ∀ acc : List String, (∀ x ∈ acc, ¬ x = S) →
          ∀ tns : List String, (∀ tn ∈ tns, ¬ (read_lines s.tocs tn).head? = some S) →
          ∀ x ∈ tns.foldl (fun acc tn =>
            match read_lines s.tocs tn with
            | [] => acc
            | x :: _ => acc ++ [x]) acc, ¬ x = S := by
        intro acc hacc tns
        induction tns generalizing acc with
        | nil => intro _ x hx; exact hacc x hx
        | cons tn rest ih =>
          intro htns x hx
          rcases hrd : read_lines s.tocs tn with _ | ⟨y, ys⟩
          · simp only [List.foldl_cons, hrd] at hx
            exact ih acc hacc (fun t ht => htns t (List.mem_cons_of_mem _ ht)) x hx
          · simp only [List.foldl_cons, hrd] at hx
            refine ih (acc ++ [y]) ?_ (fun t ht => htns t (List.mem_cons_of_mem _ ht)) x hx
            intro z hz
            rcases List.mem_append.1 hz with h1 | h2
            · exact hacc z h1
            · have : z = y := by simpa using h2
              subst this
              intro hzS
              exact htns tn (List.mem_cons_self _ _) (by rw [hrd, hzS]; rfl)
      exact this [] (by simp) (all_toc_names s) hroot S hmem rfl
    · intro hmem
      rw [List.mem_flatMap] at hmem
      obtain ⟨u, hu, hmem2⟩ := hmem
      rw [List.mem_flatMap] at hmem2
      obtain ⟨p, hp, hmem3⟩ := hmem2
      have hps := himp u hu p hp
      rcases List.mem_append.1 hmem3 with h1 | h2
      · by_cases hh : ¬ p.1 = ""
        · simp only [if_pos (by simpa using hh), List.mem_singleton] at h1
          exact hps.1 h1.symm
        · simp only [if_neg hh] at h1
          simp at h1
      · rcases hv : p.2 with _ | v
        · rw [hv] at h2; simp at h2
        · rw [hv] at h2
          by_cases hvv : ¬ v = ""
          · simp only [if_pos (by simpa using hvv), List.mem_singleton] at h2
            exact hps.2 (by rw [hv, h2])
          · simp only [if_neg hvv] at h2
            simp at h2
    · intro hcon
      rw [hexp] at hcon
      simp [ExpArea.empty] at hcon
  · intro E sids hES
    unfold create_shared
    by_cases h1 : s.initialized = true
    swap
    · simp [hinit] at h1
    rw [if_neg (by simp [h1])]
    by_cases h2 : entity_exists s E = true
    swap
    · rw [if_pos (by simpa using h2)]
    rw [if_neg (by simpa using h2)]
    have base : look (mkExpDir s E).exps S = look s.exps S := by
      unfold mkExpDir
      exact look_aset_ne _ _ _ _ (fun hh => hES hh.symm) |>.symm ▸ rfl
    have main : ∀ (l : List String) (st : St), look st.exps S = look s.exps S →
        look ((l.foldl (fun st sid =>
          let st1 := { st with shr := append_line_unique st.shr E sid }
          let st2 := mkSubDir st1 E sid
          if "description" ∈ akeys ((subOf st2 E sid).getD []) then st2
          else
            let purpose :=
              if entity_exists st2 sid then (look (read_desc st2 sid) "purpose").getD "" else ""
            writeSubFile st2 E sid "description" (if purpose = "" then sid else purpose)) st)).exps S =
        look s.exps S := by
      intro l
      induction l with
      | nil => intro st hst; exact hst
      | cons sid rest ih =>
        intro st hst
        rw [List.foldl_cons]
        apply ih
        set st1 : St := { st with shr := append_line_unique st.shr E sid } with hst1
        have hst1e : look st1.exps S = look s.exps S := hst
        set st2 : St := mkSubDir st1 E sid with hst2
        have hst2e : look st2.exps S = look s.exps S := by
          rw [hst2]
          unfold mkSubDir
          simp only
          rw [look_aset_ne _ _ _ _ (fun hh => hES hh.symm)]
          exact hst1e
        by_cases hdesc : "description" ∈ akeys ((subOf st2 E sid).getD [])
        · simp only [if_pos hdesc]
          exact hst2e
        · simp only [if_neg hdesc]
          unfold writeSubFile
          simp only
          rw [look_aset_ne _ _ _ _ (fun hh => hES hh.symm)]
          exact hst2e
    exact main sids (mkExpDir s E) base

/-- Store witnessing `c10_shared_does_not_block_orphan`: `obj-a` is the
TOC root and re-exports `obj-b`; `obj-b` is otherwise unreferenced with
no export area of its own. -/
def c10s : St :=
  ⟨true, ["obj-a", "obj-b"], [], [("obj-a", ["obj-b"])], [],
    [("obj-a", ⟨[], [("obj-b", [("description", "obj-b\n")])]⟩)], [("TOC", ["obj-a"])]⟩

/-! ## Lemmas about first-occurrence lookup and the importer passes -/

theorem look_append {α : Type} (a b : List (String × α)) (k : String) :
    look (a ++ b) k = match look a k with
      | some v => some v
      | none => look b k := by
  induction a with
  | nil => rfl
  | cons p t ih =>
    by_cases hp : p.1 = k
    · simp only [List.cons_append, look, if_pos hp]
    · simp only [List.cons_append, look, if_neg hp]
      exact ih

theorem mem_dedupFst {l : List (String × String)} {seen : List String} {k v : String} :
    (k, v) ∈ dedupFst l seen ↔ ¬ k ∈ seen ∧ look l k = some v := by
  induction l generalizing seen with
  | nil => simp [dedupFst, look]
  | cons p t ih =>
    rcases p with ⟨k0, v0⟩
    by_cases hseen : k0 ∈ seen
    · simp only [dedupFst, if_pos hseen]
      rw [ih]
      by_cases hk : k0 = k
      · subst hk
        constructor
        · intro ⟨h1, _⟩; exact absurd hseen h1
        · intro ⟨h1, _⟩; exact absurd hseen h1
      · simp only [look, if_neg hk]
    · simp only [dedupFst, if_neg hseen, List.mem_cons]
      by_cases hk : k0 = k
      · subst hk
        simp only [look, if_pos rfl]
        constructor
        · intro h
          rcases h with h | h
          · have hv : v0 = v := (Prod.mk.injEq _ _ _ _ ▸ h).2.symm
            exact ⟨hseen, by rw [hv]; simp⟩
          · rw [ih] at h
            exact absurd (List.mem_cons_self _ _) h.1
        · intro ⟨h1, h2⟩
          left
          rw [Option.some.inj h2]
      · simp only [look, if_neg hk]
        rw [ih]
        constructor
        · intro h
          rcases h with h | h
          · exact absurd (Prod.mk.injEq _ _ _ _ ▸ h).1 (fun hh => hk hh.symm)
          · refine ⟨fun hc => h.1 (List.mem_cons_of_mem _ hc), h.2⟩
        · intro ⟨h1, h2⟩
          right
          refine ⟨fun hc => ?_, h2⟩
          rcases List.mem_cons.1 hc with hc | hc
          · exact hk hc.symm
          · exact h1 hc

theorem mem_all_importers_iff {s : St} {uid k v : String} :
    (k, v) ∈ all_importers s uid ↔
      look (importers_pass1 s uid ++ importers_pass2 s uid ++ importers_pass3 s uid) k =
        some v := by
  unfold all_importers
  rw [mem_dedupFst]
  simp

theorem look_map_snd {α β : Type} (l : List (String × α)) (f : α → β) (k : String) :
    look (l.map (fun p => (p.1, f p.2))) k = (look l k).map f := by
  induction l with
  | nil => rfl
  | cons p t ih =>
    by_cases hp : p.1 = k
    · simp only [List.map_cons, look, if_pos hp]
      rfl
    · simp only [List.map_cons, look, if_neg hp]
      exact ih

theorem look_of_nodup_mem {α : Type} {l : List (String × α)} {k : String} {v : α} :
    (akeys l).Nodup → (k, v) ∈ l → look l k = some v := by
  induction l with
  | nil => intro _ h; simp at h
  | cons p t ih =>
    intro hnd h
    have hnd2 : ¬ p.1 ∈ akeys t ∧ (akeys t).Nodup := by
      simpa only [akeys, List.map_cons, List.nodup_cons] using hnd
    rcases List.mem_cons.1 h with h1 | h1
    · rw [← h1]
      simp [look]
    · have hk : k ∈ akeys t := by
        simp only [akeys, List.mem_map]
        exact ⟨(k, v), h1, rfl⟩
      have hp : ¬ p.1 = k := fun hh => hnd2.1 (hh ▸ hk)
      simp only [look, if_neg hp]
      exact ih hnd2.2 h1

theorem look_perm_of_nodup {α : Type} {l l2 : List (String × α)} (hperm : l.Perm l2)
    (hnd : (akeys l).Nodup) (k : String) : look l k = look l2 k := by
  have hnd2 : (akeys l2).Nodup := by
    have : (akeys l).Perm (akeys l2) := hperm.map _
    exact this.nodup_iff.1 hnd
  rcases hl : look l k with _ | v
  · rcases hl2 : look l2 k with _ | v2
    · rfl
    · have := look_mem hl2
      have hmem : (k, v2) ∈ l := hperm.mem_iff.2 this
      rw [look_of_nodup_mem hnd hmem] at hl
      exact absurd hl (by simp)
  · have := look_mem hl
    exact (look_of_nodup_mem hnd2 (hperm.mem_iff.1 this)).symm

theorem akeys_aset_cases {α : Type} (l : List (String × α)) (k : String) (v : α) :
    akeys (aset l k v) = if k ∈ akeys l then akeys l else akeys l ++ [k] := by
  induction l with
  | nil => simp [aset, akeys]
  | cons p t ih =>
    by_cases hp : p.1 = k
    · rw [show aset (p :: t) k v = (k, v) :: t by simp [aset, hp]]
      simp only [akeys, List.map_cons]
      rw [if_pos (by simp [akeys, hp.symm])]
      rw [hp]
    · rw [show aset (p :: t) k v = p :: aset t k v by simp [aset, hp]]
      simp only [akeys, List.map_cons] at ih ⊢
      rw [ih]
      by_cases hk : k ∈ List.map (fun p => p.1) t
      · rw [if_pos hk, if_pos (by simp [hk])]
      · rw [if_neg hk]
        rw [if_neg (by
          simp only [List.mem_cons, not_or]
          exact ⟨fun hh => hp hh.symm, hk⟩)]
        simp

theorem akeys_aset_nodup {α : Type} {l : List (String × α)} {k : String} {v : α}
    (hnd : (akeys l).Nodup) : (akeys (aset l k v)).Nodup := by
  rw [akeys_aset_cases]
  by_cases hk : k ∈ akeys l
  · rw [if_pos hk]; exact hnd
  · rw [if_neg hk]
    refine List.nodup_append.2 ⟨hnd, List.nodup_singleton _, ?_⟩
    intro a ha hb
    rw [List.mem_singleton] at hb
    exact hk (hb ▸ ha)

theorem mem_aset_self {α : Type} (l : List (String × α)) (k : String) (v : α) :
    (k, v) ∈ aset l k v := by
  induction l with
  | nil => simp [aset]
  | cons p t ih =>
    by_cases hp : p.1 = k
    · simp [aset, hp]
    · simp only [aset, if_neg hp]
      exact List.mem_cons_of_mem _ ih

theorem mem_read_lines_clean (m : List (String × List String)) (k : String) :
    ∀ x ∈ read_lines m k, pyStrip x = x ∧ ¬ x = "" := by
  intro x hx
  unfold read_lines read_lines_of at hx
  rw [List.mem_filter] at hx
  obtain ⟨hx1, hx2⟩ := hx
  rw [List.mem_map] at hx1
  obtain ⟨y, _, hy⟩ := hx1
  constructor
  · rw [← hy]; exact pyStrip_idem y
  · simpa using hx2

theorem read_lines_of_eq_self {ls : List String}
    (h : ∀ x ∈ ls, pyStrip x = x ∧ ¬ x = "") : read_lines_of ls = ls := by
  unfold read_lines_of
  induction ls with
  | nil => rfl
  | cons a t ih =>
    have ha := h a (List.mem_cons_self _ _)
    simp only [List.map_cons, List.filter_cons, ha.1]
    rw [if_pos (by simpa using ha.2)]
    congr 1
    exact ih (fun x hx => h x (List.mem_cons_of_mem _ hx))

theorem look_flatMap_none {f : String → List (String × String)} {us : List String}
    {k : String} (hall : ∀ o ∈ us, ∀ p ∈ f o, ¬ p.1 = k) :
    look (us.flatMap f) k = none := by
  induction us with
  | nil => rfl
  | cons o rest ih =>
    rw [List.flatMap_cons, look_append]
    have h1 : look (f o) k = none := by
      apply look_eq_none
      intro hc
      simp only [akeys, List.mem_map] at hc
      obtain ⟨p, hp, hk⟩ := hc
      exact hall o (List.mem_cons_self _ _) p hp hk
    rw [h1]
    exact ih (fun o2 ho2 => hall o2 (List.mem_cons_of_mem _ ho2))

theorem look_flatMap_some {f : String → List (String × String)} {us : List String}
    {e k v : String} (he : e ∈ us)
    (hbefore : ∀ o ∈ us, ¬ o = e → ∀ p ∈ f o, ¬ p.1 = k)
    (hseg : look (f e) k = some v) :
    look (us.flatMap f) k = some v := by
  induction us with
  | nil => simp at he
  | cons o rest ih =>
    rw [List.flatMap_cons, look_append]
    by_cases ho : o = e
    · subst ho
      rw [hseg]
    · have h1 : look (f o) k = none := by
        apply look_eq_none
        intro hc
        simp only [akeys, List.mem_map] at hc
        obtain ⟨p, hp, hk⟩ := hc
        exact hbefore o (List.mem_cons_self _ _) ho p hp hk
      rw [h1]
      have he2 : e ∈ rest := by
        rcases List.mem_cons.1 he with h | h
        · exact absurd h.symm ho
        · exact h
      exact ih he2 (fun o2 ho2 => hbefore o2 (List.mem_cons_of_mem _ ho2))

/-! ## Stripping facts for stored reason texts -/

theorem dropWhile_eq_self_of_strip (l : List Char) (h : stripCore l = l) :
    l.dropWhile Char.isWhitespace = l := by
  apply (List.dropWhile_sublist Char.isWhitespace).eq_of_length
  have h1 : (stripCore l).length ≤ (l.dropWhile Char.isWhitespace).length := by
    unfold stripCore
    rw [List.length_reverse]
    calc ((l.dropWhile Char.isWhitespace).reverse.dropWhile Char.isWhitespace).length
        ≤ (l.dropWhile Char.isWhitespace).reverse.length :=
          (List.dropWhile_sublist _).length_le
      _ = (l.dropWhile Char.isWhitespace).length := List.length_reverse _
  have h2 := congrArg List.length h
  have h3 := (List.dropWhile_sublist (l := l) Char.isWhitespace).length_le
  omega

theorem rev_dropWhile_eq_self_of_strip (l : List Char) (h : stripCore l = l) :
    l.reverse.dropWhile Char.isWhitespace = l.reverse := by
  have hL := dropWhile_eq_self_of_strip l h
  have h2 : ((l.reverse.dropWhile Char.isWhitespace).reverse) = l := by
    unfold stripCore at h
    rw [hL] at h
    exact h
  have := congrArg List.reverse h2
  simpa using this

theorem readTxt_storeTxt (w : String) (h : pyStrip w = w) : readTxt (storeTxt w) = w := by
  by_cases hw : w = ""
  · subst hw; rfl
  · have hdata : stripCore w.data = w.data := by
      have := congrArg String.data h
      simpa [pyStrip] using this
    have hR : pyStripR w = w := by
      unfold pyStripR
      rw [rev_dropWhile_eq_self_of_strip w.data hdata, List.reverse_reverse]
    unfold readTxt storeTxt
    rw [hR]
    unfold pyStrip
    have hd : (w ++ "\n").data = w.data ++ ['\n'] := by
      rw [String.data_append]
    rw [hd]
    unfold stripCore
    have hL := dropWhile_eq_self_of_strip w.data hdata
    have hwne : w.data ≠ [] := fun hh => hw (by cases w; simp_all)
    rcases hwd : w.data with _ | ⟨c, cs⟩
    · exact absurd hwd hwne
    have hc : ¬ c.isWhitespace := by
      rw [hwd] at hL
      intro hcc
      rw [List.dropWhile_cons, if_pos hcc] at hL
      have h2 := congrArg List.length hL
      have hle := (List.dropWhile_sublist (l := cs) Char.isWhitespace).length_le
      simp only [List.length_cons] at h2
      omega
    rw [List.cons_append]
    rw [dropWhile_eq_self_of_head Char.isWhitespace c (cs ++ ['\n']) hc]
    rw [show (c :: (cs ++ ['\n'])).reverse = '\n' :: (c :: cs).reverse by simp]
    rw [List.dropWhile_cons]
    rw [if_pos (show ('\n' : Char).isWhitespace = true from rfl)]
    have hRR := rev_dropWhile_eq_self_of_strip w.data hdata
    rw [hwd] at hRR
    rw [hRR, List.reverse_reverse, ← hwd]

/-! ## Frame lemmas for export-area writes -/

theorem expOf_files_writeSubFile (s : St) (uid sub name text o : String) :
    (expOf (writeSubFile s uid sub name text) o).files = (expOf s o).files := by
  unfold writeSubFile expOf
  by_cases ho : o = uid
  · subst ho
    rw [look_aset_self]
    rfl
  · rw [look_aset_ne _ _ _ _ ho]

theorem subOf_writeSubFile_ne (s : St) (uid sub name text o sub2 : String)
    (h : ¬ o = uid ∨ ¬ sub2 = sub) :
    subOf (writeSubFile s uid sub name text) o sub2 = subOf s o sub2 := by
  unfold writeSubFile subOf expOf
  by_cases ho : o = uid
  · subst ho
    rw [look_aset_self]
    rcases h with h | h
    · exact absurd rfl h
    · simp only [Option.getD_some]
      rw [look_aset_ne _ _ _ _ h]
  · rw [look_aset_ne _ _ _ _ ho]

theorem subOf_writeSubFile_self (s : St) (uid sub name text : String) :
    subOf (writeSubFile s uid sub name text) uid sub =
      some (aset ((look (expOf s uid).subs sub).getD []) name (storeTxt text)) := by
  unfold writeSubFile subOf expOf
  rw [look_aset_self]
  simp only [Option.getD_some]
  rw [look_aset_self]

theorem expOf_writeDirectFile_ne (s : St) (uid name text o : String) (h : ¬ o = uid) :
    expOf (writeDirectFile s uid name text) o = expOf s o := by
  unfold writeDirectFile expOf
  rw [look_aset_ne _ _ _ _ h]

theorem expOf_writeDirectFile_self (s : St) (uid name text : String) :
    expOf (writeDirectFile s uid name text) uid =
      { expOf s uid with files := aset (expOf s uid).files name (storeTxt text) } := by
  unfold writeDirectFile expOf
  rw [look_aset_self]
  rfl

theorem subOf_writeDirectFile (s : St) (uid name text o sub : String) :
    subOf (writeDirectFile s uid name text) o sub = subOf s o sub := by
  unfold writeDirectFile subOf expOf
  by_cases ho : o = uid
  · subst ho
    rw [look_aset_self]
    rfl
  · rw [look_aset_ne _ _ _ _ ho]

theorem safe_unlink_direct_files_ne (s : St) (uid name o : String) (h : ¬ o = uid) :
    expOf (safe_unlink_direct s uid name) o = expOf s o := by
  unfold safe_unlink_direct
  rcases hl : look s.exps uid with _ | e
  · rfl
  · dsimp only
    by_cases hn : name ∈ akeys e.files
    · rw [if_pos hn]
      unfold expOf
      rw [look_aset_ne _ _ _ _ h]
    · rw [if_neg hn]

theorem subOf_safe_unlink_direct (s : St) (uid name o sub : String) :
    subOf (safe_unlink_direct s uid name) o sub = subOf s o sub := by
  unfold safe_unlink_direct
  rcases hl : look s.exps uid with _ | e
  · rfl
  · dsimp only
    by_cases hn : name ∈ akeys e.files
    · rw [if_pos hn]
      unfold subOf expOf
      by_cases ho : o = uid
      · subst ho
        rw [look_aset_self, hl]
        rfl
      · rw [look_aset_ne _ _ _ _ ho]
    · rw [if_neg hn]

theorem expOf_files_safe_unlink_sub (s : St) (uid sub name o : String) :
    (expOf (safe_unlink_sub s uid sub name) o).files = (expOf s o).files := by
  unfold safe_unlink_sub
  rcases hl : look s.exps uid with _ | e
  · rfl
  · dsimp only
    rcases hs : look e.subs sub with _ | sf
    · rfl
    · dsimp only
      by_cases hn : name ∈ akeys sf
      · rw [if_pos hn]
        unfold expOf
        by_cases ho : o = uid
        · subst ho
          rw [look_aset_self, hl]
          rfl
        · rw [look_aset_ne _ _ _ _ ho]
      · rw [if_neg hn]

theorem subOf_safe_unlink_sub_ne (s : St) (uid sub name o sub2 : String)
    (h : ¬ o = uid ∨ ¬ sub2 = sub) :
    subOf (safe_unlink_sub s uid sub name) o sub2 = subOf s o sub2 := by
  unfold safe_unlink_sub
  rcases hl : look s.exps uid with _ | e
  · rfl
  · dsimp only
    rcases hs : look e.subs sub with _ | sf
    · rfl
    · dsimp only
      by_cases hn : name ∈ akeys sf
      · rw [if_pos hn]
        unfold subOf expOf
        by_cases ho : o = uid
        · subst ho
          rw [look_aset_self, hl]
          simp only [Option.getD_some]
          rcases h with h | h
          · exact absurd rfl h
          · rw [look_aset_ne _ _ _ _ h]
        · rw [look_aset_ne _ _ _ _ ho]
      · rw [if_neg hn]

/-! ## Claim C8 — remove_import removes at most the first matching edge -/

/-- A clean uid or reason token: nonempty, no whitespace. -/
def goodStrB (u : String) : Bool :=
  !(u == "") && u.data.all (fun c => !c.isWhitespace)

/-- A well-formed parsed import edge (round-trips through the line
format). -/
def goodEdgeB : String × Option String → Bool
  | (u, none) => goodStrB u
  | (u, some v) => goodStrB u && goodStrB v

/-- Eta for the one-field `String` structure. -/
theorem strMk_data (s : String) : String.mk s.data = s := by
  cases s
  rfl

theorem splitWSAux_append_nows (a : List Char) (ha : ∀ c ∈ a, c.isWhitespace = false) :
    ∀ acc rest, splitWSAux acc (a ++ rest) = splitWSAux (a.reverse ++ acc) rest := by
  induction a with
  | nil => intro acc rest; rfl
  | cons c t ih =>
    intro acc rest
    have hc : c.isWhitespace = false := ha c (List.mem_cons_self _ _)
    simp only [List.cons_append, splitWSAux, hc, Bool.false_eq_true, if_false]
    have h2 := ih (fun x hx => ha x (List.mem_cons_of_mem _ hx)) (c :: acc) rest
    have h3 : (c :: t).reverse ++ acc = t.reverse ++ (c :: acc) := by simp
    rw [h3]
    exact h2

theorem splitWS_single (u : String) (hne : ¬ u = "")
    (hws : ∀ c ∈ u.data, c.isWhitespace = false) : pySplitWS u = [u] := by
  unfold pySplitWS
  have h1 : splitWSAux [] (u.data ++ []) = splitWSAux (u.data.reverse ++ []) [] :=
    splitWSAux_append_nows u.data hws [] []
  simp only [List.append_nil] at h1
  rw [h1]
  simp only [splitWSAux, List.reverse_reverse, strMk_data]
  simp [hne]

theorem space_data : (" " : String).data = [' '] := rfl

theorem splitWS_pair (u v : String) (hu : ¬ u = "")
    (hwu : ∀ c ∈ u.data, c.isWhitespace = false) (hv : ¬ v = "")
    (hwv : ∀ c ∈ v.data, c.isWhitespace = false) :
    pySplitWS (u ++ " " ++ v) = [u, v] := by
  unfold pySplitWS
  have hdata : (u ++ " " ++ v).data = u.data ++ (' ' :: v.data) := by
    rw [String.data_append, String.data_append, space_data, List.append_assoc]
    rfl
  rw [hdata]
  rw [splitWSAux_append_nows u.data hwu [] (' ' :: v.data)]
  rw [List.append_nil]
  have hsp : (' ' : Char).isWhitespace = true := rfl
  simp only [splitWSAux, hsp, if_true, List.reverse_reverse, strMk_data]
  have h2 : splitWSAux [] (v.data ++ []) = splitWSAux (v.data.reverse ++ []) [] :=
    splitWSAux_append_nows v.data hwv [] []
  simp only [List.append_nil] at h2
  rw [h2]
  simp only [splitWSAux, List.reverse_reverse, strMk_data]
  simp [hu, hv]

/-- Round trip of the import-line codec on well-formed edges. -/
theorem parse_format_import (p : String × Option String) (h : goodEdgeB p = true) :
    parse_import_line (format_import_line p.1 p.2) = p := by
  rcases p with ⟨u, _ | v⟩
  · simp only [goodEdgeB, goodStrB, Bool.and_eq_true, beq_iff_eq, Bool.not_eq_true',
      List.all_eq_true, Bool.not_eq_true] at h
    obtain ⟨hne, hws⟩ := h
    have hne2 : ¬ u = "" := by simpa using hne
    unfold format_import_line parse_import_line
    rw [splitWS_single u hne2 (fun c hc => by simpa using hws c hc)]
    rfl
  · simp only [goodEdgeB, goodStrB, Bool.and_eq_true, beq_iff_eq, Bool.not_eq_true',
      List.all_eq_true, Bool.not_eq_true] at h
    obtain ⟨⟨hneu, hwsu⟩, hnev, hwsv⟩ := h
    have hneu2 : ¬ u = "" := by simpa using hneu
    have hnev2 : ¬ v = "" := by simpa using hnev
    unfold format_import_line parse_import_line
    dsimp only
    rw [if_neg hnev2]
    have hform : u ++ " via=" ++ v = u ++ " " ++ ("via=" ++ v) := by
      rw [String.append_assoc, String.append_assoc]
      rfl
    rw [hform]
    rw [splitWS_pair u ("via=" ++ v) hneu2 (fun c hc => by simpa using hwsu c hc)
      (by
        intro hc
        have hd := congrArg String.data hc
        rw [String.data_append] at hd
        simp at hd)
      (by
        intro c hc
        rw [String.data_append] at hc
        rcases List.mem_append.1 hc with h1 | h2
        · rw [show ("via=" : String).data = ['v', 'i', 'a', '='] from rfl] at h1
          fin_cases h1 <;> rfl
        · simpa using hwsv c h2)]
    simp only [List.foldl]
    have hstarts : strStarts ("via=" ++ v) "via=" = true := by
      unfold strStarts
      rw [String.data_append]
      rw [List.isPrefixOf_iff_prefix]
      exact List.prefix_append _ _
    rw [hstarts]
    simp only [if_true]
    have hdrop : strDrop ("via=" ++ v) 4 = v := by
      unfold strDrop
      rw [String.data_append]
      rw [show ("via=" : String).data = ['v', 'i', 'a', '='] from rfl]
      exact strMk_data v
    rw [hdrop]

/-- The removal loop, as the claim words it: with no exporter, drop the
first edge whose imported uid matches (any via); with an exporter, drop
the first edge equal to the (imported, exporter) pair. -/
def removeFirstMatchSpec : List (String × Option String) → String → Option String →
    List (String × Option String)
  | [], _, _ => []
  | p :: t, m, none => if p.1 = m then t else p :: removeFirstMatchSpec t m none
  | p :: t, m, some ex => if p = (m, some ex) then t else p :: removeFirstMatchSpec t m (some ex)

theorem remove_first_edge_eq_spec (l : List (String × Option String)) (m : String)
    (e : Option String) : remove_first_edge l m e = removeFirstMatchSpec l m e := by
  induction l with
  | nil => cases e <;> rfl
  | cons p t ih =>
    rcases p with ⟨u, v⟩
    cases e with
    | none =>
      by_cases hu : u = m
      · simp [remove_first_edge, removeFirstMatchSpec, hu]
      · simp [remove_first_edge, removeFirstMatchSpec, hu, ih]
    | some ex =>
      by_cases hu : u = m
      · by_cases hv : v = some ex
        · simp [remove_first_edge, removeFirstMatchSpec, hu, hv]
        · simp only [remove_first_edge, removeFirstMatchSpec]
          rw [if_neg (by simp [hu, hv]), if_neg (by simp [Prod.ext_iff, hv])]
          rw [ih]
      · simp only [remove_first_edge, removeFirstMatchSpec]
        rw [if_neg (by simp [hu]), if_neg (by simp [Prod.ext_iff, hu])]
        rw [ih]

theorem remove_first_edge_sublist (l : List (String × Option String)) (m : String)
    (e : Option String) : (remove_first_edge l m e).Sublist l := by
  induction l with
  | nil => simp [remove_first_edge]
  | cons p t ih =>
    rcases p with ⟨u, v⟩
    simp only [remove_first_edge]
    by_cases h : u = m ∧ (e = none ∨ v = e)
    · rw [if_pos h]
      exact (List.sublist_cons_self _ _)
    · rw [if_neg h]
      exact List.Sublist.cons₂ _ ih

theorem stripCore_ends (c : Char) (t : List Char) (hc : ¬ c.isWhitespace)
    (hlast : ∀ d ts, (c :: t).reverse = d :: ts → ¬ d.isWhitespace) :
    stripCore (c :: t) = c :: t := by
  unfold stripCore
  rw [dropWhile_eq_self_of_head _ _ _ hc]
  rcases hrev : (c :: t).reverse with _ | ⟨d, ts⟩
  · exact absurd (congrArg List.length hrev) (by simp)
  · rw [dropWhile_eq_self_of_head _ _ _ (hlast d ts hrev), ← hrev, List.reverse_reverse]

/-- A formatted well-formed edge is already a normalized line. -/
theorem pyStrip_format (p : String × Option String) (h : goodEdgeB p = true) :
    pyStrip (format_import_line p.1 p.2) = format_import_line p.1 p.2 ∧
    ¬ format_import_line p.1 p.2 = "" := by
  rcases p with ⟨u, v⟩
  have hu : goodStrB u = true := by
    rcases v with _ | v <;> simp only [goodEdgeB, Bool.and_eq_true] at h
    · exact h
    · exact h.1
  simp only [goodStrB, Bool.and_eq_true, beq_iff_eq, Bool.not_eq_true', List.all_eq_true,
    Bool.not_eq_true] at hu
  obtain ⟨hneu, hwsu⟩ := hu
  have hneu2 : ¬ u = "" := by simpa using hneu
  have hdu : u.data ≠ [] := fun hh => hneu2 (by cases u; simp_all)
  rcases hud : u.data with _ | ⟨c, cs⟩
  · exact absurd hud hdu
  have hc : ¬ c.isWhitespace := by
    have := hwsu c (by rw [hud]; exact List.mem_cons_self _ _)
    simp [this]
  rcases v with _ | v
  · constructor
    · unfold format_import_line pyStrip
      rw [hud]
      rw [stripCore_ends c cs hc ?hl]
      · exact congrArg String.mk hud.symm |>.trans (strMk_data u)
      case hl =>
        intro d ts hrev
        have hdm : d ∈ (c :: cs).reverse := by rw [hrev]; exact List.mem_cons_self _ _
        rw [List.mem_reverse] at hdm
        have := hwsu d (by rw [hud]; exact hdm)
        simp [this]
    · exact hneu2
  · simp only [goodEdgeB, Bool.and_eq_true] at h
    obtain ⟨_, hv⟩ := h
    simp only [goodStrB, Bool.and_eq_true, beq_iff_eq, Bool.not_eq_true', List.all_eq_true,
      Bool.not_eq_true] at hv
    obtain ⟨hnev, hwsv⟩ := hv
    have hnev2 : ¬ v = "" := by simpa using hnev
    have hdv : v.data ≠ [] := fun hh => hnev2 (by cases v; simp_all)
    unfold format_import_line
    dsimp only
    rw [if_neg hnev2]
    have hdata : (u ++ " via=" ++ v).data = c :: (cs ++ (" via=").data ++ v.data) := by
      rw [String.data_append, String.data_append, hud]
      simp
    constructor
    · unfold pyStrip
      rw [hdata]
      rw [stripCore_ends c _ hc ?hl2]
      · exact congrArg String.mk hdata.symm |>.trans (strMk_data _)
      case hl2 =>
        intro d ts hrev
        have h1 : (c :: (cs ++ (" via=").data ++ v.data)).getLast? = some d := by
          rw [← List.head?_reverse, hrev]
          rfl
        have h2 : (c :: (cs ++ (" via=").data ++ v.data)).getLast? = v.data.getLast? := by
          rw [show c :: (cs ++ (" via=").data ++ v.data) =
            (c :: (cs ++ (" via=").data)) ++ v.data by simp]
          rw [List.getLast?_append]
          rcases hvl : v.data.getLast? with _ | x
          · rw [List.getLast?_eq_none_iff] at hvl
            exact absurd hvl hdv
          · rfl
        have h3 : v.data.getLast? = some d := by rw [← h2]; exact h1
        have hdvmem : d ∈ v.data := List.mem_of_mem_getLast? h3
        have := hwsv d hdvmem
        simp [this]
    · intro hh
      have := congrArg String.data hh
      rw [hdata] at this
      simp at this

/-- The line list written by `remove_import` is already normalized. -/
theorem read_lines_of_formats (l : List (String × Option String))
    (h : ∀ p ∈ l, goodEdgeB p = true) :
    read_lines_of (l.map (fun p => format_import_line p.1 p.2)) =
      l.map (fun p => format_import_line p.1 p.2) := by
  induction l with
  | nil => rfl
  | cons p t ih =>
    have hp := pyStrip_format p (h p (List.mem_cons_self _ _))
    unfold read_lines_of
    simp only [List.map_cons, List.filter_cons, hp.1]
    rw [if_pos (by simpa using hp.2)]
    congr 1
    exact ih (fun q hq => h q (List.mem_cons_of_mem _ hq))

theorem akeys_aerase_not_mem {α : Type} (l : List (String × α)) (k : String) :
    ¬ k ∈ akeys (aerase l k) := by
  intro h
  simp only [akeys, aerase, List.mem_map] at h
  obtain ⟨p, hp, hk⟩ := h
  rw [List.mem_filter] at hp
  have := hp.2
  rw [hk] at this
  simp at this

theorem safe_unlink_direct_shape (s : St) (uid name : String) :
    safe_unlink_direct s uid name = { s with exps := (safe_unlink_direct s uid name).exps } := by
  unfold safe_unlink_direct
  rcases look s.exps uid with _ | e
  · rfl
  · dsimp only
    by_cases h : name ∈ akeys e.files
    · rw [if_pos h]
    · rw [if_neg h]

theorem safe_unlink_sub_shape (s : St) (uid sub name : String) :
    safe_unlink_sub s uid sub name = { s with exps := (safe_unlink_sub s uid sub name).exps } := by
  unfold safe_unlink_sub
  rcases look s.exps uid with _ | e
  · rfl
  · dsimp only
    rcases look e.subs sub with _ | sf
    · rfl
    · dsimp only
      by_cases h : name ∈ akeys sf
      · rw [if_pos h]
      · rw [if_neg h]

/-- After `safe_unlink_direct`, the named flat recipient file is absent
(whether or not it was present before). -/
theorem safe_unlink_direct_absent (s : St) (uid name : String) :
    ¬ name ∈ akeys (expOf (safe_unlink_direct s uid name) uid).files := by
  unfold safe_unlink_direct
  rcases hl : look s.exps uid with _ | e
  · unfold expOf
    rw [hl]
    simp [ExpArea.empty, akeys]
  · have he : expOf s uid = e := by unfold expOf; rw [hl]; rfl
    dsimp only
    by_cases h : name ∈ akeys e.files
    · rw [if_pos h]
      unfold expOf
      simp only [look_aset_self, Option.getD_some]
      exact akeys_aerase_not_mem _ _
    · rw [if_neg h]
      rw [he]
      exact h

/-- After `safe_unlink_sub`, the addressed recipient file inside the
sub-collection is absent (whether or not it was present before). -/
theorem safe_unlink_sub_absent (s : St) (uid sub name : String) :
    ¬ name ∈ akeys ((subOf (safe_unlink_sub s uid sub name) uid sub).getD []) := by
  unfold safe_unlink_sub
  rcases hl : look s.exps uid with _ | e
  · unfold subOf expOf
    rw [hl]
    simp [ExpArea.empty, look, akeys]
  · have he : expOf s uid = e := by unfold expOf; rw [hl]; rfl
    dsimp only
    rcases hs : look e.subs sub with _ | sf
    · unfold subOf
      rw [he, hs]
      simp [akeys]
    · dsimp only
      by_cases h : name ∈ akeys sf
      · rw [if_pos h]
        unfold subOf expOf
        simp only [look_aset_self, Option.getD_some]
        exact akeys_aerase_not_mem _ _
      · rw [if_neg h]
        unfold subOf
        rw [he, hs]
        simpa using h

/-- Store for the C8 counterexample: `obj-a` imports `obj-b` via
`obj-c`, with the matching reverse record under `obj-c`. -/
def c8s : St :=
  ⟨true, ["obj-a", "obj-b", "obj-c"], [("obj-a", ["obj-b via=obj-c"])], [], [],
    [("obj-c", ⟨[], [("obj-b", [("obj-a", "w\n")])]⟩)], []⟩

/-- Claim C8, counterexample: `removeImport(obj-a, obj-b, exporter=none)`
removes the first edge with imported `obj-b` — here the edge
`(obj-b, via obj-c)` — but then unlinks the reverse record addressed by
the *arguments* (the direct record under `obj-b`), not the record that
matches the removed edge: the record under `obj-c`'s sub-collection
survives. -/
theorem c8_counterexample :
    read_imports c8s "obj-a" = [("obj-b", some "obj-c")] ∧
    read_imports (remove_import c8s "obj-a" "obj-b" none).1 "obj-a" = [] ∧
    subOf (remove_import c8s "obj-a" "obj-b" none).1 "obj-c" "obj-b" =
      some [("obj-a", "w\n")] := by
  refine ⟨rfl, rfl, rfl⟩

/-- Claim C8 as amended: `remove_import` removes at most the first
matching edge from the importer's list — first edge with that imported
uid when exporter is none, first `(imported, exporter)` pair otherwise —
and then deletes the reverse record *addressed by its arguments* (under
`exporter/imported/importer` when an exporter is given, else the direct
record under `imported/importer`), regardless of the removed edge's own
via attribute.  Everything else in the store is untouched. -/
theorem c8_remove_import_amended (s : St) (importer imported : String)
    (exporter : Option String)
    (hinit : s.initialized = true) (hent : entity_exists s importer = true)
    (hgood : ∀ p ∈ read_imports s importer, goodEdgeB p = true) :
    (remove_import s importer imported exporter).2 = none ∧
    read_imports (remove_import s importer imported exporter).1 importer =
      removeFirstMatchSpec (read_imports s importer) imported exporter ∧
    (∀ u, ¬ u = importer →
      read_imports (remove_import s importer imported exporter).1 u = read_imports s u) ∧
    (remove_import s importer imported exporter).1.ents = s.ents ∧
    (remove_import s importer imported exporter).1.shr = s.shr ∧
    (remove_import s importer imported exporter).1.descr = s.descr ∧
    (remove_import s importer imported exporter).1.tocs = s.tocs ∧
    (optTruthy exporter = true →
      ¬ importer ∈ akeys ((subOf (remove_import s importer imported exporter).1
        (exporter.getD "") imported).getD [])) ∧
    (optTruthy exporter = false →
      ¬ importer ∈ akeys (expOf (remove_import s importer imported exporter).1 imported).files) := by
  have hmain : (remove_import s importer imported exporter) =
      (if optTruthy exporter then
        safe_unlink_sub { s with imp := (write_lines s.imp importer
          ((remove_first_edge (read_imports s importer) imported exporter).map
            (fun p => format_import_line p.1 p.2))) } (exporter.getD "") imported importer
      else
        safe_unlink_direct { s with imp := (write_lines s.imp importer
          ((remove_first_edge (read_imports s importer) imported exporter).map
            (fun p => format_import_line p.1 p.2))) } imported importer, none) := by
    unfold remove_import
    rw [if_neg (by simp [hinit]), if_neg (by simp [hent])]
    by_cases ho : optTruthy exporter
    · rw [if_pos ho, if_pos ho]
    · rw [if_neg ho, if_neg ho]
  set s1 : St := { s with imp := (write_lines s.imp importer
    ((remove_first_edge (read_imports s importer) imported exporter).map
      (fun p => format_import_line p.1 p.2))) } with hs1
  have hshape : (remove_import s importer imported exporter).1 =
      { s1 with exps := (remove_import s importer imported exporter).1.exps } := by
    rw [hmain]
    by_cases ho : optTruthy exporter
    · simp only [if_pos ho]
      exact safe_unlink_sub_shape _ _ _ _
    · simp only [if_neg ho]
      exact safe_unlink_direct_shape _ _ _
  have hkept : ∀ p ∈ remove_first_edge (read_imports s importer) imported exporter,
      goodEdgeB p = true := by
    intro p hp
    exact hgood p ((remove_first_edge_sublist _ _ _).mem hp)
  have himpfield : s1.imp = aset s.imp importer
      ((remove_first_edge (read_imports s importer) imported exporter).map
        (fun p => format_import_line p.1 p.2)) := rfl
  have himp1 : read_imports s1 importer =
      removeFirstMatchSpec (read_imports s importer) imported exporter := by
    unfold read_imports
    rw [himpfield, read_lines_aset_self, read_lines_of_formats _ hkept, List.map_map]
    have hcong : List.map (parse_import_line ∘ fun p => format_import_line p.1 p.2)
        (remove_first_edge (read_imports s importer) imported exporter) =
        List.map id (remove_first_edge (read_imports s importer) imported exporter) :=
      List.map_congr_left (fun p hp => parse_format_import p (hkept p hp))
    rw [hcong, List.map_id]
    exact remove_first_edge_eq_spec _ _ _
  refine ⟨?_, ?_, ?_, ?_, ?_, ?_, ?_, ?_, ?_⟩
  · rw [hmain]
  · rw [hshape]
    exact himp1
  · intro u hu
    rw [hshape]
    show (read_lines s1.imp u).map parse_import_line =
      (read_lines s.imp u).map parse_import_line
    rw [himpfield, read_lines_aset_ne _ _ _ _ hu]
  · rw [hshape]
  · rw [hshape]
  · rw [hshape]
  · rw [hshape]
  · intro ho
    rw [hmain]
    simp only [if_pos ho]
    exact safe_unlink_sub_absent _ _ _ _
  · intro ho
    rw [hmain]
    rw [if_neg (by simp [ho])]
    exact safe_unlink_direct_absent _ _ _

/-- Witness for `c8_remove_import_amended` on the counterexample store:
the first matching edge is removed per the spec loop. -/
theorem c8_amended_witness :
    c8s.initialized = true ∧ entity_exists c8s "obj-a" = true ∧
    (∀ p ∈ read_imports c8s "obj-a", goodEdgeB p = true) ∧
    read_imports (remove_import c8s "obj-a" "obj-b" none).1 "obj-a" =
      removeFirstMatchSpec (read_imports c8s "obj-a") "obj-b" none :=
  ⟨by decide, by decide, by decide,
    (c8_remove_import_amended c8s "obj-a" "obj-b" none (by decide) (by decide)
      (by decide)).2.1⟩

/-! ## Pass-level helper lemmas for the importer computation -/

theorem look_sortByName {α : Type} (l : List (String × α)) (hnd : (akeys l).Nodup)
    (k : String) : look (sortByName l) k = look l k := by
  apply look_perm_of_nodup (List.perm_insertionSort _ l)
  have hperm : (akeys (sortByName l)).Perm (akeys l) := (List.perm_insertionSort _ l).map _
  exact hperm.nodup_iff.2 hnd

theorem fst_mem_pass1 {s : St} {uid : String} {p : String × String}
    (h : p ∈ importers_pass1 s uid) : p.1 ∈ akeys (expOf s uid).files := by
  unfold importers_pass1 read_direct_recipients at h
  rw [List.mem_map] at h
  obtain ⟨q, hq, hqe⟩ := h
  have hq2 : q ∈ (expOf s uid).files := (List.perm_insertionSort _ _).mem_iff.1 hq
  simp only [akeys, List.mem_map]
  exact ⟨q, hq2, by rw [← hqe]⟩

theorem fst_mem_sub_recipients {sf : List (String × String)} {p : String × String}
    (h : p ∈ sub_recipients sf) : p.1 ∈ akeys sf ∧ ¬ p.1 = "description" := by
  unfold sub_recipients at h
  rw [List.mem_map] at h
  obtain ⟨q, hq, hqe⟩ := h
  rw [List.mem_filter] at hq
  have hq2 : q ∈ sf := (List.perm_insertionSort _ _).mem_iff.1 hq.1
  constructor
  · simp only [akeys, List.mem_map]
    exact ⟨q, hq2, by rw [← hqe]⟩
  · rw [← hqe]
    simpa using hq.2

theorem look_sub_recipients_aset (sf : List (String × String)) (I w : String)
    (hnd : (akeys sf).Nodup) (hIdesc : ¬ I = "description") (hw : pyStrip w = w) :
    look (sub_recipients (aset sf I (storeTxt w))) I = some w := by
  unfold sub_recipients
  rw [look_map_snd]
  have hnd2 : (akeys (aset sf I (storeTxt w))).Nodup := akeys_aset_nodup hnd
  have hndsort : (akeys (sortByName (aset sf I (storeTxt w)))).Nodup := by
    have hperm : (akeys (sortByName (aset sf I (storeTxt w)))).Perm
        (akeys (aset sf I (storeTxt w))) := (List.perm_insertionSort _ _).map _
    exact hperm.nodup_iff.2 hnd2
  have hndfilter : (akeys ((sortByName (aset sf I (storeTxt w))).filter
      (fun p => ¬ p.1 = "description"))).Nodup := by
    refine List.Nodup.sublist ?_ hndsort
    exact (List.filter_sublist _).map _
  have hmem : (I, storeTxt w) ∈ (sortByName (aset sf I (storeTxt w))).filter
      (fun p => ¬ p.1 = "description") := by
    rw [List.mem_filter]
    refine ⟨(List.perm_insertionSort _ _).mem_iff.2 (mem_aset_self _ _ _), by simpa using hIdesc⟩
  rw [look_of_nodup_mem hndfilter hmem]
  show some (readTxt (storeTxt w)) = some w
  rw [readTxt_storeTxt w hw]

theorem look_pass1_none {s : St} {uid k : String}
    (h : ¬ k ∈ akeys (expOf s uid).files) : look (importers_pass1 s uid) k = none := by
  apply look_eq_none
  intro hc
  simp only [akeys, List.mem_map] at hc
  obtain ⟨p, hp, hk⟩ := hc
  exact h (hk ▸ fst_mem_pass1 hp)

theorem importers_pass1_congr (s1 s2 : St) (uid : String)
    (h : (expOf s1 uid).files = (expOf s2 uid).files) :
    importers_pass1 s1 uid = importers_pass1 s2 uid := by
  unfold importers_pass1 read_direct_recipients
  rw [h]

theorem importers_pass2_congr (s1 s2 : St) (uid : String)
    (hents : s1.ents = s2.ents) (hshr : s1.shr = s2.shr)
    (hsub : ∀ o, subOf s1 o uid = subOf s2 o uid) :
    importers_pass2 s1 uid = importers_pass2 s2 uid := by
  unfold importers_pass2
  rw [show all_uids s1 = all_uids s2 by unfold all_uids; rw [hents]]
  congr 1
  funext o
  rw [show read_shared s1 o = read_shared s2 o by unfold read_shared read_lines; rw [hshr]]
  rw [hsub o]

theorem importers_pass3_congr_mem (s1 s2 : St) (uid : String)
    (hents : s1.ents = s2.ents)
    (himp : ∀ o ∈ all_uids s2,
      ((read_imports s1 o).any (fun p => p.1 = uid)) =
        ((read_imports s2 o).any (fun p => p.1 = uid))) :
    importers_pass3 s1 uid = importers_pass3 s2 uid := by
  unfold importers_pass3
  rw [show all_uids s1 = all_uids s2 by unfold all_uids; rw [hents]]
  congr 1
  apply List.filter_congr
  intro o ho
  exact himp o ho

theorem remove_first_edge_append_clean (l : List (String × Option String)) (m : String)
    (v e : Option String) (hno : ∀ p ∈ l, ¬ p.1 = m) (hmatch : e = none ∨ v = e) :
    remove_first_edge (l ++ [(m, v)]) m e = l := by
  induction l with
  | nil =>
    show remove_first_edge ((m, v) :: []) m e = []
    unfold remove_first_edge
    rw [if_pos ⟨rfl, hmatch⟩]
  | cons p t ih =>
    rcases p with ⟨u, pv⟩
    simp only [List.cons_append, remove_first_edge]
    rw [if_neg (by
      intro hcon
      exact hno (u, pv) (List.mem_cons_self _ _) hcon.1)]
    exact congrArg (List.cons (u, pv)) (ih (fun q hq => hno q (List.mem_cons_of_mem _ hq)))

theorem read_lines_append_line_ne (m : List (String × List String)) (k line k2 : String)
    (h : ¬ k2 = k) : read_lines (append_line_unique m k line) k2 = read_lines m k2 := by
  unfold append_line_unique
  by_cases hmem : line ∈ read_lines m k
  · rw [if_pos hmem]
  · rw [if_neg hmem]
    exact read_lines_aset_ne _ _ _ _ h

theorem read_imports_append_edge (s : St) (I : String) (edge : String × Option String)
    (hgoodE : goodEdgeB edge = true)
    (hno : ∀ p ∈ read_imports s I, ¬ p.1 = edge.1) :
    read_imports { s with imp := append_line_unique s.imp I (format_import_line edge.1 edge.2) } I
      = read_imports s I ++ [edge] := by
  have hnotmem : ¬ format_import_line edge.1 edge.2 ∈ read_lines s.imp I := by
    intro hc
    have hip : parse_import_line (format_import_line edge.1 edge.2) ∈ read_imports s I := by
      unfold read_imports
      rw [List.mem_map]
      exact ⟨_, hc, rfl⟩
    rw [parse_format_import edge hgoodE] at hip
    exact hno edge hip rfl
  unfold read_imports
  show (read_lines (append_line_unique s.imp I _) I).map parse_import_line = _
  unfold append_line_unique
  rw [if_neg hnotmem]
  unfold write_lines
  rw [read_lines_aset_self]
  rw [read_lines_of_eq_self (by
    intro x hx
    rcases List.mem_append.1 hx with h1 | h1
    · exact mem_read_lines_clean _ _ x h1
    · have hx2 : x = format_import_line edge.1 edge.2 := by simpa using h1
      rw [hx2]
      have := pyStrip_format edge hgoodE
      exact ⟨this.1, this.2⟩)]
  rw [List.map_append]
  congr 1
  simp only [List.map_cons, List.map_nil]
  rw [parse_format_import edge hgoodE]

/-! ## Claim C1 — edge symmetry of addImport / removeImport -/

/-- Store for the C1 counterexample: three bare entities. -/
def c1s : St := ⟨true, ["obj-a", "obj-b", "obj-c"], [], [], [], [], []⟩

/-- Claim C1, counterexample: after `addImport(I=obj-a, M=obj-b, why=w,
E=obj-c)` with an exporter given, `getRecipients(obj-c)` does *not*
contain `obj-a` at all, and `getRecipients(obj-b)` contains `obj-a` only
with an empty reason (via the fallback scan), not with reason `w`: the
reverse record was written under `obj-c`'s sub-collection for `obj-b`,
which neither query surfaces unless `obj-b` is in `obj-c`'s shared
list. -/
theorem c1_counterexample :
    (add_import c1s "obj-a" "obj-b" "w" (some "obj-c")).2 = none ∧
    get_recipients (add_import c1s "obj-a" "obj-b" "w" (some "obj-c")).1 "obj-c" =
      Except.ok [] ∧
    get_recipients (add_import c1s "obj-a" "obj-b" "w" (some "obj-c")).1 "obj-b" =
      Except.ok [("obj-a", "")] := by
  refine ⟨rfl, rfl, rfl⟩

/-- Claim C1 as amended.  Writing the edge with `addImport(I, M, why,
E)`: with no exporter, `getRecipients(M)` gains `(I, why)` (the record
is a direct export record of `M`); with exporter `E`, the record goes
under `E`'s sub-collection for `M`, so `getRecipients(M)` — not
`getRecipients(E)`, which is unchanged — reports `(I, why)` provided `M`
is in `E`'s shared list and no earlier-precedence record for `I`
exists.  After the matching `removeImport(I, M, E)`, `I` no longer
appears in `getRecipients(M)` at all (given `I` holds no other record or
edge mentioning `M`). -/
theorem c1_edge_symmetry_amended (s : St) (I M E w : String)
    (hinit : s.initialized = true)
    (hIe : I ∈ s.ents) (hMe : M ∈ s.ents) (hEe : E ∈ s.ents)
    (hIg : goodStrB I = true) (hMg : goodStrB M = true) (hEg : goodStrB E = true)
    (hw : pyStrip w = w)
    (hIdesc : ¬ I = "description")
    (hMEne : ¬ M = E)
    (hMEsh : M ∈ read_shared s E)
    (hEin : E ∈ all_uids s)
    (hfilesnd : (akeys (expOf s M).files).Nodup)
    (hsubnd : (akeys ((subOf s E M).getD [])).Nodup)
    (hI1 : ¬ I ∈ akeys (expOf s M).files)
    (hI2 : ∀ p ∈ importers_pass2 s M, ¬ p.1 = I)
    (hno3 : ∀ p ∈ read_imports s I, ¬ p.1 = M)
    (hgoodI : ∀ p ∈ read_imports s I, goodEdgeB p = true) :
    ((add_import s I M w none).2 = none ∧
      (I, w) ∈ all_importers (add_import s I M w none).1 M ∧
      (∀ r, ¬ (I, r) ∈ all_importers
        (remove_import (add_import s I M w none).1 I M none).1 M)) ∧
    ((add_import s I M w (some E)).2 = none ∧
      (I, w) ∈ all_importers (add_import s I M w (some E)).1 M ∧
      all_importers (add_import s I M w (some E)).1 E = all_importers s E ∧
      (∀ r, ¬ (I, r) ∈ all_importers
        (remove_import (add_import s I M w (some E)).1 I M (some E)).1 M)) := by
  have hEne : ¬ E = "" := by
    simp only [goodStrB, Bool.and_eq_true, beq_iff_eq, Bool.not_eq_true'] at hEg
    simpa using hEg.1
  have hgoodMnone : goodEdgeB (M, none) = true := by simpa [goodEdgeB] using hMg
  have hgoodMsomeE : goodEdgeB (M, some E) = true := by
    simp only [goodEdgeB, Bool.and_eq_true]
    exact ⟨hMg, hEg⟩
  -- unfoldings of the two add_import calls
  have haddA : add_import s I M w none =
      (writeDirectFile { s with imp := append_line_unique s.imp I (format_import_line M none) }
        M I w, none) := by
    unfold add_import
    rw [if_neg (by simp [hinit])]
    rw [if_neg (by simp [entity_exists, hIe])]
    rw [if_neg (by simp [optTruthy])]
    rw [if_neg (by simp [entity_exists, hMe])]
  have haddB : add_import s I M w (some E) =
      (writeSubFile { s with imp := append_line_unique s.imp I (format_import_line M (some E)) }
        E M I w, none) := by
    unfold add_import
    rw [if_neg (by simp [hinit])]
    rw [if_neg (by simp [entity_exists, hIe])]
    rw [if_pos (by simp [optTruthy, hEne])]
    rw [if_neg (by simp [entity_exists, hEe])]
    rfl
  set s1A : St := { s with imp := append_line_unique s.imp I (format_import_line M none) }
    with hs1A
  set s1B : St := { s with imp := append_line_unique s.imp I (format_import_line M (some E)) }
    with hs1B
  set sA : St := writeDirectFile s1A M I w with hsA
  set sB : St := writeSubFile s1B E M I w with hsB
  -- imports of I after the two appends
  have himpA : read_imports sA I = read_imports s I ++ [(M, none)] := by
    rw [hsA]
    show read_imports s1A I = _
    rw [hs1A]
    exact read_imports_append_edge s I (M, none) hgoodMnone hno3
  have himpB : read_imports sB I = read_imports s I ++ [(M, some E)] := by
    rw [hsB]
    show read_imports s1B I = _
    rw [hs1B]
    exact read_imports_append_edge s I (M, some E) hgoodMsomeE hno3
  have himpAne : ∀ u, ¬ u = I → read_imports sA u = read_imports s u := by
    intro u hu
    show read_imports s1A u = _
    unfold read_imports
    rw [hs1A]
    show (read_lines (append_line_unique s.imp I _) u).map _ = _
    rw [read_lines_append_line_ne _ _ _ _ hu]
  have himpBne : ∀ u, ¬ u = I → read_imports sB u = read_imports s u := by
    intro u hu
    show read_imports s1B u = _
    unfold read_imports
    rw [hs1B]
    show (read_lines (append_line_unique s.imp I _) u).map _ = _
    rw [read_lines_append_line_ne _ _ _ _ hu]
  constructor
  · -- Part A: direct import
    refine ⟨by rw [haddA], ?_, ?_⟩
    · -- (I, w) ∈ all_importers sA M via pass 1
      rw [haddA]
      show (I, w) ∈ all_importers sA M
      rw [mem_all_importers_iff, look_append, look_append]
      have h1 : look (importers_pass1 sA M) I = some w := by
        unfold importers_pass1 read_direct_recipients
        rw [look_map_snd]
        have hfiles : (expOf sA M).files = aset (expOf s M).files I (storeTxt w) := by
          rw [hsA, expOf_writeDirectFile_self]
          rfl
        rw [hfiles]
        rw [look_sortByName _ (akeys_aset_nodup hfilesnd)]
        rw [look_aset_self]
        show some (readTxt (storeTxt w)) = some w
        rw [readTxt_storeTxt w hw]
      rw [h1]
    · -- after remove_import, I is gone from all_importers
      intro r hmem
      rw [haddA] at hmem
      show False
      set s2A : St := (remove_import sA I M none).1 with hs2A
      have hremA : remove_import sA I M none =
          (safe_unlink_direct { sA with imp := (write_lines sA.imp I
            ((remove_first_edge (read_imports sA I) M none).map
              (fun p => format_import_line p.1 p.2))) } M I, none) := by
        unfold remove_import
        rw [if_neg (by simp [hsA, writeDirectFile, hinit])]
        rw [if_neg (by
          simp only [Bool.not_eq_true]
          rw [show entity_exists sA I = entity_exists s I from rfl]
          simp [entity_exists, hIe])]
        rw [if_neg (by simp [optTruthy])]
      have hkeptA : remove_first_edge (read_imports sA I) M none = read_imports s I := by
        rw [himpA]
        exact remove_first_edge_append_clean _ _ _ _ hno3 (Or.inl rfl)
      rw [mem_all_importers_iff, look_append, look_append] at hmem
      have hp1 : look (importers_pass1 s2A M) I = none := by
        apply look_pass1_none
        rw [hs2A, hremA]
        exact safe_unlink_direct_absent _ _ _
      have hp2 : look (importers_pass2 s2A M) I = none := by
        have hcong : importers_pass2 s2A M = importers_pass2 s M := by
          apply importers_pass2_congr
          · rw [hs2A, hremA]
            rw [safe_unlink_direct_shape]
            rfl
          · rw [hs2A, hremA]
            rw [safe_unlink_direct_shape]
            rfl
          · intro o
            rw [hs2A, hremA]
            rw [subOf_safe_unlink_direct]
            show subOf sA o M = subOf s o M
            rw [hsA]
            rw [subOf_writeDirectFile]
            rfl
        rw [hcong]
        apply look_eq_none
        intro hc
        simp only [akeys, List.mem_map] at hc
        obtain ⟨p, hp, hk⟩ := hc
        exact hI2 p hp hk
      have hp3 : look (importers_pass3 s2A M) I = none := by
        apply look_eq_none
        intro hc
        unfold importers_pass3 at hc
        simp only [akeys, List.map_map, List.mem_map] at hc
        obtain ⟨o, ho, hk⟩ := hc
        rw [List.mem_filter] at ho
        have hoI : o = I := hk
        rw [hoI] at ho
        have himps2A : read_imports s2A I = read_imports s I := by
          rw [hs2A, hremA]
          show read_imports (safe_unlink_direct _ M I) I = _
          rw [show read_imports (safe_unlink_direct { sA with imp := (write_lines sA.imp I
            ((remove_first_edge (read_imports sA I) M none).map
              (fun p => format_import_line p.1 p.2))) } M I) I =
            (read_lines (write_lines sA.imp I
              ((remove_first_edge (read_imports sA I) M none).map
                (fun p => format_import_line p.1 p.2))) I).map parse_import_line from by
            rw [safe_unlink_direct_shape]
            rfl]
          unfold write_lines
          rw [read_lines_aset_self]
          rw [hkeptA]
          rw [read_lines_of_formats _ (fun p hp => hgoodI p hp), List.map_map]
          have hcong2 : List.map (parse_import_line ∘ fun p => format_import_line p.1 p.2)
              (read_imports s I) = List.map id (read_imports s I) :=
            List.map_congr_left (fun p hp => parse_format_import p (hgoodI p hp))
          rw [hcong2, List.map_id]
        rw [himps2A] at ho
        have := ho.2
        rw [List.any_eq_true] at this
        obtain ⟨p, hp, hpe⟩ := this
        exact hno3 p hp (by simpa using hpe)
      rw [hp1, hp2, hp3] at hmem
      simp at hmem
  · -- Part B: import via exporter E
    refine ⟨by rw [haddB], ?_, ?_, ?_⟩
    · -- (I, w) ∈ all_importers sB M via pass 2 at E
      rw [haddB]
      show (I, w) ∈ all_importers sB M
      rw [mem_all_importers_iff, look_append, look_append]
      have h1 : look (importers_pass1 sB M) I = none := by
        apply look_pass1_none
        rw [hsB]
        rw [expOf_files_writeSubFile]
        exact hI1
      have h2 : look (importers_pass2 sB M) I = some w := by
        unfold importers_pass2
        have hus : all_uids sB = all_uids s := rfl
        rw [hus]
        apply look_flatMap_some hEin
        · intro o ho hoE p hpmem
          by_cases hsh : M ∈ read_shared sB o
          · rw [if_pos hsh] at hpmem
            have hsub : subOf sB o M = subOf s o M := by
              rw [hsB]
              exact subOf_writeSubFile_ne _ _ _ _ _ _ _ (Or.inl hoE)
            rw [hsub] at hpmem
            have hshs : M ∈ read_shared s o := hsh
            have hpmem2 : p ∈ importers_pass2 s M := by
              unfold importers_pass2
              rw [List.mem_flatMap]
              refine ⟨o, ho, ?_⟩
              rw [if_pos hshs]
              exact hpmem
            exact hI2 p hpmem2
          · rw [if_neg hsh] at hpmem
            simp at hpmem
        · have hshE : M ∈ read_shared sB E := hMEsh
          rw [if_pos hshE]
          have hsubE : subOf sB E M =
              some (aset ((subOf s E M).getD []) I (storeTxt w)) := by
            rw [hsB]
            rw [subOf_writeSubFile_self]
            rfl
          rw [hsubE]
          exact look_sub_recipients_aset _ _ _ hsubnd hIdesc hw
      rw [h1, h2]
    · -- all_importers of E unchanged
      rw [haddB]
      show all_importers sB E = all_importers s E
      unfold all_importers
      have e1 : importers_pass1 sB E = importers_pass1 s E :=
        importers_pass1_congr sB s E (by rw [hsB]; exact expOf_files_writeSubFile _ _ _ _ _ _)
      have e2 : importers_pass2 sB E = importers_pass2 s E := by
        apply importers_pass2_congr
        · rfl
        · rfl
        · intro o
          rw [hsB]
          exact subOf_writeSubFile_ne _ _ _ _ _ _ _ (Or.inr (fun hh => hMEne hh.symm))
      have e3 : importers_pass3 sB E = importers_pass3 s E := by
        apply importers_pass3_congr_mem sB s E rfl
        intro o ho
        by_cases hoI : o = I
        · rw [hoI, himpB, List.any_append]
          have hone : ((([(M, some E)] : List (String × Option String))).any
              (fun p => p.1 = E)) = false := by
            simp [fun hh => hMEne hh]
          rw [hone, Bool.or_false]
        · rw [himpBne o hoI]
      rw [e1, e2, e3]
    · -- after remove_import with exporter, I is gone from all_importers of M
      intro r hmem
      rw [haddB] at hmem
      show False
      set s2B : St := (remove_import sB I M (some E)).1 with hs2B
      have hremB : remove_import sB I M (some E) =
          (safe_unlink_sub { sB with imp := (write_lines sB.imp I
            ((remove_first_edge (read_imports sB I) M (some E)).map
              (fun p => format_import_line p.1 p.2))) } E M I, none) := by
        unfold remove_import
        rw [if_neg (by simp [hsB, writeSubFile, hinit])]
        rw [if_neg (by
          simp only [Bool.not_eq_true]
          rw [show entity_exists sB I = entity_exists s I from rfl]
          simp [entity_exists, hIe])]
        rw [if_pos (by simp [optTruthy, hEne])]
        rfl
      have hkeptB : remove_first_edge (read_imports sB I) M (some E) = read_imports s I := by
        rw [himpB]
        exact remove_first_edge_append_clean _ _ _ _ hno3 (Or.inr rfl)
      rw [mem_all_importers_iff, look_append, look_append] at hmem
      have hp1 : look (importers_pass1 s2B M) I = none := by
        apply look_pass1_none
        intro hc
        apply hI1
        have hfeq : (expOf s2B M).files = (expOf s M).files := by
          rw [hs2B, hremB]
          rw [expOf_files_safe_unlink_sub]
          show (expOf sB M).files = _
          rw [hsB]
          exact expOf_files_writeSubFile _ _ _ _ _ _
        rw [hfeq] at hc
        exact hc
      have hp2 : look (importers_pass2 s2B M) I = none := by
        unfold importers_pass2
        apply look_flatMap_none
        intro o ho p hpmem
        by_cases hsh : M ∈ read_shared s2B o
        · rw [if_pos hsh] at hpmem
          by_cases hoE : o = E
          · rw [hoE] at hpmem
            rcases hsubv : subOf s2B E M with _ | sf
            · rw [hsubv] at hpmem; simp at hpmem
            · rw [hsubv] at hpmem
              have habs := safe_unlink_sub_absent { sB with imp := (write_lines sB.imp I
                ((remove_first_edge (read_imports sB I) M (some E)).map
                  (fun p => format_import_line p.1 p.2))) } E M I
              have hsub2 : subOf s2B E M = subOf (safe_unlink_sub { sB with
                  imp := (write_lines sB.imp I
                    ((remove_first_edge (read_imports sB I) M (some E)).map
                      (fun p => format_import_line p.1 p.2))) } E M I) E M := by
                rw [hs2B, hremB]
              rw [hsub2] at hsubv
              rw [hsubv] at habs
              simp only [Option.getD_some] at habs
              have := fst_mem_sub_recipients hpmem
              intro hk
              exact habs (hk ▸ this.1)
          · have hsub : subOf s2B o M = subOf s o M := by
              rw [hs2B, hremB]
              rw [subOf_safe_unlink_sub_ne _ _ _ _ _ _ (Or.inl hoE)]
              show subOf sB o M = subOf s o M
              rw [hsB]
              exact subOf_writeSubFile_ne _ _ _ _ _ _ _ (Or.inl hoE)
            rw [hsub] at hpmem
            have hshs : M ∈ read_shared s o := by
              have : read_shared s2B o = read_shared s o := by
                rw [hs2B, hremB]
                rw [show read_shared (safe_unlink_sub { sB with imp := (write_lines sB.imp I
                  ((remove_first_edge (read_imports sB I) M (some E)).map
                    (fun p => format_import_line p.1 p.2))) } E M I) o =
                  read_shared sB o from by
                    rw [safe_unlink_sub_shape]
                    rfl]
                rfl
              rw [← this]
              exact hsh
            have hents2B : s2B.ents = s.ents := by
              rw [hs2B, hremB]
              rw [safe_unlink_sub_shape]
              rfl
            have hpmem2 : p ∈ importers_pass2 s M := by
              unfold importers_pass2
              rw [List.mem_flatMap]
              refine ⟨o, ?_, ?_⟩
              · rw [show all_uids s = all_uids s2B from by unfold all_uids; rw [hents2B]]
                exact ho
              · rw [if_pos hshs]
                exact hpmem
            exact hI2 p hpmem2
        · rw [if_neg hsh] at hpmem
          simp at hpmem
      have hp3 : look (importers_pass3 s2B M) I = none := by
        apply look_eq_none
        intro hc
        unfold importers_pass3 at hc
        simp only [akeys, List.map_map, List.mem_map] at hc
        obtain ⟨o, ho, hk⟩ := hc
        rw [List.mem_filter] at ho
        have hoI : o = I := hk
        rw [hoI] at ho
        have himps2B : read_imports s2B I = read_imports s I := by
          rw [hs2B, hremB]
          rw [show read_imports (safe_unlink_sub { sB with imp := (write_lines sB.imp I
            ((remove_first_edge (read_imports sB I) M (some E)).map
              (fun p => format_import_line p.1 p.2))) } E M I) I =
            (read_lines (write_lines sB.imp I
              ((remove_first_edge (read_imports sB I) M (some E)).map
                (fun p => format_import_line p.1 p.2))) I).map parse_import_line from by
            rw [safe_unlink_sub_shape]
            rfl]
          unfold write_lines
          rw [read_lines_aset_self]
          rw [hkeptB]
          rw [read_lines_of_formats _ (fun p hp => hgoodI p hp), List.map_map]
          have hcong2 : List.map (parse_import_line ∘ fun p => format_import_line p.1 p.2)
              (read_imports s I) = List.map id (read_imports s I) :=
            List.map_congr_left (fun p hp => parse_format_import p (hgoodI p hp))
          rw [hcong2, List.map_id]
        rw [himps2B] at ho
        have := ho.2
        rw [List.any_eq_true] at this
        obtain ⟨p, hp, hpe⟩ := this
        exact hno3 p hp (by simpa using hpe)
      rw [hp1, hp2, hp3] at hmem
      simp at hmem

/-- Store witnessing `c1_edge_symmetry_amended`: `obj-c` shares
`obj-b`. -/
def c1w : St :=
  ⟨true, ["obj-a", "obj-b", "obj-c"], [], [("obj-c", ["obj-b"])], [],
    [("obj-c", ⟨[], [("obj-b", [("description", "obj-b\n")])]⟩)], []⟩

/-- Witness for `c1_edge_symmetry_amended`. -/
theorem c1_amended_witness :
    (c1w.initialized = true ∧ "obj-b" ∈ read_shared c1w "obj-c") ∧
    (((add_import c1w "obj-a" "obj-b" "why" none).2 = none ∧
      ("obj-a", "why") ∈ all_importers (add_import c1w "obj-a" "obj-b" "why" none).1 "obj-b" ∧
      (∀ r, ¬ ("obj-a", r) ∈ all_importers
        (remove_import (add_import c1w "obj-a" "obj-b" "why" none).1
          "obj-a" "obj-b" none).1 "obj-b")) ∧
    ((add_import c1w "obj-a" "obj-b" "why" (some "obj-c")).2 = none ∧
      ("obj-a", "why") ∈ all_importers
        (add_import c1w "obj-a" "obj-b" "why" (some "obj-c")).1 "obj-b" ∧
      all_importers (add_import c1w "obj-a" "obj-b" "why" (some "obj-c")).1 "obj-c" =
        all_importers c1w "obj-c" ∧
      (∀ r, ¬ ("obj-a", r) ∈ all_importers
        (remove_import (add_import c1w "obj-a" "obj-b" "why" (some "obj-c")).1
          "obj-a" "obj-b" (some "obj-c")).1 "obj-b"))) := by
  refine ⟨⟨by decide, by decide⟩, ?_⟩
  exact c1_edge_symmetry_amended c1w "obj-a" "obj-b" "obj-c" "why" (by decide) (by decide)
    (by decide) (by decide) (by decide) (by decide) (by decide) (by decide) (by decide)
    (by decide) (by decide) (by decide) (by decide) (by decide) (by decide) (by decide)
    (by decide) (by decide)

/-! ## Claim C7 — traversal with a single shared visited-set -/

mutual

/-- Preorder list of the uids of non-cycle-flagged nodes. -/
def ncUids : TNode → List String
  | ⟨u, _, _, cy, _, cs⟩ => (if cy then [] else [u]) ++ ncUidsL cs

/-- List version of `ncUids`. -/
def ncUidsL : List TNode → List String
  | [] => []
  | t :: ts => ncUids t ++ ncUidsL ts

end

mutual

/-- Every cycle-flagged node in the tree is a leaf. -/
def cycLeaves : TNode → Prop
  | ⟨_, _, _, cy, _, cs⟩ => (cy = true → cs = []) ∧ cycLeavesL cs

/-- List version of `cycLeaves`. -/
def cycLeavesL : List TNode → Prop
  | [] => True
  | t :: ts => cycLeaves t ∧ cycLeavesL ts

end

theorem ncUids_why (t : TNode) (x : Option String) :
    ncUids { t with why := x } = ncUids t := by
  cases t
  rfl

theorem cycLeaves_why (t : TNode) (x : Option String) :
    cycLeaves { t with why := x } = cycLeaves t := by
  cases t
  rfl

theorem ncUids_mkNode (s : St) (u : String) (cy : Bool) (why : Option String)
    (cs : List TNode) : ncUids (mkNode s u cy why cs) = (if cy then [] else [u]) ++ ncUidsL cs := by
  rfl

theorem cycLeaves_mkNode (s : St) (u : String) (cy : Bool) (why : Option String)
    (cs : List TNode) :
    cycLeaves (mkNode s u cy why cs) = ((cy = true → cs = []) ∧ cycLeavesL cs) := by
  rfl

theorem walkC_spec (s : St) :
    ∀ (d : Nat) (u : String) (vis : List String), vis.Nodup →
      (walkC s d u vis).2 = (ncUids (walkC s d u vis).1).reverse ++ vis ∧
      (walkC s d u vis).2.Nodup ∧
      cycLeaves (walkC s d u vis).1 := by
  intro d
  induction d with
  | zero =>
    intro u vis hnd
    by_cases hu : u ∈ vis
    · rw [show walkC s 0 u vis = (mkNode s u true none [], vis) from by
        unfold walkC; rw [if_pos hu]]
      refine ⟨by simp [ncUids_mkNode, ncUidsL], hnd, ?_⟩
      rw [cycLeaves_mkNode]
      exact ⟨fun _ => rfl, trivial⟩
    · rw [show walkC s 0 u vis = (mkNode s u false none [], u :: vis) from by
        unfold walkC; rw [if_neg hu]]
      refine ⟨by simp [ncUids_mkNode, ncUidsL], by simp [hnd, hu], ?_⟩
      rw [cycLeaves_mkNode]
      exact ⟨by simp, trivial⟩
  | succ d9 ih =>
    intro u vis hnd
    by_cases hu : u ∈ vis
    · rw [show walkC s (d9 + 1) u vis = (mkNode s u true none [], vis) from by
        unfold walkC; rw [if_pos hu]]
      refine ⟨by simp [ncUids_mkNode, ncUidsL], hnd, ?_⟩
      rw [cycLeaves_mkNode]
      exact ⟨fun _ => rfl, trivial⟩
    · have hfold : ∀ (l : List (String × Option String)) (ns : List TNode) (vis0 : List String),
          vis0.Nodup →
          ∃ ts, (l.foldl (fun (acc : List TNode × List String) p =>
              let r1 := walkC s d9 p.1 acc.2
              (acc.1 ++ [r1.1], r1.2)) (ns, vis0)).1 = ns ++ ts ∧
            (l.foldl (fun (acc : List TNode × List String) p =>
              let r1 := walkC s d9 p.1 acc.2
              (acc.1 ++ [r1.1], r1.2)) (ns, vis0)).2 = (ncUidsL ts).reverse ++ vis0 ∧
            (l.foldl (fun (acc : List TNode × List String) p =>
              let r1 := walkC s d9 p.1 acc.2
              (acc.1 ++ [r1.1], r1.2)) (ns, vis0)).2.Nodup ∧
            cycLeavesL ts := by
        intro l
        induction l with
        | nil =>
          intro ns vis0 h0
          exact ⟨[], by simp, by simp [ncUidsL], h0, trivial⟩
        | cons p rest ihl =>
          intro ns vis0 h0
          simp only [List.foldl_cons]
          obtain ⟨h1, h2, h3⟩ := ih p.1 vis0 h0
          obtain ⟨ts, ht1, ht2, ht3, ht4⟩ :=
            ihl (ns ++ [(walkC s d9 p.1 vis0).1]) (walkC s d9 p.1 vis0).2 h2
          refine ⟨(walkC s d9 p.1 vis0).1 :: ts, ?_, ?_, ht3, h3, ht4⟩
          · rw [ht1]
            simp
          · rw [ht2, h1]
            rw [show ncUidsL ((walkC s d9 p.1 vis0).1 :: ts) =
              ncUids (walkC s d9 p.1 vis0).1 ++ ncUidsL ts from rfl]
            simp
      rw [show walkC s (d9 + 1) u vis =
          (mkNode s u false none ((read_imports s u).foldl
            (fun (acc : List TNode × List String) p =>
              let r1 := walkC s d9 p.1 acc.2
              (acc.1 ++ [r1.1], r1.2)) ([], u :: vis)).1,
           ((read_imports s u).foldl
            (fun (acc : List TNode × List String) p =>
              let r1 := walkC s d9 p.1 acc.2
              (acc.1 ++ [r1.1], r1.2)) ([], u :: vis)).2) from by
        conv_lhs => rw [walkC]
        rw [if_neg hu]]
      obtain ⟨ts, ht1, ht2, ht3, ht4⟩ := hfold (read_imports s u) [] (u :: vis)
        (by simp [hnd, hu])
      rw [ht2] at ht3
      rw [ht1, ht2]
      simp only [List.nil_append]
      refine ⟨?_, ht3, ?_⟩
      · rw [ncUids_mkNode]
        simp
      · rw [cycLeaves_mkNode]
        exact ⟨by simp, ht4⟩

theorem walkP_spec (s : St) :
    ∀ (d : Nat) (u : String) (vis : List String), vis.Nodup →
      (walkP s d u vis).2 = (ncUids (walkP s d u vis).1).reverse ++ vis ∧
      (walkP s d u vis).2.Nodup ∧
      cycLeaves (walkP s d u vis).1 := by
  intro d
  induction d with
  | zero =>
    intro u vis hnd
    by_cases hu : u ∈ vis
    · rw [show walkP s 0 u vis = (mkNode s u true none [], vis) from by
        unfold walkP; rw [if_pos hu]]
      refine ⟨by simp [ncUids_mkNode, ncUidsL], hnd, ?_⟩
      rw [cycLeaves_mkNode]
      exact ⟨fun _ => rfl, trivial⟩
    · rw [show walkP s 0 u vis = (mkNode s u false none [], u :: vis) from by
        unfold walkP; rw [if_neg hu]]
      refine ⟨by simp [ncUids_mkNode, ncUidsL], by simp [hnd, hu], ?_⟩
      rw [cycLeaves_mkNode]
      exact ⟨by simp, trivial⟩
  | succ d9 ih =>
    intro u vis hnd
    by_cases hu : u ∈ vis
    · rw [show walkP s (d9 + 1) u vis = (mkNode s u true none [], vis) from by
        unfold walkP; rw [if_pos hu]]
      refine ⟨by simp [ncUids_mkNode, ncUidsL], hnd, ?_⟩
      rw [cycLeaves_mkNode]
      exact ⟨fun _ => rfl, trivial⟩
    · have hfold : ∀ (l : List (String × String)) (ns : List TNode) (vis0 : List String),
          vis0.Nodup →
          ∃ ts, (l.foldl (fun (acc : List TNode × List String) p =>
              let r1 := walkP s d9 p.1 acc.2
              (acc.1 ++ [{ r1.1 with why := some p.2 }], r1.2)) (ns, vis0)).1 = ns ++ ts ∧
            (l.foldl (fun (acc : List TNode × List String) p =>
              let r1 := walkP s d9 p.1 acc.2
              (acc.1 ++ [{ r1.1 with why := some p.2 }], r1.2)) (ns, vis0)).2 =
              (ncUidsL ts).reverse ++ vis0 ∧
            (l.foldl (fun (acc : List TNode × List String) p =>
              let r1 := walkP s d9 p.1 acc.2
              (acc.1 ++ [{ r1.1 with why := some p.2 }], r1.2)) (ns, vis0)).2.Nodup ∧
            cycLeavesL ts := by
        intro l
        induction l with
        | nil =>
          intro ns vis0 h0
          exact ⟨[], by simp, by simp [ncUidsL], h0, trivial⟩
        | cons p rest ihl =>
          intro ns vis0 h0
          simp only [List.foldl_cons]
          obtain ⟨h1, h2, h3⟩ := ih p.1 vis0 h0
          obtain ⟨ts, ht1, ht2, ht3, ht4⟩ :=
            ihl (ns ++ [{ (walkP s d9 p.1 vis0).1 with why := some p.2 }])
              (walkP s d9 p.1 vis0).2 h2
          refine ⟨{ (walkP s d9 p.1 vis0).1 with why := some p.2 } :: ts, ?_, ?_, ht3, ?_, ht4⟩
          · rw [ht1]
            simp
          · rw [ht2, h1]
            rw [show ncUidsL ({ (walkP s d9 p.1 vis0).1 with why := some p.2 } :: ts) =
              ncUids { (walkP s d9 p.1 vis0).1 with why := some p.2 } ++ ncUidsL ts from rfl]
            rw [ncUids_why]
            simp
          · rw [show cycLeaves { (walkP s d9 p.1 vis0).1 with why := some p.2 } =
              cycLeaves (walkP s d9 p.1 vis0).1 from cycLeaves_why _ _]
            exact h3
      rw [show walkP s (d9 + 1) u vis =
          (mkNode s u false none ((all_importers s u).foldl
            (fun (acc : List TNode × List String) p =>
              let r1 := walkP s d9 p.1 acc.2
              (acc.1 ++ [{ r1.1 with why := some p.2 }], r1.2)) ([], u :: vis)).1,
           ((all_importers s u).foldl
            (fun (acc : List TNode × List String) p =>
              let r1 := walkP s d9 p.1 acc.2
              (acc.1 ++ [{ r1.1 with why := some p.2 }], r1.2)) ([], u :: vis)).2) from by
        conv_lhs => rw [walkP]
        rw [if_neg hu]]
      obtain ⟨ts, ht1, ht2, ht3, ht4⟩ := hfold (all_importers s u) [] (u :: vis)
        (by simp [hnd, hu])
      rw [ht2] at ht3
      rw [ht1, ht2]
      simp only [List.nil_append]
      refine ⟨?_, ht3, ?_⟩
      · rw [ncUids_mkNode]
        simp
      · rw [cycLeaves_mkNode]
        exact ⟨by simp, ht4⟩

/-- Store for the concrete C7 cycle example: `obj-a` and `obj-b` import
each other. -/
def c7s : St :=
  ⟨true, ["obj-a", "obj-b"], [("obj-a", ["obj-b"]), ("obj-b", ["obj-a"])], [], [], [], []⟩

/-- Claim C7: `get_children` and `get_parents` terminate on every finite
store for every depth.  A single visited-set is shared across the whole
traversal, so the non-cycle-flagged nodes of the result carry pairwise
distinct uids (each uid is expanded at most once in the entire tree,
which bounds the result independently of the requested depth); any uid
encountered a second time is emitted as a leaf flagged `cycle` with no
children; and depth 0 returns only the root node with no expansion.
With edges `obj-a → obj-b → obj-a`, `get_children(obj-a, depth 5)`
returns the concrete three-node tree whose second `obj-a` occurrence is
a cycle leaf. -/
theorem c7_traversal_visited_set (s : St) (uid : String) (d : Nat)
    (hinit : s.initialized = true) (hent : entity_exists s uid = true) :
    (get_children s uid 0 = .ok (mkNode s uid false none []) ∧
     get_parents s uid 0 = .ok (mkNode s uid false none [])) ∧
    (∀ t, get_children s uid d = .ok t → (ncUids t).Nodup ∧ cycLeaves t) ∧
    (∀ t, get_parents s uid d = .ok t → (ncUids t).Nodup ∧ cycLeaves t) ∧
    get_children c7s "obj-a" 5 =
      .ok ⟨"obj-a", "", "", false, none,
        [⟨"obj-b", "", "", false, none, [⟨"obj-a", "", "", true, none, []⟩]⟩]⟩ := by
  have hok : ∀ dd, get_children s uid dd = .ok (walkC s dd uid []).1 := by
    intro dd
    unfold get_children
    rw [if_neg (by simp [hinit]), if_neg (by simp [hent])]
  have hokP : ∀ dd, get_parents s uid dd = .ok (walkP s dd uid []).1 := by
    intro dd
    unfold get_parents
    rw [if_neg (by simp [hinit]), if_neg (by simp [hent])]
  refine ⟨⟨?_, ?_⟩, ?_, ?_, ?_⟩
  · rw [hok 0]
    rw [show walkC s 0 uid [] = (mkNode s uid false none [], [uid]) from by
      unfold walkC; rw [if_neg (by simp)]]
  · rw [hokP 0]
    rw [show walkP s 0 uid [] = (mkNode s uid false none [], [uid]) from by
      unfold walkP; rw [if_neg (by simp)]]
  · intro t ht
    rw [hok d] at ht
    have hspec := walkC_spec s d uid [] (by simp)
    have ht2 : t = (walkC s d uid []).1 := by
      injection ht with h
      exact h.symm
    rw [ht2]
    refine ⟨?_, hspec.2.2⟩
    have h1 := hspec.1
    have h2 := hspec.2.1
    rw [h1] at h2
    simp only [List.append_nil] at h2
    exact (List.nodup_reverse).1 h2
  · intro t ht
    rw [hokP d] at ht
    have hspec := walkP_spec s d uid [] (by simp)
    have ht2 : t = (walkP s d uid []).1 := by
      injection ht with h
      exact h.symm
    rw [ht2]
    refine ⟨?_, hspec.2.2⟩
    have h1 := hspec.1
    have h2 := hspec.2.1
    rw [h1] at h2
    simp only [List.append_nil] at h2
    exact (List.nodup_reverse).1 h2
  · rfl

/-- Witness for `c7_traversal_visited_set` on the cyclic two-node
store. -/
theorem c7_witness :
    c7s.initialized = true ∧ entity_exists c7s "obj-a" = true ∧
    (∀ t, get_children c7s "obj-a" 5 = .ok t → (ncUids t).Nodup ∧ cycLeaves t) :=
  ⟨by decide, by decide,
    (c7_traversal_visited_set c7s "obj-a" 5 (by decide) (by decide)).2.1⟩

/-! ## Claim C5 — cycle detection -/

/-- A list of uids in which each consecutive pair is an import edge. -/
def chainB (s : St) : List String → Bool
  | [] => true
  | [_] => true
  | u :: v :: t => decide (v ∈ read_import_uids s u) && chainB s (v :: t)

/-- A reported cycle is sound: at least two nodes, closed, and made
of import edges. -/
def goodCycle (s : St) (c : List String) : Prop :=
  2 ≤ c.length ∧ c.head? = c.getLast? ∧ chainB s c = true

theorem chainB_cons_cons (s : St) (u v : String) (t : List String) :
    chainB s (u :: v :: t) = true ↔
      v ∈ read_import_uids s u ∧ chainB s (v :: t) = true := by
  simp [chainB]

theorem chainB_tail (s : St) (u : String) (t : List String)
    (h : chainB s (u :: t) = true) : chainB s t = true := by
  cases t with
  | nil => rfl
  | cons v t2 => exact ((chainB_cons_cons s u v t2).1 h).2

theorem chainB_drop (s : St) : ∀ (n : Nat) (l : List String),
    chainB s l = true → chainB s (l.drop n) = true := by
  intro n
  induction n with
  | zero => intro l h; exact h
  | succ m ih =>
    intro l h
    cases l with
    | nil => rfl
    | cons a t => exact ih t (chainB_tail s a t h)

theorem chainB_concat (s : St) : ∀ (l : List String) (w v : String),
    chainB s l = true → l.getLast? = some w → v ∈ read_import_uids s w →
    chainB s (l ++ [v]) = true := by
  intro l
  induction l with
  | nil =>
    intro w v _ h2 _
    simp at h2
  | cons a t ih =>
    intro w v h1 h2 h3
    cases t with
    | nil =>
      simp at h2
      subst h2
      rw [List.cons_append, List.nil_append]
      exact (chainB_cons_cons s a v []).2 ⟨h3, rfl⟩
    | cons b t2 =>
      rw [List.cons_append]
      refine (chainB_cons_cons s a b (t2 ++ [v])).2
        ⟨((chainB_cons_cons s a b t2).1 h1).1, ?_⟩
      exact ih w v ((chainB_cons_cons s a b t2).1 h1).2
        (by rw [List.getLast?_cons_cons] at h2; exact h2) h3

theorem getLast_drop_lt {α : Type} : ∀ (l : List α) (n : Nat), n < l.length →
    (l.drop n).getLast? = l.getLast? := by
  intro l
  induction l with
  | nil =>
    intro n h
    simp at h
  | cons a t ih =>
    intro n h
    cases n with
    | zero => rfl
    | succ m =>
      rw [List.drop_succ_cons]
      cases t with
      | nil => simp at h
      | cons b t2 =>
        have hm : m < (b :: t2).length := by
          simp only [List.length_cons] at h ⊢
          omega
        rw [ih m hm, List.getLast?_cons_cons]

/-- The cycle reported on a gray hit is a genuine closed import walk. -/
theorem cycle_from_good (s : St) (stk : List String) (u v : String)
    (hch : chainB s stk = true) (hlast : stk.getLast? = some u)
    (hv : v ∈ stk) (he : v ∈ read_import_uids s u) :
    goodCycle s (cycle_from stk v) := by
  have hi : stk.indexOf v < stk.length := List.indexOf_lt_length.2 hv
  have hget : stk[stk.indexOf v] = v := List.getElem_indexOf hi
  have hdrop : stk.drop (stk.indexOf v) = v :: stk.drop (stk.indexOf v + 1) := by
    rw [List.drop_eq_getElem_cons hi, hget]
  unfold cycle_from goodCycle
  refine ⟨?_, ?_, ?_⟩
  · rw [List.length_append, List.length_drop]
    simp only [List.length_singleton]
    omega
  · rw [hdrop]
    have h1 : ((v :: stk.drop (stk.indexOf v + 1)) ++ [v]).head? = some v := by
      rw [List.cons_append, List.head?_cons]
    have h2 : ((v :: stk.drop (stk.indexOf v + 1)) ++ [v]).getLast? = some v :=
      List.getLast?_concat _
    rw [h1, h2]
  · have hc1 : chainB s (stk.drop (stk.indexOf v)) = true := chainB_drop s _ stk hch
    have hl1 : (stk.drop (stk.indexOf v)).getLast? = some u := by
      rw [getLast_drop_lt stk _ hi]
      exact hlast
    exact chainB_concat s _ u v hc1 hl1 he

/-- One edge-loop step of `dfs` (the body of its inner fold). -/
def dfsStep (s : St) (fl : Nat) (acc : DfsSt) (v : String) : DfsSt :=
  match look acc.color v with
  | some 1 => { acc with cycles := acc.cycles ++ [cycle_from acc.stk v] }
  | some 0 => dfs s fl v acc
  | _ => acc

theorem dfs_succ (s : St) (fl : Nat) (u : String) (st : DfsSt) :
    dfs s (fl + 1) u st =
      (let st2 := (read_import_uids s u).foldl (dfsStep s fl)
        { st with color := aset st.color u 1, stk := st.stk ++ [u] }
       { st2 with stk := st2.stk.dropLast, color := aset st2.color u 2 }) := rfl

theorem dfsStep_gray (s : St) (fl : Nat) (acc : DfsSt) (v : String)
    (h : look acc.color v = some 1) :
    dfsStep s fl acc v = { acc with cycles := acc.cycles ++ [cycle_from acc.stk v] } := by
  unfold dfsStep
  rw [h]

theorem dfsStep_white (s : St) (fl : Nat) (acc : DfsSt) (v : String)
    (h : look acc.color v = some 0) :
    dfsStep s fl acc v = dfs s fl v acc := by
  unfold dfsStep
  rw [h]

theorem dfsStep_none (s : St) (fl : Nat) (acc : DfsSt) (v : String)
    (h : look acc.color v = none) :
    dfsStep s fl acc v = acc := by
  unfold dfsStep
  rw [h]

theorem dfsStep_black (s : St) (fl : Nat) (acc : DfsSt) (v : String) (n : Nat)
    (h : look acc.color v = some (n + 2)) :
    dfsStep s fl acc v = acc := by
  unfold dfsStep
  rw [h]
  rfl

/-- `dfs` restores the stack it was given. -/
theorem dfs_stk (s : St) : ∀ (fuel : Nat) (u : String) (st : DfsSt),
    (dfs s fuel u st).stk = st.stk := by
  intro fuel
  induction fuel with
  | zero => intro u st; rfl
  | succ fl ih =>
    intro u st
    have hfold : ∀ (l : List String) (acc : DfsSt),
        (l.foldl (dfsStep s fl) acc).stk = acc.stk := by
      intro l
      induction l with
      | nil => intro acc; rfl
      | cons v rest ihl =>
        intro acc
        rw [List.foldl_cons, ihl]
        rcases hlv : look acc.color v with _ | n
        · rw [dfsStep_none s fl acc v hlv]
        · rcases n with _ | n
          · rw [dfsStep_white s fl acc v hlv]
            exact ih v acc
          · rcases n with _ | n
            · rw [dfsStep_gray s fl acc v hlv]
            · rw [dfsStep_black s fl acc v n hlv]
    rw [dfs_succ]
    show ((read_import_uids s u).foldl (dfsStep s fl)
      { st with color := aset st.color u 1, stk := st.stk ++ [u] }).stk.dropLast = st.stk
    rw [hfold]
    simp

/-- Soundness invariant of `dfs`: the stack is an import chain, gray
nodes sit on the stack, and every reported cycle is a genuine closed
walk of import edges. -/
theorem dfs_inv (s : St) : ∀ (fuel : Nat) (u : String) (st : DfsSt),
    chainB s st.stk = true →
    (∀ x, look st.color x = some 1 → x ∈ st.stk) →
    (∀ c ∈ st.cycles, goodCycle s c) →
    (st.stk = [] ∨ ∃ w, st.stk.getLast? = some w ∧ u ∈ read_import_uids s w) →
    chainB s (dfs s fuel u st).stk = true ∧
    (∀ x, look (dfs s fuel u st).color x = some 1 → x ∈ (dfs s fuel u st).stk) ∧
    (∀ c ∈ (dfs s fuel u st).cycles, goodCycle s c) := by
  intro fuel
  induction fuel with
  | zero =>
    intro u st h1 h2 h3 _
    exact ⟨h1, h2, h3⟩
  | succ fl ih =>
    intro u st h1 h2 h3 hpre
    have hpush : chainB s (st.stk ++ [u]) = true := by
      rcases hpre with h | ⟨w, hw1, hw2⟩
      · rw [h]
        rfl
      · exact chainB_concat s st.stk w u h1 hw1 hw2
    have hfold : ∀ (l : List String), (∀ v ∈ l, v ∈ read_import_uids s u) →
        ∀ (acc : DfsSt), acc.stk = st.stk ++ [u] →
        chainB s acc.stk = true →
        (∀ x, look acc.color x = some 1 → x ∈ acc.stk) →
        (∀ c ∈ acc.cycles, goodCycle s c) →
        (l.foldl (dfsStep s fl) acc).stk = st.stk ++ [u] ∧
        chainB s (l.foldl (dfsStep s fl) acc).stk = true ∧
        (∀ x, look (l.foldl (dfsStep s fl) acc).color x = some 1 →
          x ∈ (l.foldl (dfsStep s fl) acc).stk) ∧
        (∀ c ∈ (l.foldl (dfsStep s fl) acc).cycles, goodCycle s c) := by
      intro l
      induction l with
      | nil =>
        intro _ acc ha h1a h2a h3a
        exact ⟨ha, h1a, h2a, h3a⟩
      | cons v rest ihl =>
        intro hl acc ha h1a h2a h3a
        simp only [List.foldl_cons]
        rcases hlv : look acc.color v with _ | n
        · rw [dfsStep_none s fl acc v hlv]
          exact ihl (fun x hx => hl x (List.mem_cons_of_mem v hx)) acc ha h1a h2a h3a
        · rcases n with _ | n
          · rw [dfsStep_white s fl acc v hlv]
            have hrec := ih v acc h1a h2a h3a (Or.inr ⟨u, by
              rw [ha]
              exact List.getLast?_concat _, hl v (List.mem_cons_self v rest)⟩)
            exact ihl (fun x hx => hl x (List.mem_cons_of_mem v hx)) (dfs s fl v acc)
              (by rw [dfs_stk s fl v acc]; exact ha) hrec.1 hrec.2.1 hrec.2.2
          · rcases n with _ | n
            · rw [dfsStep_gray s fl acc v hlv]
              refine ihl (fun x hx => hl x (List.mem_cons_of_mem v hx))
                { acc with cycles := acc.cycles ++ [cycle_from acc.stk v] } ha h1a h2a ?_
              intro c hc
              rcases List.mem_append.1 hc with hc | hc
              · exact h3a c hc
              · rw [List.mem_singleton] at hc
                subst hc
                refine cycle_from_good s acc.stk u v h1a ?_ (h2a v hlv)
                  (hl v (List.mem_cons_self v rest))
                rw [ha]
                exact List.getLast?_concat _
            · rw [dfsStep_black s fl acc v n hlv]
              exact ihl (fun x hx => hl x (List.mem_cons_of_mem v hx)) acc ha h1a h2a h3a
    rw [dfs_succ]
    obtain ⟨ka, kb, kc, kd⟩ := hfold (read_import_uids s u) (fun v hv => hv)
      { st with color := aset st.color u 1, stk := st.stk ++ [u] } rfl hpush
      (by
        intro x hx
        by_cases hxu : x = u
        · subst hxu
          exact List.mem_append_right _ (List.mem_singleton.2 rfl)
        · rw [look_aset_ne st.color u x 1 hxu] at hx
          exact List.mem_append_left _ (h2 x hx)) h3
    refine ⟨?_, ?_, ?_⟩
    · show chainB s ((read_import_uids s u).foldl (dfsStep s fl)
        { st with color := aset st.color u 1, stk := st.stk ++ [u] }).stk.dropLast = true
      rw [ka]
      rw [show (st.stk ++ [u]).dropLast = st.stk by simp]
      exact h1
    · intro x hx
      have hx2 : look (aset ((read_import_uids s u).foldl (dfsStep s fl)
          { st with color := aset st.color u 1, stk := st.stk ++ [u] }).color u 2) x =
          some 1 := hx
      by_cases hxu : x = u
      · subst hxu
        rw [look_aset_self] at hx2
        simp at hx2
      · rw [look_aset_ne _ u x 2 hxu] at hx2
        have hxs := kc x hx2
        rw [ka] at hxs
        have hxk : x ∈ st.stk := by
          rcases List.mem_append.1 hxs with h | h
          · exact h
          · rw [List.mem_singleton] at h
            exact absurd h hxu
        show x ∈ ((read_import_uids s u).foldl (dfsStep s fl)
          { st with color := aset st.color u 1, stk := st.stk ++ [u] }).stk.dropLast
        rw [ka]
        rw [show (st.stk ++ [u]).dropLast = st.stk by simp]
        exact hxk
    · intro c hc
      exact kd c hc

theorem look_map_zero (v : String) : ∀ (us : List String),
    ¬ look (us.map (fun u => (u, (0 : Nat)))) v = some 1 := by
  intro us
  induction us with
  | nil =>
    intro h
    simp [look] at h
  | cons a t ih =>
    intro h
    rw [List.map_cons] at h
    by_cases hav : a = v
    · rw [show look ((a, (0 : Nat)) :: t.map (fun u => (u, (0 : Nat)))) v = some 0 from by
        simp only [look]
        rw [if_pos hav]] at h
      simp at h
    · rw [show look ((a, (0 : Nat)) :: t.map (fun u => (u, (0 : Nat)))) v =
          look (t.map (fun u => (u, (0 : Nat)))) v from by
        simp only [look]
        rw [if_neg hav]] at h
      exact ih h

/-- Every cycle list returned by `detect_cycles` contains only genuine
closed import walks. -/
theorem detect_cycles_sound (s : St) (cs : List (List String))
    (h : detect_cycles s = .ok cs) : ∀ c ∈ cs, goodCycle s c := by
  by_cases hini : s.initialized = true
  · have hloop : ∀ (l : List String) (fl : Nat) (st : DfsSt), st.stk = [] →
        (∀ x, look st.color x = some 1 → x ∈ st.stk) →
        (∀ c ∈ st.cycles, goodCycle s c) →
        (l.foldl (fun st u => if look st.color u = some 0 then dfs s fl u st else st)
          st).stk = [] ∧
        (∀ x, look (l.foldl (fun st u =>
            if look st.color u = some 0 then dfs s fl u st else st) st).color x = some 1 →
          x ∈ (l.foldl (fun st u =>
            if look st.color u = some 0 then dfs s fl u st else st) st).stk) ∧
        (∀ c ∈ (l.foldl (fun st u =>
            if look st.color u = some 0 then dfs s fl u st else st) st).cycles,
          goodCycle s c) := by
      intro l
      induction l with
      | nil =>
        intro fl st ha hb hc
        exact ⟨ha, hb, hc⟩
      | cons a rest ihl =>
        intro fl st ha hb hc
        simp only [List.foldl_cons]
        by_cases hw : look st.color a = some 0
        · rw [if_pos hw]
          have hinv := dfs_inv s fl a st (by rw [ha]; rfl) hb hc (Or.inl ha)
          exact ihl fl (dfs s fl a st) (by rw [dfs_stk]; exact ha) hinv.2.1 hinv.2.2
        · rw [if_neg hw]
          exact ihl fl st ha hb hc
    have key := hloop (all_uids s) ((all_uids s).length + 1)
      ⟨(all_uids s).map (fun u => (u, 0)), [], []⟩ rfl
      (fun x hx => absurd hx (look_map_zero x (all_uids s)))
      (fun c hc => absurd hc (List.not_mem_nil c))
    rw [show detect_cycles s = Except.ok ((all_uids s).foldl
        (fun st u => if look st.color u = some 0 then
          dfs s ((all_uids s).length + 1) u st else st)
        ⟨(all_uids s).map (fun u => (u, 0)), [], []⟩).cycles from by
      unfold detect_cycles
      rw [if_neg (by simp [hini])]] at h
    simp only [Except.ok.injEq] at h
    subst h
    exact key.2.2
  · exfalso
    unfold detect_cycles at h
    rw [if_pos (by simp [hini])] at h
    simp at h

/-- Diamond with a back edge: `obj-a` imports `obj-b` and `obj-c`,
both import `obj-d`, and `obj-d` imports `obj-a`; the cycle through
`obj-c` reaches `obj-d` only after `obj-d` is black, so it is never
reported. -/
def c5dia : St :=
  ⟨true, ["obj-a", "obj-b", "obj-c", "obj-d"],
   [("obj-a", ["obj-b", "obj-c"]), ("obj-b", ["obj-d"]),
    ("obj-c", ["obj-d"]), ("obj-d", ["obj-a"])], [], [], [], []⟩

/-- Triangle store: `obj-a` → `obj-b` → `obj-c` → `obj-a`. -/
def c5tri : St :=
  ⟨true, ["obj-a", "obj-b", "obj-c"],
   [("obj-a", ["obj-b"]), ("obj-b", ["obj-c"]), ("obj-c", ["obj-a"])], [], [], [], []⟩

/-- Acyclic store: `obj-a` imports `obj-b` and `obj-c`, `obj-b` imports
`obj-c`. -/
def c5dag : St :=
  ⟨true, ["obj-a", "obj-b", "obj-c"],
   [("obj-a", ["obj-b", "obj-c"]), ("obj-b", ["obj-c"])], [], [], [], []⟩

/-- C5 counterexample: on the diamond-with-back-edge store the cycle
`obj-a → obj-c → obj-d → obj-a` exists edge by edge, yet `detect_cycles`
reports only the single cycle through `obj-b`; the claim that all
distinct cycles anywhere in the graph are returned is false, because a
gray hit is only reported when the target is still on the stack, and
`obj-d` is already black when reached again through `obj-c`. -/
theorem c5_counterexample :
    detect_cycles c5dia = .ok [["obj-a", "obj-b", "obj-d", "obj-a"]] ∧
    "obj-c" ∈ read_import_uids c5dia "obj-a" ∧
    "obj-d" ∈ read_import_uids c5dia "obj-c" ∧
    "obj-a" ∈ read_import_uids c5dia "obj-d" ∧
    ¬ "obj-c" ∈ ["obj-a", "obj-b", "obj-d", "obj-a"] := by decide

/-- C5 (corrected): `detect_cycles` is a three-color depth-first search
that reports, on every gray (on-stack) hit, the suffix of the current
stack from the gray node through the repeated node — every reported
cycle is sound (it has at least two nodes, starts and ends with the same
uid, and each consecutive pair is a real import edge); on the triangle
A→B→C→A it returns exactly one cycle [A, B, C, A] and on a DAG it
returns none.  But not all distinct cycles in the graph are returned
(see the counterexample): only cycles hit while the repeated node is
still gray are reported. -/
theorem c5_detect_cycles_amended (s : St) (cs : List (List String))
    (h : detect_cycles s = .ok cs) :
    (∀ c ∈ cs, goodCycle s c) ∧
    detect_cycles c5tri = .ok [["obj-a", "obj-b", "obj-c", "obj-a"]] ∧
    detect_cycles c5dag = .ok [] :=
  ⟨detect_cycles_sound s cs h, by decide, by decide⟩

/-- Witness for `c5_detect_cycles_amended` at the triangle store. -/
theorem c5_amended_witness :
    detect_cycles c5tri = .ok [["obj-a", "obj-b", "obj-c", "obj-a"]] ∧
    goodCycle c5tri ["obj-a", "obj-b", "obj-c", "obj-a"] :=
  ⟨by decide,
   (c5_detect_cycles_amended c5tri [["obj-a", "obj-b", "obj-c", "obj-a"]] (by decide)).1
     ["obj-a", "obj-b", "obj-c", "obj-a"] (by decide)⟩

/-! ## Claim C4 — description round-trip -/

/-- Key characters are never whitespace. -/
theorem isKeyChar_not_ws (c : Char) (h : isKeyChar c = true) : ¬ c.isWhitespace = true := by
  intro hws
  simp only [isKeyChar, decide_eq_true_eq] at h
  simp only [Char.isWhitespace, Bool.or_eq_true, decide_eq_true_eq] at hws
  rcases hws with ((h2 | h2) | h2) | h2 <;> subst h2 <;> exact absurd h (by decide)

theorem splitNLAux_ne_nil : ∀ (cs acc : List Char), ¬ splitNLAux acc cs = [] := by
  intro cs
  induction cs with
  | nil =>
    intro acc h
    simp [splitNLAux] at h
  | cons c cs ih =>
    intro acc h
    by_cases hc : c = '\n'
    · subst hc
      rw [show splitNLAux acc ('\n' :: cs) = ⟨acc.reverse⟩ :: splitNLAux [] cs from rfl] at h
      simp at h
    · rw [show splitNLAux acc (c :: cs) = splitNLAux (c :: acc) cs from if_neg hc] at h
      exact ih (c :: acc) h

theorem splitNLAux_append (ys : List Char) : ∀ (xs acc : List Char),
    splitNLAux acc (xs ++ '\n' :: ys) = splitNLAux acc xs ++ splitNLAux [] ys := by
  intro xs
  induction xs with
  | nil =>
    intro acc
    rw [List.nil_append]
    rw [show splitNLAux acc ('\n' :: ys) = ⟨acc.reverse⟩ :: splitNLAux [] ys from rfl]
    rfl
  | cons c cs ih =>
    intro acc
    rw [List.cons_append]
    by_cases hc : c = '\n'
    · subst hc
      rw [show splitNLAux acc ('\n' :: (cs ++ '\n' :: ys)) =
          ⟨acc.reverse⟩ :: splitNLAux [] (cs ++ '\n' :: ys) from rfl]
      rw [ih []]
      rw [show splitNLAux acc ('\n' :: cs) = ⟨acc.reverse⟩ :: splitNLAux [] cs from rfl]
      rfl
    · rw [show splitNLAux acc (c :: (cs ++ '\n' :: ys)) =
          splitNLAux (c :: acc) (cs ++ '\n' :: ys) from if_neg hc]
      rw [ih (c :: acc)]
      rw [show splitNLAux acc (c :: cs) = splitNLAux (c :: acc) cs from if_neg hc]

/-- Splitting at newlines distributes over a newline join. -/
theorem splitNL_append_nl (a b : String) :
    splitNL (a ++ "\n" ++ b) = splitNL a ++ splitNL b := by
  unfold splitNL
  rw [show (a ++ "\n" ++ b).data = a.data ++ '\n' :: b.data from by
    rw [String.data_append, String.data_append]
    simp]
  exact splitNLAux_append b.data a.data []

theorem intercalate_go_append (sep : String) : ∀ (l : List String) (x y : String),
    String.intercalate.go (x ++ y) sep l = x ++ String.intercalate.go y sep l := by
  intro l
  induction l with
  | nil => intro x y; rfl
  | cons a as ih =>
    intro x y
    show String.intercalate.go (x ++ y ++ sep ++ a) sep as =
      x ++ String.intercalate.go (y ++ sep ++ a) sep as
    rw [show x ++ y ++ sep ++ a = x ++ (y ++ sep ++ a) from by
      rw [String.append_assoc (x ++ y), String.append_assoc x, String.append_assoc y]]
    exact ih x (y ++ sep ++ a)

theorem intercalate_cons (sep a : String) (l : List String) (h : ¬ l = []) :
    String.intercalate sep (a :: l) = a ++ sep ++ String.intercalate sep l := by
  cases l with
  | nil => exact absurd rfl h
  | cons b bs =>
    show String.intercalate.go (a ++ sep ++ b) sep bs =
      a ++ sep ++ String.intercalate.go b sep bs
    exact intercalate_go_append sep bs (a ++ sep) b

theorem intercalate_splitNLAux : ∀ (cs acc : List Char),
    String.intercalate "\n" (splitNLAux acc cs) = ⟨acc.reverse ++ cs⟩ := by
  intro cs
  induction cs with
  | nil =>
    intro acc
    show String.intercalate "\n" [⟨acc.reverse⟩] = (⟨acc.reverse ++ []⟩ : String)
    rw [List.append_nil]
    rfl
  | cons c cs ih =>
    intro acc
    by_cases hc : c = '\n'
    · subst hc
      rw [show splitNLAux acc ('\n' :: cs) = ⟨acc.reverse⟩ :: splitNLAux [] cs from rfl]
      rw [intercalate_cons "\n" _ _ (splitNLAux_ne_nil cs [])]
      rw [ih []]
      apply String.ext
      rw [String.data_append, String.data_append]
      simp
    · rw [show splitNLAux acc (c :: cs) = splitNLAux (c :: acc) cs from if_neg hc]
      rw [ih (c :: acc)]
      apply String.ext
      show (c :: acc).reverse ++ cs = acc.reverse ++ c :: cs
      rw [List.reverse_cons]
      simp

/-- Joining the newline split with newlines restores the text. -/
theorem intercalate_splitNL (t : String) : String.intercalate "\n" (splitNL t) = t := by
  unfold splitNL
  rw [intercalate_splitNLAux t.data []]
  apply String.ext
  simp

theorem splitNL_intercalate : ∀ (X : List String) (x : String),
    splitNL (String.intercalate "\n" (x :: X)) = splitNL x ++ X.flatMap splitNL := by
  intro X
  induction X with
  | nil =>
    intro x
    rw [List.flatMap_nil, List.append_nil]
    rfl
  | cons y X2 ih =>
    intro x
    rw [intercalate_cons "\n" x (y :: X2) (by simp)]
    rw [splitNL_append_nl]
    rw [ih y]
    rw [List.flatMap_cons]

theorem flatMap_map_split (Q : List (String × String)) :
    (Q.map (fun p => p.1 ++ ": " ++ p.2)).flatMap splitNL =
      Q.flatMap (fun p => splitNL (p.1 ++ ": " ++ p.2)) := by
  induction Q with
  | nil => rfl
  | cons p Q ih =>
    rw [List.map_cons, List.flatMap_cons, List.flatMap_cons, ih]

theorem splitNLAux_no_nl (ys : List Char) : ∀ (xs acc : List Char),
    (∀ c ∈ xs, ¬ c = '\n') →
    splitNLAux acc (xs ++ ys) = splitNLAux (xs.reverse ++ acc) ys := by
  intro xs
  induction xs with
  | nil => intro acc _; rfl
  | cons c cs ih =>
    intro acc hno
    have hc : ¬ c = '\n' := hno c (List.mem_cons_self c cs)
    rw [List.cons_append]
    rw [show splitNLAux acc (c :: (cs ++ ys)) = splitNLAux (c :: acc) (cs ++ ys) from
      if_neg hc]
    rw [ih (c :: acc) (fun d hd => hno d (List.mem_cons_of_mem c hd))]
    rw [show (c :: cs).reverse ++ acc = cs.reverse ++ c :: acc from by simp]

theorem splitNLAux_head : ∀ (cs : List Char), ∃ v0 vrest,
    splitNLAux [] cs = ⟨v0⟩ :: vrest ∧
    ∀ acc, splitNLAux acc cs = ⟨acc.reverse ++ v0⟩ :: vrest := by
  intro cs
  induction cs with
  | nil =>
    refine ⟨[], [], rfl, ?_⟩
    intro acc
    show [(⟨acc.reverse⟩ : String)] = [⟨acc.reverse ++ []⟩]
    rw [List.append_nil]
  | cons c cs ih =>
    obtain ⟨v0, vrest, h1, h2⟩ := ih
    by_cases hc : c = '\n'
    · subst hc
      refine ⟨[], splitNLAux [] cs, ?_, ?_⟩
      · rw [show splitNLAux [] ('\n' :: cs) = ⟨List.reverse []⟩ :: splitNLAux [] cs from rfl]
        rfl
      · intro acc
        rw [show splitNLAux acc ('\n' :: cs) = ⟨acc.reverse⟩ :: splitNLAux [] cs from rfl]
        rw [List.append_nil]
    · refine ⟨c :: v0, vrest, ?_, ?_⟩
      · rw [show splitNLAux [] (c :: cs) = splitNLAux [c] cs from if_neg hc]
        rw [h2 [c]]
        rfl
      · intro acc
        rw [show splitNLAux acc (c :: cs) = splitNLAux (c :: acc) cs from if_neg hc]
        rw [h2 (c :: acc)]
        rw [show (c :: acc).reverse ++ v0 = acc.reverse ++ c :: v0 from by simp]

/-- Well-formed description key: nonempty and matching `[a-z_]+`. -/
def goodKeyB (k : String) : Bool :=
  decide (¬ k = "") && k.data.all isKeyChar

/-- Well-formed description value: nonempty, already stripped, and no
continuation line of it looks like a `key:` line. -/
def goodValB (v : String) : Bool :=
  decide (¬ v = "") && decide (pyStrip v = v) &&
    (splitNL v).tail.all (fun ln => (descKeyMatch ln).isNone)

/-- The serialization order of `_serialize_desc`: reserved keys present
in the mapping first, in fixed order, then the rest in insertion
order. -/
def canonOrder (fields : List (String × String)) : List (String × String) :=
  descOrdered.filterMap (fun k => (look fields k).map (fun v => (k, v))) ++
    fields.filter (fun p => ¬ p.1 ∈ descOrdered)

theorem serialize_desc_eq (fields : List (String × String)) :
    serialize_desc fields =
      String.intercalate "\n" ((canonOrder fields).map (fun p => p.1 ++ ": " ++ p.2)) := by
  simp only [serialize_desc, canonOrder]
  rw [List.map_append]
  congr 1
  congr 1
  rw [List.map_filterMap]
  congr 1
  funext k
  rcases look fields k with _ | v <;> rfl

theorem takeWhile_key_prefix : ∀ (kd rest : List Char), (∀ c ∈ kd, isKeyChar c = true) →
    (kd ++ ':' :: rest).takeWhile isKeyChar = kd := by
  intro kd
  induction kd with
  | nil =>
    intro rest _
    rw [List.nil_append, List.takeWhile_cons, if_neg (by decide)]
  | cons c kd ih =>
    intro rest hall
    rw [List.cons_append, List.takeWhile_cons, if_pos (hall c (List.mem_cons_self c kd))]
    rw [ih rest (fun x hx => hall x (List.mem_cons_of_mem c hx))]

/-- The regex match on a serialized field line recovers the key and the
first value line. -/
theorem descKeyMatch_line (k : String) (v0 : List Char) (hk : goodKeyB k = true) :
    descKeyMatch ⟨(k ++ ": ").data ++ v0⟩ = some (k, ⟨v0⟩) := by
  have hsplit : ¬ k = "" ∧ k.data.all isKeyChar = true := by
    simpa [goodKeyB] using hk
  have hkc : ∀ c ∈ k.data, isKeyChar c = true := List.all_eq_true.1 hsplit.2
  have hkd : ¬ k.data = [] := fun h0 => hsplit.1 (by cases k; simp_all)
  rw [show (⟨(k ++ ": ").data ++ v0⟩ : String) = ⟨k.data ++ ':' :: ' ' :: v0⟩ from by
    rw [String.data_append, show (": " : String).data = [':', ' '] from rfl,
      List.append_assoc]
    rfl]
  have e1 : (k.data ++ ':' :: ' ' :: v0).takeWhile isKeyChar = k.data :=
    takeWhile_key_prefix k.data (' ' :: v0) hkc
  unfold descKeyMatch
  simp only [e1, List.drop_left]
  show (if k.data = [] then none
    else some ((⟨k.data⟩ : String), (⟨v0⟩ : String))) = some (k, ⟨v0⟩)
  rw [if_neg hkd, strMk_data]

/-- Splitting a serialized field line: head line carries the key and the
first value line, the remaining lines are the value continuation. -/
theorem field_split (k v : String) (hk : goodKeyB k = true) :
    ∃ v0 vrest, splitNL v = ⟨v0⟩ :: vrest ∧
      splitNL (k ++ ": " ++ v) = ⟨(k ++ ": ").data ++ v0⟩ :: vrest := by
  have hno : ∀ c ∈ (k ++ ": ").data, ¬ c = '\n' := by
    intro c hc
    rw [String.data_append] at hc
    rcases List.mem_append.1 hc with hc | hc
    · have hsplit : ¬ k = "" ∧ k.data.all isKeyChar = true := by
        simpa [goodKeyB] using hk
      have hic := List.all_eq_true.1 hsplit.2 c hc
      intro hEq
      subst hEq
      exact absurd hic (by decide)
    · rw [show (": " : String).data = [':', ' '] from rfl] at hc
      intro hEq
      subst hEq
      simp at hc
  obtain ⟨v0, vrest, h1, h2⟩ := splitNLAux_head v.data
  refine ⟨v0, vrest, h1, ?_⟩
  unfold splitNL
  rw [show (k ++ ": " ++ v).data = (k ++ ": ").data ++ v.data from String.data_append _ _]
  rw [splitNLAux_no_nl v.data (k ++ ": ").data [] hno]
  rw [List.append_nil, h2 ((k ++ ": ").data.reverse), List.reverse_reverse]

theorem parse_step_cont (res : List (String × String)) (k2 : String) (cls : List String)
    (line : String) (rest : List String) (h : descKeyMatch line = none) :
    parse_desc_aux res (some (k2, cls)) (line :: rest) =
      parse_desc_aux res (some (k2, cls ++ [line])) rest := by
  have e : parse_desc_aux res (some (k2, cls)) (line :: rest) =
      (match descKeyMatch line with
       | some (k, v0) => parse_desc_aux (aset res k2 (pyStrip (String.intercalate "\n" cls)))
           (some (k, [v0])) rest
       | none => parse_desc_aux res (some (k2, cls ++ [line])) rest) := rfl
  rw [e, h]

theorem parse_step_key_none (res : List (String × String)) (k0 v0 : String)
    (line : String) (rest : List String) (h : descKeyMatch line = some (k0, v0)) :
    parse_desc_aux res none (line :: rest) = parse_desc_aux res (some (k0, [v0])) rest := by
  have e : parse_desc_aux res none (line :: rest) =
      (match descKeyMatch line with
       | some (k, v0) => parse_desc_aux res (some (k, [v0])) rest
       | none => parse_desc_aux res none rest) := rfl
  rw [e, h]

theorem parse_step_key_some (res : List (String × String)) (k2 : String) (cls : List String)
    (k0 v0 : String) (line : String) (rest : List String)
    (h : descKeyMatch line = some (k0, v0)) :
    parse_desc_aux res (some (k2, cls)) (line :: rest) =
      parse_desc_aux (aset res k2 (pyStrip (String.intercalate "\n" cls)))
        (some (k0, [v0])) rest := by
  have e : parse_desc_aux res (some (k2, cls)) (line :: rest) =
      (match descKeyMatch line with
       | some (k, v0) => parse_desc_aux (aset res k2 (pyStrip (String.intercalate "\n" cls)))
           (some (k, [v0])) rest
       | none => parse_desc_aux res (some (k2, cls ++ [line])) rest) := rfl
  rw [e, h]

/-- Continuation lines are appended to the pending value. -/
theorem parse_cont : ∀ (ls : List String), (∀ ln ∈ ls, descKeyMatch ln = none) →
    ∀ (rest : List String) (res : List (String × String)) (k2 : String) (cls : List String),
    parse_desc_aux res (some (k2, cls)) (ls ++ rest) =
      parse_desc_aux res (some (k2, cls ++ ls)) rest := by
  intro ls
  induction ls with
  | nil =>
    intro _ rest res k2 cls
    rw [List.nil_append, List.append_nil]
  | cons ln ls ih =>
    intro hno rest res k2 cls
    rw [List.cons_append]
    rw [parse_step_cont res k2 cls ln (ls ++ rest) (hno ln (List.mem_cons_self ln ls))]
    rw [ih (fun x hx => hno x (List.mem_cons_of_mem ln hx)) rest res k2 (cls ++ [ln])]
    rw [List.append_assoc]
    rfl

/-- Parsing the serialized lines of a good field list performs exactly
one assignment per field, with the exact field value. -/
theorem parse_desc_flat : ∀ (L : List (String × String)) (res : List (String × String))
    (k : String) (cls : List String),
    (∀ p ∈ L, goodKeyB p.1 = true ∧ goodValB p.2 = true) →
    parse_desc_aux res (some (k, cls))
        (L.flatMap (fun p => splitNL (p.1 ++ ": " ++ p.2))) =
      L.foldl (fun acc p => aset acc p.1 p.2)
        (aset res k (pyStrip (String.intercalate "\n" cls))) := by
  intro L
  induction L with
  | nil =>
    intro res k cls _
    rfl
  | cons p L ih =>
    intro res k cls hgood
    obtain ⟨hkp, hvp⟩ := hgood p (List.mem_cons_self p L)
    obtain ⟨v0, vrest, hsp, hfp⟩ := field_split p.1 p.2 hkp
    have hvp2 : (¬ p.2 = "" ∧ pyStrip p.2 = p.2) ∧
        ∀ ln ∈ (splitNL p.2).tail, descKeyMatch ln = none := by
      have h2 := hvp
      simp only [goodValB, Bool.and_eq_true, decide_eq_true_eq, List.all_eq_true,
        Option.isNone_iff_eq_none] at h2
      exact h2
    have hnomatch : ∀ ln ∈ vrest, descKeyMatch ln = none := by
      have h3 := hvp2.2
      rw [hsp] at h3
      exact h3
    rw [List.flatMap_cons, hfp, List.cons_append]
    rw [parse_step_key_some res k cls p.1 ⟨v0⟩ ⟨(p.1 ++ ": ").data ++ v0⟩
      (vrest ++ L.flatMap (fun p => splitNL (p.1 ++ ": " ++ p.2)))
      (descKeyMatch_line p.1 v0 hkp)]
    rw [parse_cont vrest hnomatch (L.flatMap (fun p => splitNL (p.1 ++ ": " ++ p.2)))
      (aset res k (pyStrip (String.intercalate "\n" cls))) p.1 [⟨v0⟩]]
    rw [ih (aset res k (pyStrip (String.intercalate "\n" cls))) p.1
      ([String.mk v0] ++ vrest) (fun x hx => hgood x (List.mem_cons_of_mem p hx))]
    have hval : pyStrip (String.intercalate "\n" ([String.mk v0] ++ vrest)) = p.2 := by
      rw [show ([String.mk v0] : List String) ++ vrest = splitNL p.2 from by rw [hsp, List.singleton_append]]
      rw [intercalate_splitNL]
      exact hvp2.1.2
    rw [hval]
    rw [List.foldl_cons]

theorem aset_append_fresh {α : Type} (l : List (String × α)) (k : String) (v : α)
    (h : ¬ k ∈ akeys l) : aset l k v = l ++ [(k, v)] := by
  induction l with
  | nil => rfl
  | cons p t ih =>
    have hk : ¬ p.1 = k := fun hh => h (List.mem_cons.2 (Or.inl hh.symm))
    rw [show aset (p :: t) k v = p :: aset t k v from if_neg hk]
    rw [ih (fun hm => h (List.mem_cons_of_mem _ hm))]
    rfl

theorem foldl_aset_fresh : ∀ (Q res : List (String × String)),
    (∀ p ∈ Q, ¬ p.1 ∈ akeys res) → (akeys Q).Nodup →
    Q.foldl (fun acc p => aset acc p.1 p.2) res = res ++ Q := by
  intro Q
  induction Q with
  | nil =>
    intro res _ _
    simp
  | cons p Q ih =>
    intro res hf hnd
    obtain ⟨hp1, hndQ⟩ : ¬ p.1 ∈ akeys Q ∧ (akeys Q).Nodup := by
      simpa [akeys, List.nodup_cons] using hnd
    rw [List.foldl_cons]
    rw [aset_append_fresh res p.1 p.2 (hf p (List.mem_cons_self p Q))]
    rw [ih (res ++ [p]) ?_ hndQ]
    · rw [List.append_assoc]
      rfl
    · intro q hq hmem
      rw [show akeys (res ++ [p]) = akeys res ++ [p.1] from by simp [akeys]] at hmem
      rcases List.mem_append.1 hmem with h | h
      · exact hf q (List.mem_cons_of_mem p hq) h
      · rw [List.mem_singleton] at h
        exact hp1 (h ▸ List.mem_map_of_mem (fun r => r.1) hq)

theorem strip_fix_head (v : String) (h : pyStrip v = v) :
    ∀ c t, v.data = c :: t → ¬ c.isWhitespace = true := by
  intro c t hv hws
  have hdata : stripCore v.data = v.data := by
    have h2 := congrArg String.data h
    simpa [pyStrip] using h2
  have hL := dropWhile_eq_self_of_strip v.data hdata
  rw [hv, List.dropWhile_cons, if_pos hws] at hL
  have h1 := congrArg List.length hL
  have h2 : (t.dropWhile Char.isWhitespace).length ≤ t.length :=
    List.Sublist.length_le (List.dropWhile_sublist _)
  simp at h1
  omega

theorem strip_fix_last (v : String) (h : pyStrip v = v) :
    ∀ c t, v.data.reverse = c :: t → ¬ c.isWhitespace = true := by
  intro c t hv hws
  have hdata : stripCore v.data = v.data := by
    have h2 := congrArg String.data h
    simpa [pyStrip] using h2
  have hR := rev_dropWhile_eq_self_of_strip v.data hdata
  rw [hv, List.dropWhile_cons, if_pos hws] at hR
  have h1 := congrArg List.length hR
  have h2 : (t.dropWhile Char.isWhitespace).length ≤ t.length :=
    List.Sublist.length_le (List.dropWhile_sublist _)
  simp at h1
  omega

theorem intercalate_head (X : List String) (x : String) :
    ∃ r, (String.intercalate "\n" (x :: X)).data = x.data ++ r := by
  cases X with
  | nil => exact ⟨[], by rw [List.append_nil]; rfl⟩
  | cons y X2 =>
    refine ⟨'\n' :: (String.intercalate "\n" (y :: X2)).data, ?_⟩
    rw [intercalate_cons "\n" x (y :: X2) (by simp)]
    rw [String.data_append, String.data_append]
    simp

theorem intercalate_getLast (X : List String) : ∀ (x : String), (∀ z ∈ X, ¬ z = "") →
    (String.intercalate "\n" (x :: X)).data.getLast? =
      ((x :: X).getLast?.getD "").data.getLast? := by
  induction X with
  | nil => intro x _; rfl
  | cons y X2 ih =>
    intro x hne
    have hlast_ne : ¬ ((y :: X2).getLast?.getD "") = "" := by
      rcases hgl2 : (y :: X2).getLast? with _ | z
      · rw [List.getLast?_eq_none_iff] at hgl2
        exact absurd hgl2 (List.cons_ne_nil y X2)
      · have hzmem := List.mem_of_mem_getLast? hgl2
        rw [show (some z).getD "" = z from rfl]
        exact hne z hzmem
    have hlast_data : ¬ ((y :: X2).getLast?.getD "").data = [] := by
      intro h0
      exact hlast_ne (String.ext (by rw [h0]))
    rcases hdl : ((y :: X2).getLast?.getD "").data.getLast? with _ | d
    · rw [List.getLast?_eq_none_iff] at hdl
      exact absurd hdl hlast_data
    · rw [intercalate_cons "\n" x (y :: X2) (by simp)]
      rw [show (x ++ "\n" ++ String.intercalate "\n" (y :: X2)).data =
          (x ++ "\n").data ++ (String.intercalate "\n" (y :: X2)).data from
        String.data_append _ _]
      rw [List.getLast?_append]
      rw [ih y (fun z hz => hne z (List.mem_cons_of_mem y hz))]
      rw [show (x :: y :: X2).getLast? = (y :: X2).getLast? from List.getLast?_cons_cons]
      rw [hdl]
      rfl

/-- A serialized good mapping is already stripped. -/
theorem serialize_desc_strip (M : List (String × String))
    (hg : ∀ p ∈ canonOrder M, goodKeyB p.1 = true ∧ goodValB p.2 = true) :
    pyStrip (serialize_desc M) = serialize_desc M := by
  rw [serialize_desc_eq]
  rcases hce : canonOrder M with _ | ⟨q, Q⟩
  · rfl
  · rw [hce] at hg
    rw [List.map_cons]
    obtain ⟨hkq, hvq⟩ := hg q (List.mem_cons_self q Q)
    have hq1 : ¬ q.1 = "" ∧ ∀ c ∈ q.1.data, isKeyChar c = true := by
      have h2 : ¬ q.1 = "" ∧ q.1.data.all isKeyChar = true := by
        simpa [goodKeyB] using hkq
      exact ⟨h2.1, List.all_eq_true.1 h2.2⟩
    obtain ⟨r, hr⟩ := intercalate_head (Q.map (fun p => p.1 ++ ": " ++ p.2))
      (q.1 ++ ": " ++ q.2)
    rcases hqd : q.1.data with _ | ⟨c, kt⟩
    · exact absurd (String.ext (by rw [hqd])) hq1.1
    have hcws : ¬ c.isWhitespace = true :=
      isKeyChar_not_ws c (hq1.2 c (by rw [hqd]; exact List.mem_cons_self _ _))
    have htext : (String.intercalate "\n"
        ((q.1 ++ ": " ++ q.2) :: Q.map (fun p => p.1 ++ ": " ++ p.2))).data =
        c :: (kt ++ (": " ++ q.2).data ++ r) := by
      rw [hr]
      rw [show (q.1 ++ ": " ++ q.2).data = q.1.data ++ (": " ++ q.2).data from by
        rw [String.append_assoc]
        exact String.data_append _ _]
      rw [hqd]
      simp
    -- last character of the text is the last character of the last value
    have hlastne : ∀ d ts,
        (c :: (kt ++ (": " ++ q.2).data ++ r)).reverse = d :: ts →
        ¬ d.isWhitespace = true := by
      intro d ts hrev
      have hgl1 : (String.intercalate "\n"
          ((q.1 ++ ": " ++ q.2) :: Q.map (fun p => p.1 ++ ": " ++ p.2))).data.getLast? =
          some d := by
        rw [htext, ← List.head?_reverse, hrev]
        rfl
      have hne2 : ∀ z ∈ Q.map (fun p => p.1 ++ ": " ++ p.2), ¬ z = "" := by
        intro z hz
        rw [List.mem_map] at hz
        obtain ⟨p, hp, hzp⟩ := hz
        obtain ⟨hkp, hvp⟩ := hg p (List.mem_cons_of_mem q hp)
        have hkp2 : ¬ p.1 = "" := by
          have h2 : ¬ p.1 = "" ∧ p.1.data.all isKeyChar = true := by
            simpa [goodKeyB] using hkp
          exact h2.1
        subst hzp
        intro hz0
        have h3 := congrArg String.data hz0
        rw [String.data_append, String.data_append,
          show (": " : String).data = [':', ' '] from rfl,
          show ("" : String).data = [] from rfl] at h3
        simp at h3
      have hglX := intercalate_getLast (Q.map (fun p => p.1 ++ ": " ++ p.2))
        (q.1 ++ ": " ++ q.2) hne2
      rw [hgl1] at hglX
      -- the getD element is the last field line; its data ends with its value's last char
      rcases hql : ((q.1 ++ ": " ++ q.2) :: Q.map (fun p => p.1 ++ ": " ++ p.2)).getLast?
        with _ | zlast
      · rw [hql] at hglX
        simp at hglX
      · rw [hql] at hglX
        have hzmem := List.mem_of_mem_getLast? hql
        -- zlast is a field line of a good field
        have hzgood : ∃ p, (p ∈ (q :: Q)) ∧ zlast = p.1 ++ ": " ++ p.2 := by
          rcases List.mem_cons.1 hzmem with h | h
          · exact ⟨q, List.mem_cons_self q Q, h⟩
          · rw [List.mem_map] at h
            obtain ⟨p, hp, hzp⟩ := h
            exact ⟨p, List.mem_cons_of_mem q hp, hzp.symm⟩
        obtain ⟨p, hpmem, hzp⟩ := hzgood
        obtain ⟨hkp, hvp⟩ := hg p hpmem
        have hvp2 : ¬ p.2 = "" ∧ pyStrip p.2 = p.2 := by
          have h2 := hvp
          simp only [goodValB, Bool.and_eq_true, decide_eq_true_eq] at h2
          exact h2.1
        have hvd : ¬ p.2.data = [] := fun h0 => hvp2.1 (String.ext (by rw [h0]))
        have hzl : zlast.data.getLast? = p.2.data.getLast? := by
          rw [hzp]
          rw [show (p.1 ++ ": " ++ p.2).data = (p.1 ++ ": ").data ++ p.2.data from
            String.data_append _ _]
          rw [List.getLast?_append]
          rcases hvl : p.2.data.getLast? with _ | x
          · rw [List.getLast?_eq_none_iff] at hvl
            exact absurd hvl hvd
          · rfl
        rw [show (some zlast).getD "" = zlast from rfl] at hglX
        rw [hzl] at hglX
        -- d is the last char of p.2, which is strip-fixed and nonempty
        rcases hrev2 : p.2.data.reverse with _ | ⟨e, es⟩
        · exact absurd (by simpa using congrArg List.reverse hrev2) hvd
        · have he := strip_fix_last p.2 hvp2.2 e es hrev2
          have : p.2.data.getLast? = some e := by
            rw [← List.head?_reverse, hrev2]
            rfl
          rw [this] at hglX
          have hd : d = e := by
            injection hglX with hh
          rw [hd]
          exact he
    unfold pyStrip
    rw [htext]
    rw [stripCore_ends c _ (by simpa using hcws) hlastne]
    exact congrArg String.mk htext.symm |>.trans (strMk_data _)

/-- Parsing a serialized good mapping recovers it in canonical order. -/
theorem parse_serialize (M : List (String × String))
    (hg : ∀ p ∈ canonOrder M, goodKeyB p.1 = true ∧ goodValB p.2 = true)
    (hndc : (akeys (canonOrder M)).Nodup) :
    parse_desc (serialize_desc M) = canonOrder M := by
  rw [serialize_desc_eq]
  unfold parse_desc
  rcases hce : canonOrder M with _ | ⟨q, Q⟩
  · rfl
  · rw [hce] at hg hndc
    rw [List.map_cons]
    obtain ⟨hkq, hvq⟩ := hg q (List.mem_cons_self q Q)
    have hq1 : ¬ q.1 = "" := by
      have h2 : ¬ q.1 = "" ∧ q.1.data.all isKeyChar = true := by
        simpa [goodKeyB] using hkq
      exact h2.1
    obtain ⟨r, hr⟩ := intercalate_head (Q.map (fun p => p.1 ++ ": " ++ p.2))
      (q.1 ++ ": " ++ q.2)
    have htxtne : ¬ String.intercalate "\n"
        ((q.1 ++ ": " ++ q.2) :: Q.map (fun p => p.1 ++ ": " ++ p.2)) = "" := by
      intro h0
      have h3 := congrArg String.data h0
      rw [hr, show ("" : String).data = [] from rfl] at h3
      rw [show (q.1 ++ ": " ++ q.2).data = q.1.data ++ ((": " ++ q.2).data) from by
        rw [String.append_assoc]
        exact String.data_append _ _] at h3
      rw [show (": " ++ q.2).data = ':' :: ' ' :: q.2.data from by
        rw [String.data_append]
        rfl] at h3
      simp at h3
    rw [show pySplitlines (String.intercalate "\n"
        ((q.1 ++ ": " ++ q.2) :: Q.map (fun p => p.1 ++ ": " ++ p.2))) =
      splitNL (String.intercalate "\n"
        ((q.1 ++ ": " ++ q.2) :: Q.map (fun p => p.1 ++ ": " ++ p.2))) from by
      unfold pySplitlines
      rw [if_neg htxtne]]
    rw [splitNL_intercalate]
    rw [flatMap_map_split]
    obtain ⟨v0, vrest, hsq, hfq⟩ := field_split q.1 q.2 hkq
    have hvq2 : (¬ q.2 = "" ∧ pyStrip q.2 = q.2) ∧
        ∀ ln ∈ (splitNL q.2).tail, descKeyMatch ln = none := by
      have h2 := hvq
      simp only [goodValB, Bool.and_eq_true, decide_eq_true_eq, List.all_eq_true,
        Option.isNone_iff_eq_none] at h2
      exact h2
    have hnomatch : ∀ ln ∈ vrest, descKeyMatch ln = none := by
      have h3 := hvq2.2
      rw [hsq] at h3
      exact h3
    rw [hfq, List.cons_append]
    rw [parse_step_key_none [] q.1 ⟨v0⟩ ⟨(q.1 ++ ": ").data ++ v0⟩
      (vrest ++ Q.flatMap (fun p => splitNL (p.1 ++ ": " ++ p.2)))
      (descKeyMatch_line q.1 v0 hkq)]
    rw [parse_cont vrest hnomatch (Q.flatMap (fun p => splitNL (p.1 ++ ": " ++ p.2)))
      [] q.1 [⟨v0⟩]]
    rw [parse_desc_flat Q [] q.1 ([String.mk v0] ++ vrest)
      (fun x hx => hg x (List.mem_cons_of_mem q hx))]
    have hval : pyStrip (String.intercalate "\n" ([String.mk v0] ++ vrest)) = q.2 := by
      rw [show ([String.mk v0] : List String) ++ vrest = splitNL q.2 from by rw [hsq, List.singleton_append]]
      rw [intercalate_splitNL]
      exact hvq2.1.2
    rw [hval]
    obtain ⟨hq1Q, hndQ⟩ : ¬ q.1 ∈ akeys Q ∧ (akeys Q).Nodup := by
      simpa [akeys, List.nodup_cons] using hndc
    rw [show aset ([] : List (String × String)) q.1 q.2 = [(q.1, q.2)] from rfl]
    rw [foldl_aset_fresh Q [(q.1, q.2)] ?_ hndQ]
    · rfl
    · intro p hp hmem
      rw [show akeys [(q.1, q.2)] = [q.1] from rfl, List.mem_singleton] at hmem
      exact hq1Q (hmem ▸ List.mem_map_of_mem (fun r => r.1) hp)

theorem look_dictUpdate_not_mem : ∀ (fields cur : List (String × String)) (k2 : String),
    ¬ k2 ∈ akeys fields → look (dictUpdate cur fields) k2 = look cur k2 := by
  intro fields
  induction fields with
  | nil => intro cur k2 _; rfl
  | cons p fs ih =>
    intro cur k2 hk
    show look (dictUpdate (aset cur p.1 p.2) fs) k2 = look cur k2
    rw [ih (aset cur p.1 p.2) k2 (fun hm => hk (List.mem_cons_of_mem _ hm))]
    exact look_aset_ne cur p.1 k2 p.2
      (fun hh => hk (List.mem_cons.2 (Or.inl hh)))

/-- The Python `dict.update` semantics on lookups, for duplicate-free
update keys. -/
theorem look_dictUpdate_or : ∀ (fields cur : List (String × String)) (k2 : String),
    (akeys fields).Nodup →
    look (dictUpdate cur fields) k2 = (look fields k2).or (look cur k2) := by
  intro fields
  induction fields with
  | nil => intro cur k2 _; rfl
  | cons p fs ih =>
    intro cur k2 hnd
    obtain ⟨hp1, hndf⟩ : ¬ p.1 ∈ akeys fs ∧ (akeys fs).Nodup := by
      simpa [akeys, List.nodup_cons] using hnd
    show look (dictUpdate (aset cur p.1 p.2) fs) k2 = _
    by_cases hk2 : k2 = p.1
    · subst hk2
      rw [look_dictUpdate_not_mem fs (aset cur p.1 p.2) p.1 hp1]
      rw [look_aset_self]
      rw [show look (p :: fs) p.1 = some p.2 from if_pos rfl]
      rfl
    · rw [ih (aset cur p.1 p.2) k2 hndf]
      rw [look_aset_ne cur p.1 k2 p.2 hk2]
      rw [show look (p :: fs) k2 = look fs k2 from if_neg (fun hh => hk2 hh.symm)]

/-- Store for the C4 counterexample: one entity with no description. -/
def c4s : St := ⟨true, ["obj-a"], [], [], [], [], []⟩

/-- C4 counterexample: a value containing an embedded line that itself
matches the `key:` pattern does not round-trip — `updateDescription`
with `purpose := "x\nkind: evil"` succeeds, but the stored description
reads back as two fields `purpose: x` and `kind: evil`, not as the
merged mapping. -/
theorem c4_counterexample :
    (update_description c4s "obj-a" [("purpose", "x\nkind: evil")]).2 = none ∧
    dictUpdate (read_desc c4s "obj-a") [("purpose", "x\nkind: evil")] =
      [("purpose", "x\nkind: evil")] ∧
    read_desc (update_description c4s "obj-a" [("purpose", "x\nkind: evil")]).1 "obj-a" =
      [("purpose", "x"), ("kind", "evil")] ∧
    ¬ look (read_desc (update_description c4s "obj-a"
        [("purpose", "x\nkind: evil")]).1 "obj-a") "purpose" = some "x\nkind: evil" := by
  decide

/-- Store for the C4 witness: one entity with an existing two-field
description. -/
def c4w : St :=
  ⟨true, ["obj-a"], [], [], [("obj-a", "kind: object\npurpose: old\n")], [], []⟩

/-- C4 (corrected): for well-formed field values — nonempty, stripped,
and containing no continuation line that itself matches the `key:`
pattern — with well-formed `[a-z_]+` keys and duplicate-free key sets,
`updateDescription` succeeds and `read_desc` returns exactly the merged
mapping in canonical order: reserved keys `source`, `kind`, `purpose`
first in fixed order, then the remaining fields in insertion order; the
merge overwrites exactly the given keys and leaves the others untouched.
Without the value restrictions the round-trip fails (see the
counterexample). -/
theorem c4_description_roundtrip_amended (s : St) (uid : String)
    (fields : List (String × String))
    (hinit : s.initialized = true) (hent : entity_exists s uid = true)
    (hg : ∀ p ∈ canonOrder (dictUpdate (read_desc s uid) fields),
      goodKeyB p.1 = true ∧ goodValB p.2 = true)
    (hndc : (akeys (canonOrder (dictUpdate (read_desc s uid) fields))).Nodup)
    (hndf : (akeys fields).Nodup) :
    (update_description s uid fields).2 = none ∧
    read_desc (update_description s uid fields).1 uid =
      canonOrder (dictUpdate (read_desc s uid) fields) ∧
    (∀ k2, look (dictUpdate (read_desc s uid) fields) k2 =
      (look fields k2).or (look (read_desc s uid) k2)) := by
  have hu : update_description s uid fields =
      (write_desc s uid (dictUpdate (read_desc s uid) fields), none) := by
    unfold update_description
    rw [if_neg (by simp [hinit]), if_neg (by simp [hent])]
  refine ⟨by rw [hu], ?_, ?_⟩
  · rw [hu]
    show parse_desc (readTxt ((look (aset s.descr uid
        (storeTxt (serialize_desc (dictUpdate (read_desc s uid) fields)))) uid).getD "")) = _
    rw [look_aset_self]
    show parse_desc (readTxt (storeTxt
        (serialize_desc (dictUpdate (read_desc s uid) fields)))) = _
    rw [readTxt_storeTxt _ (serialize_desc_strip _ hg)]
    exact parse_serialize _ hg hndc
  · intro k2
    exact look_dictUpdate_or fields (read_desc s uid) k2 hndf

/-- Witness for `c4_description_roundtrip_amended` on a concrete store
and update. -/
theorem c4_amended_witness :
    c4w.initialized = true ∧ entity_exists c4w "obj-a" = true ∧
    read_desc (update_description c4w "obj-a"
        [("purpose", "new"), ("source", "lib")]).1 "obj-a" =
      canonOrder (dictUpdate (read_desc c4w "obj-a")
        [("purpose", "new"), ("source", "lib")]) :=
  ⟨by decide, by decide,
    (c4_description_roundtrip_amended c4w "obj-a" [("purpose", "new"), ("source", "lib")]
      (by decide) (by decide) (by decide) (by decide) (by decide)).2.1⟩

/-! ## Claim C2 — cascading delete -/

/-- Step (a) of `remove_entity`: rewrite one other entity's imports
without the removed uid. -/
def remStep1 (uid : String) (st : St) (other : String) : St :=
  if other = uid then st
  else
    let imports := read_imports st other
    if imports.any (fun p => p.1 = uid ∨ p.2 = some uid) then
      { st with imp := (write_lines st.imp other
        ((imports.filter (fun p => ¬ (p.1 = uid ∨ p.2 = some uid))).map
          (fun p => format_import_line p.1 p.2))) }
    else st

/-- Step (b) of `remove_entity`: unlink the reverse record of one
forward edge of the removed uid. -/
def remStep2 (uid : String) (st : St) (p : String × Option String) : St :=
  match p.2 with
  | some via => if ¬ via = "" then safe_unlink_sub st via p.1 uid
                else safe_unlink_direct st p.1 uid
  | none => safe_unlink_direct st p.1 uid

/-- Step (c) of `remove_entity`: drop the removed uid from one other
entity's shared list and remove the matching sub-collection. -/
def remStep3 (uid : String) (st : St) (other : String) : St :=
  if other = uid then st
  else if uid ∈ read_shared st other then
    safe_rmtree_sub { st with shr := remove_line_value st.shr other uid } other uid
  else st

/-- Step (d) of `remove_entity`: drop the removed uid from one TOC. -/
def remStep4 (uid : String) (st : St) (tn : String) : St :=
  { st with tocs := remove_line_value st.tocs tn uid }

/-- `remove_entity` decomposed into its four folds. -/
theorem remove_entity_eq (s : St) (uid : String) (h1 : s.initialized = true)
    (h2 : entity_exists s uid = true) :
    remove_entity s uid =
      (rm_entity_dir
        (let s1 := (all_uids s).foldl (remStep1 uid) s
         let s2 := (read_imports s1 uid).foldl (remStep2 uid) s1
         let s3 := (all_uids s).foldl (remStep3 uid) s2
         (all_toc_names s3).foldl (remStep4 uid) s3) uid, none) := by
  unfold remove_entity
  rw [if_neg (by simp [h1]), if_neg (by simp [h2])]
  rfl

theorem remStep1_self (uid : String) (st : St) : remStep1 uid st uid = st := if_pos rfl

theorem remStep1_cases (uid : String) (st : St) (o : String) (ho : ¬ o = uid) :
    remStep1 uid st o =
      (if (read_imports st o).any (fun p => p.1 = uid ∨ p.2 = some uid) then
        { st with imp := (write_lines st.imp o
          (((read_imports st o).filter (fun p => ¬ (p.1 = uid ∨ p.2 = some uid))).map
            (fun p => format_import_line p.1 p.2))) }
       else st) := if_neg ho

theorem remStep1_frame (uid : String) (st : St) (o : String) :
    (remStep1 uid st o).ents = st.ents ∧ (remStep1 uid st o).shr = st.shr ∧
    (remStep1 uid st o).descr = st.descr ∧ (remStep1 uid st o).exps = st.exps ∧
    (remStep1 uid st o).tocs = st.tocs := by
  by_cases ho : o = uid
  · rw [ho, remStep1_self]
    exact ⟨rfl, rfl, rfl, rfl, rfl⟩
  · rw [remStep1_cases uid st o ho]
    by_cases hany : (read_imports st o).any (fun p => p.1 = uid ∨ p.2 = some uid) = true
    · rw [if_pos hany]
      exact ⟨rfl, rfl, rfl, rfl, rfl⟩
    · rw [if_neg hany]
      exact ⟨rfl, rfl, rfl, rfl, rfl⟩

theorem remStep1_imp_ne (uid : String) (st : St) (o k : String) (h : ¬ k = o) :
    look (remStep1 uid st o).imp k = look st.imp k := by
  by_cases ho : o = uid
  · rw [ho, remStep1_self]
  · rw [remStep1_cases uid st o ho]
    by_cases hany : (read_imports st o).any (fun p => p.1 = uid ∨ p.2 = some uid) = true
    · rw [if_pos hany]
      exact look_aset_ne st.imp o k _ h
    · rw [if_neg hany]

theorem foldS1_frame (uid : String) : ∀ (l : List String) (st : St),
    ((l.foldl (remStep1 uid) st)).ents = st.ents ∧
    ((l.foldl (remStep1 uid) st)).shr = st.shr ∧
    ((l.foldl (remStep1 uid) st)).descr = st.descr ∧
    ((l.foldl (remStep1 uid) st)).exps = st.exps ∧
    ((l.foldl (remStep1 uid) st)).tocs = st.tocs := by
  intro l
  induction l with
  | nil => intro st; exact ⟨rfl, rfl, rfl, rfl, rfl⟩
  | cons o l ihl =>
    intro st
    rw [List.foldl_cons]
    obtain ⟨e1, e2, e3, e4, e5⟩ := ihl (remStep1 uid st o)
    obtain ⟨f1, f2, f3, f4, f5⟩ := remStep1_frame uid st o
    exact ⟨e1.trans f1, e2.trans f2, e3.trans f3, e4.trans f4, e5.trans f5⟩

theorem foldS1_imp_notin (uid : String) : ∀ (l : List String) (st : St) (k : String),
    ¬ k ∈ l → look ((l.foldl (remStep1 uid) st)).imp k = look st.imp k := by
  intro l
  induction l with
  | nil => intro st k _; rfl
  | cons o l ihl =>
    intro st k hk
    rw [List.foldl_cons]
    rw [ihl (remStep1 uid st o) k (fun hm => hk (List.mem_cons_of_mem o hm))]
    exact remStep1_imp_ne uid st o k (fun hh => hk (hh ▸ List.mem_cons_self o l))

theorem foldS1_imp_uid (uid : String) : ∀ (l : List String) (st : St),
    look ((l.foldl (remStep1 uid) st)).imp uid = look st.imp uid := by
  intro l
  induction l with
  | nil => intro st; rfl
  | cons o l ihl =>
    intro st
    rw [List.foldl_cons, ihl (remStep1 uid st o)]
    by_cases ho : o = uid
    · rw [ho, remStep1_self]
    · exact remStep1_imp_ne uid st o uid (fun hh => ho hh.symm)

theorem remStep2_shape (uid : String) (st : St) (p : String × Option String) :
    remStep2 uid st p = { st with exps := (remStep2 uid st p).exps } := by
  rcases p with ⟨u, _ | via⟩
  · exact safe_unlink_direct_shape st u uid
  · by_cases hv : ¬ via = ""
    · have e : remStep2 uid st (u, some via) = safe_unlink_sub st via u uid := if_pos hv
      rw [e]
      exact safe_unlink_sub_shape st via u uid
    · have e : remStep2 uid st (u, some via) = safe_unlink_direct st u uid := if_neg hv
      rw [e]
      exact safe_unlink_direct_shape st u uid

theorem foldS2_frame (uid : String) : ∀ (l : List (String × Option String)) (st : St),
    ((l.foldl (remStep2 uid) st)).ents = st.ents ∧
    ((l.foldl (remStep2 uid) st)).imp = st.imp ∧
    ((l.foldl (remStep2 uid) st)).shr = st.shr ∧
    ((l.foldl (remStep2 uid) st)).descr = st.descr ∧
    ((l.foldl (remStep2 uid) st)).tocs = st.tocs := by
  intro l
  induction l with
  | nil => intro st; exact ⟨rfl, rfl, rfl, rfl, rfl⟩
  | cons q l ihl =>
    intro st
    rw [List.foldl_cons]
    obtain ⟨e1, e2, e3, e4, e5⟩ := ihl (remStep2 uid st q)
    refine ⟨e1.trans ?_, e2.trans ?_, e3.trans ?_, e4.trans ?_, e5.trans ?_⟩ <;>
      rw [remStep2_shape uid st q]

/-! ### `safe_rmtree_sub` frame lemmas -/

theorem safe_rmtree_sub_shape (s : St) (u sub : String) :
    safe_rmtree_sub s u sub = { s with exps := (safe_rmtree_sub s u sub).exps } := by
  unfold safe_rmtree_sub
  rcases look s.exps u with _ | e
  · rfl
  · dsimp only
    by_cases h : sub ∈ akeys e.subs
    · rw [if_pos h]
    · rw [if_neg h]

theorem expOf_safe_rmtree_sub_ne (s : St) (u sub o : String) (h : ¬ o = u) :
    expOf (safe_rmtree_sub s u sub) o = expOf s o := by
  unfold safe_rmtree_sub
  rcases hl : look s.exps u with _ | e
  · rfl
  · dsimp only
    by_cases hm : sub ∈ akeys e.subs
    · rw [if_pos hm]
      unfold expOf
      rw [look_aset_ne _ _ _ _ h]
    · rw [if_neg hm]

theorem files_safe_rmtree_sub (s : St) (u sub o : String) :
    (expOf (safe_rmtree_sub s u sub) o).files = (expOf s o).files := by
  by_cases ho : o = u
  · subst ho
    unfold safe_rmtree_sub
    rcases hl : look s.exps o with _ | e
    · rfl
    · dsimp only
      by_cases hm : sub ∈ akeys e.subs
      · rw [if_pos hm]
        unfold expOf
        rw [look_aset_self, hl]
        rfl
      · rw [if_neg hm]
  · rw [expOf_safe_rmtree_sub_ne s u sub o ho]

theorem subs_absent_safe_rmtree_sub (s : St) (u sub : String) :
    ¬ sub ∈ akeys (expOf (safe_rmtree_sub s u sub) u).subs := by
  unfold safe_rmtree_sub
  rcases hl : look s.exps u with _ | e
  · unfold expOf
    rw [hl]
    simp [ExpArea.empty, akeys]
  · dsimp only
    by_cases hm : sub ∈ akeys e.subs
    · rw [if_pos hm]
      unfold expOf
      rw [look_aset_self]
      exact akeys_aerase_not_mem e.subs sub
    · rw [if_neg hm]
      unfold expOf
      rw [hl]
      exact hm

theorem subOf_safe_rmtree_sub_self (s : St) (u sub : String) :
    subOf (safe_rmtree_sub s u sub) u sub = none := by
  unfold safe_rmtree_sub
  rcases hl : look s.exps u with _ | e
  · unfold subOf expOf
    rw [hl]
    rfl
  · dsimp only
    by_cases hm : sub ∈ akeys e.subs
    · rw [if_pos hm]
      unfold subOf expOf
      rw [look_aset_self]
      exact look_aerase_self e.subs sub
    · rw [if_neg hm]
      unfold subOf expOf
      rw [hl]
      exact look_eq_none hm

theorem subOf_safe_rmtree_sub_ne (s : St) (u sub o S2 : String)
    (h : ¬ o = u ∨ ¬ S2 = sub) :
    subOf (safe_rmtree_sub s u sub) o S2 = subOf s o S2 := by
  rcases h with h | h
  · unfold subOf
    rw [expOf_safe_rmtree_sub_ne s u sub o h]
  · unfold safe_rmtree_sub
    rcases hl : look s.exps u with _ | e
    · rfl
    · dsimp only
      by_cases hm : sub ∈ akeys e.subs
      · rw [if_pos hm]
        unfold subOf expOf
        by_cases ho : o = u
        · subst ho
          rw [look_aset_self, hl]
          exact look_aerase_ne e.subs sub S2 h
        · rw [look_aset_ne _ _ _ _ ho]
      · rw [if_neg hm]

/-! ### `safe_unlink` frame lemmas for the second fold -/

theorem files_absent_pres_direct (st : St) (u uid o : String)
    (h : ¬ uid ∈ akeys (expOf st o).files) :
    ¬ uid ∈ akeys (expOf (safe_unlink_direct st u uid) o).files := by
  by_cases ho : o = u
  · subst ho
    exact safe_unlink_direct_absent st o uid
  · rw [safe_unlink_direct_files_ne st u uid o ho]
    exact h

theorem subs_akeys_safe_unlink_direct (s : St) (u n o : String) :
    akeys (expOf (safe_unlink_direct s u n) o).subs = akeys (expOf s o).subs := by
  unfold safe_unlink_direct
  rcases hl : look s.exps u with _ | e
  · rfl
  · dsimp only
    by_cases hm : n ∈ akeys e.files
    · rw [if_pos hm]
      unfold expOf
      by_cases ho : o = u
      · subst ho
        rw [look_aset_self, hl]
        rfl
      · rw [look_aset_ne _ _ _ _ ho]
    · rw [if_neg hm]

theorem subs_akeys_safe_unlink_sub (s : St) (u sub n o : String) :
    akeys (expOf (safe_unlink_sub s u sub n) o).subs = akeys (expOf s o).subs := by
  unfold safe_unlink_sub
  rcases hl : look s.exps u with _ | e
  · rfl
  · dsimp only
    rcases hs : look e.subs sub with _ | sf
    · rfl
    · show akeys (expOf (if n ∈ akeys sf then
          { s with exps := aset s.exps u { e with subs := aset e.subs sub (aerase sf n) } }
        else s) o).subs = akeys (expOf s o).subs
      by_cases hm : n ∈ akeys sf
      · rw [if_pos hm]
        unfold expOf
        by_cases ho : o = u
        · subst ho
          rw [look_aset_self, hl]
          show akeys (aset e.subs sub (aerase sf n)) = akeys e.subs
          rw [akeys_aset_cases]
          rw [if_pos (mem_akeys_of_look hs)]
        · rw [look_aset_ne _ _ _ _ ho]
      · rw [if_neg hm]

theorem subfile_absent_pres_sub (st : St) (u sub uid V S : String)
    (h : ¬ uid ∈ akeys ((subOf st V S).getD [])) :
    ¬ uid ∈ akeys ((subOf (safe_unlink_sub st u sub uid) V S).getD []) := by
  by_cases hV : V = u
  · by_cases hS : S = sub
    · subst hV
      subst hS
      exact safe_unlink_sub_absent st V S uid
    · rw [subOf_safe_unlink_sub_ne st u sub uid V S (Or.inr hS)]
      exact h
  · rw [subOf_safe_unlink_sub_ne st u sub uid V S (Or.inl hV)]
    exact h

/-! ### Fold (a): other entities' imports are rewritten clean -/

theorem map_parse_format : ∀ (l : List (String × Option String)),
    (∀ p ∈ l, goodEdgeB p = true) →
    (l.map (fun p => format_import_line p.1 p.2)).map parse_import_line = l := by
  intro l
  induction l with
  | nil => intro _; rfl
  | cons p l ih =>
    intro h
    rw [List.map_cons, List.map_cons]
    rw [parse_format_import p (h p (List.mem_cons_self p l))]
    rw [ih (fun q hq => h q (List.mem_cons_of_mem p hq))]

theorem read_imports_eq_of_look {a b : St} (u : String)
    (h : look a.imp u = look b.imp u) : read_imports a u = read_imports b u := by
  unfold read_imports read_lines
  rw [h]

theorem remStep1_clean_self (uid : String) (st : St) (o : String) (ho : ¬ o = uid)
    (hg : ∀ p ∈ read_imports st o, goodEdgeB p = true) :
    ∀ p ∈ read_imports (remStep1 uid st o) o, ¬ p.1 = uid ∧ ¬ p.2 = some uid := by
  rw [remStep1_cases uid st o ho]
  by_cases hany : (read_imports st o).any (fun p => p.1 = uid ∨ p.2 = some uid) = true
  · rw [if_pos hany]
    intro p hp
    have hgf : ∀ q ∈ (read_imports st o).filter
        (fun p => ¬ (p.1 = uid ∨ p.2 = some uid)), goodEdgeB q = true :=
      fun q hq => hg q (List.mem_of_mem_filter hq)
    have hri : read_imports { st with imp := (write_lines st.imp o
        (((read_imports st o).filter (fun p => ¬ (p.1 = uid ∨ p.2 = some uid))).map
          (fun p => format_import_line p.1 p.2))) } o =
        (read_imports st o).filter (fun p => ¬ (p.1 = uid ∨ p.2 = some uid)) := by
      show (read_lines (aset st.imp o _) o).map parse_import_line = _
      rw [read_lines_aset_self, read_lines_of_formats _ hgf, map_parse_format _ hgf]
    rw [hri] at hp
    have hd := (List.mem_filter.1 hp).2
    rw [decide_eq_true_eq] at hd
    exact ⟨fun h => hd (Or.inl h), fun h => hd (Or.inr h)⟩
  · rw [if_neg hany]
    intro p hp
    have h2 : ¬ (p.1 = uid ∨ p.2 = some uid) := by
      intro hor
      exact hany (List.any_eq_true.2 ⟨p, hp, decide_eq_true hor⟩)
    exact ⟨fun h => h2 (Or.inl h), fun h => h2 (Or.inr h)⟩

theorem foldS1_clean (uid : String) : ∀ (l : List String), l.Nodup →
    ∀ (st : St), (∀ o ∈ l, ∀ p ∈ read_imports st o, goodEdgeB p = true) →
    ∀ o ∈ l, ¬ o = uid →
    ∀ p ∈ read_imports (l.foldl (remStep1 uid) st) o, ¬ p.1 = uid ∧ ¬ p.2 = some uid := by
  intro l
  induction l with
  | nil =>
    intro _ st _ o ho
    exact absurd ho (List.not_mem_nil o)
  | cons o2 rest ihl =>
    intro hnd st hg o ho hou p hp
    obtain ⟨ho2r, hndr⟩ := List.nodup_cons.1 hnd
    rw [List.foldl_cons] at hp
    rcases List.mem_cons.1 ho with he | hm
    · subst he
      rw [read_imports_eq_of_look o
        (foldS1_imp_notin uid rest (remStep1 uid st o) o ho2r)] at hp
      exact remStep1_clean_self uid st o hou (hg o (List.mem_cons_self o rest)) p hp
    · refine ihl hndr (remStep1 uid st o2) ?_ o hm hou p hp
      intro o3 ho3 q hq
      have hne : ¬ o3 = o2 := fun hh => ho2r (hh ▸ ho3)
      rw [read_imports_eq_of_look o3 (remStep1_imp_ne uid st o2 o3 hne)] at hq
      exact hg o3 (List.mem_cons_of_mem o2 ho3) q hq

/-! ### Fold (b): reverse records of the removed uid disappear -/

theorem remStep2_eq_sub (uid : String) (st : St) (u via : String) (h : ¬ via = "") :
    remStep2 uid st (u, some via) = safe_unlink_sub st via u uid := if_pos h

theorem remStep2_eq_dir2 (uid : String) (st : St) (u via : String) (h : ¬ ¬ via = "") :
    remStep2 uid st (u, some via) = safe_unlink_direct st u uid := if_neg h

theorem remStep2_files_pres (uid : String) (st : St) (q : String × Option String) (E : String)
    (h : ¬ uid ∈ akeys (expOf st E).files) :
    ¬ uid ∈ akeys (expOf (remStep2 uid st q) E).files := by
  rcases q with ⟨u, _ | via⟩
  · exact files_absent_pres_direct st u uid E h
  · by_cases hv : ¬ via = ""
    · rw [remStep2_eq_sub uid st u via hv]
      rw [show (expOf (safe_unlink_sub st via u uid) E).files = (expOf st E).files from
        expOf_files_safe_unlink_sub st via u uid E]
      exact h
    · rw [remStep2_eq_dir2 uid st u via hv]
      exact files_absent_pres_direct st u uid E h

theorem remStep2_sub_pres (uid : String) (st : St) (q : String × Option String) (V S : String)
    (h : ¬ uid ∈ akeys ((subOf st V S).getD [])) :
    ¬ uid ∈ akeys ((subOf (remStep2 uid st q) V S).getD []) := by
  rcases q with ⟨u, _ | via⟩
  · rw [show subOf (remStep2 uid st (u, none)) V S = subOf st V S from
      subOf_safe_unlink_direct st u uid V S]
    exact h
  · by_cases hv : ¬ via = ""
    · rw [remStep2_eq_sub uid st u via hv]
      exact subfile_absent_pres_sub st via u uid V S h
    · rw [remStep2_eq_dir2 uid st u via hv]
      rw [show subOf (safe_unlink_direct st u uid) V S = subOf st V S from
        subOf_safe_unlink_direct st u uid V S]
      exact h

theorem remStep2_subs_akeys (uid : String) (st : St) (q : String × Option String) (E : String) :
    akeys (expOf (remStep2 uid st q) E).subs = akeys (expOf st E).subs := by
  rcases q with ⟨u, _ | via⟩
  · exact subs_akeys_safe_unlink_direct st u uid E
  · by_cases hv : ¬ via = ""
    · rw [remStep2_eq_sub uid st u via hv]
      exact subs_akeys_safe_unlink_sub st via u uid E
    · rw [remStep2_eq_dir2 uid st u via hv]
      exact subs_akeys_safe_unlink_direct st u uid E

theorem foldS2_files_absent (uid E : String) : ∀ (l : List (String × Option String)) (st : St),
    ((∃ p ∈ l, p.1 = E ∧ ¬ optTruthy p.2 = true) ∨ ¬ uid ∈ akeys (expOf st E).files) →
    ¬ uid ∈ akeys (expOf (l.foldl (remStep2 uid) st) E).files := by
  intro l
  induction l with
  | nil =>
    intro st h
    rcases h with ⟨p, hp, _⟩ | h
    · exact absurd hp (List.not_mem_nil p)
    · exact h
  | cons q l ihl =>
    intro st h
    rw [List.foldl_cons]
    rcases h with ⟨p, hp, hpe, hpt⟩ | h
    · rcases List.mem_cons.1 hp with he | hm
      · subst he
        refine ihl (remStep2 uid st p) (Or.inr ?_)
        rcases p with ⟨u, _ | via⟩
        · have hue : u = E := hpe
          subst hue
          exact safe_unlink_direct_absent st u uid
        · have hv : ¬ ¬ via = "" := by
            intro hv2
            exact hpt (by simp [optTruthy, hv2])
          rw [remStep2_eq_dir2 uid st u via hv]
          have hue : u = E := hpe
          subst hue
          exact safe_unlink_direct_absent st u uid
      · exact ihl (remStep2 uid st q) (Or.inl ⟨p, hm, hpe, hpt⟩)
    · exact ihl (remStep2 uid st q) (Or.inr (remStep2_files_pres uid st q E h))

theorem foldS2_sub_absent (uid V S : String) : ∀ (l : List (String × Option String)) (st : St),
    ((∃ p ∈ l, p.1 = S ∧ p.2 = some V ∧ ¬ V = "") ∨
      ¬ uid ∈ akeys ((subOf st V S).getD [])) →
    ¬ uid ∈ akeys ((subOf (l.foldl (remStep2 uid) st) V S).getD []) := by
  intro l
  induction l with
  | nil =>
    intro st h
    rcases h with ⟨p, hp, _⟩ | h
    · exact absurd hp (List.not_mem_nil p)
    · exact h
  | cons q l ihl =>
    intro st h
    rw [List.foldl_cons]
    rcases h with ⟨p, hp, hpe, hpv, hV⟩ | h
    · rcases List.mem_cons.1 hp with he | hm
      · subst he
        refine ihl (remStep2 uid st p) (Or.inr ?_)
        rcases p with ⟨u, _ | via⟩
        · exact absurd hpv (by simp)
        · have hvia : via = V := by
            injection hpv with hh
          have hue : u = S := hpe
          subst hvia
          subst hue
          rw [remStep2_eq_sub uid st u via hV]
          exact safe_unlink_sub_absent st via u uid
      · exact ihl (remStep2 uid st q) (Or.inl ⟨p, hm, hpe, hpv, hV⟩)
    · exact ihl (remStep2 uid st q) (Or.inr (remStep2_sub_pres uid st q V S h))

theorem foldS2_subs_akeys (uid : String) : ∀ (l : List (String × Option String)) (st : St)
    (E : String),
    akeys (expOf (l.foldl (remStep2 uid) st) E).subs = akeys (expOf st E).subs := by
  intro l
  induction l with
  | nil => intro st E; rfl
  | cons q l ihl =>
    intro st E
    rw [List.foldl_cons, ihl (remStep2 uid st q) E, remStep2_subs_akeys uid st q E]

/-! ### Fold (c): shared references and sub-collections disappear -/

theorem remStep3_self (uid : String) (st : St) : remStep3 uid st uid = st := if_pos rfl

theorem remStep3_cases (uid : String) (st : St) (o : String) (ho : ¬ o = uid) :
    remStep3 uid st o = (if uid ∈ read_shared st o then
      safe_rmtree_sub { st with shr := remove_line_value st.shr o uid } o uid else st) :=
  if_neg ho

theorem remStep3_frame (uid : String) (st : St) (o : String) :
    (remStep3 uid st o).ents = st.ents ∧ (remStep3 uid st o).imp = st.imp ∧
    (remStep3 uid st o).descr = st.descr ∧ (remStep3 uid st o).tocs = st.tocs := by
  by_cases ho : o = uid
  · rw [ho, remStep3_self]
    exact ⟨rfl, rfl, rfl, rfl⟩
  · rw [remStep3_cases uid st o ho]
    by_cases hsh : uid ∈ read_shared st o
    · rw [if_pos hsh]
      rw [safe_rmtree_sub_shape]
      exact ⟨rfl, rfl, rfl, rfl⟩
    · rw [if_neg hsh]
      exact ⟨rfl, rfl, rfl, rfl⟩

theorem foldS3_frame (uid : String) : ∀ (l : List String) (st : St),
    ((l.foldl (remStep3 uid) st)).ents = st.ents ∧
    ((l.foldl (remStep3 uid) st)).imp = st.imp ∧
    ((l.foldl (remStep3 uid) st)).descr = st.descr ∧
    ((l.foldl (remStep3 uid) st)).tocs = st.tocs := by
  intro l
  induction l with
  | nil => intro st; exact ⟨rfl, rfl, rfl, rfl⟩
  | cons o l ihl =>
    intro st
    rw [List.foldl_cons]
    obtain ⟨e1, e2, e3, e4⟩ := ihl (remStep3 uid st o)
    obtain ⟨g1, g2, g3, g4⟩ := remStep3_frame uid st o
    exact ⟨e1.trans g1, e2.trans g2, e3.trans g3, e4.trans g4⟩

theorem remStep3_shr_ne (uid : String) (st : St) (o k : String) (h : ¬ k = o) :
    look (remStep3 uid st o).shr k = look st.shr k := by
  by_cases ho : o = uid
  · rw [ho, remStep3_self]
  · rw [remStep3_cases uid st o ho]
    by_cases hsh : uid ∈ read_shared st o
    · rw [if_pos hsh]
      rw [safe_rmtree_sub_shape]
      exact look_aset_ne st.shr o k _ h
    · rw [if_neg hsh]

theorem foldS3_shr_notin (uid : String) : ∀ (l : List String) (st : St) (k : String),
    ¬ k ∈ l → look ((l.foldl (remStep3 uid) st)).shr k = look st.shr k := by
  intro l
  induction l with
  | nil => intro st k _; rfl
  | cons o l ihl =>
    intro st k hk
    rw [List.foldl_cons]
    rw [ihl (remStep3 uid st o) k (fun hm => hk (List.mem_cons_of_mem o hm))]
    exact remStep3_shr_ne uid st o k (fun hh => hk (hh ▸ List.mem_cons_self o l))

theorem read_shared_eq_of_look {a b : St} (u : String)
    (h : look a.shr u = look b.shr u) : read_shared a u = read_shared b u := by
  unfold read_shared read_lines
  rw [h]

theorem remove_line_value_not_mem (m : List (String × List String)) (k target : String) :
    ¬ target ∈ read_lines (remove_line_value m k target) k := by
  intro hmem
  unfold remove_line_value at hmem
  rw [show read_lines (write_lines m k
        ((read_lines m k).filter (fun ln => ¬ ln = target))) k =
      read_lines_of ((read_lines m k).filter (fun ln => ¬ ln = target)) from
    read_lines_aset_self m k _] at hmem
  rw [read_lines_of_eq_self
    (fun x hx => mem_read_lines_clean m k x (List.mem_of_mem_filter hx))] at hmem
  have hdec := (List.mem_filter.1 hmem).2
  rw [decide_eq_true_eq] at hdec
  exact hdec rfl

theorem remStep3_shared_self (uid : String) (st : St) (o : String) (ho : ¬ o = uid) :
    ¬ uid ∈ read_shared (remStep3 uid st o) o := by
  rw [remStep3_cases uid st o ho]
  by_cases hsh : uid ∈ read_shared st o
  · rw [if_pos hsh]
    intro hmem
    rw [read_shared_eq_of_look o (show look (safe_rmtree_sub
        { st with shr := remove_line_value st.shr o uid } o uid).shr o =
        look ({ st with shr := remove_line_value st.shr o uid } : St).shr o from by
      rw [safe_rmtree_sub_shape])] at hmem
    exact remove_line_value_not_mem st.shr o uid hmem
  · rw [if_neg hsh]
    exact hsh

theorem foldS3_shared (uid : String) : ∀ (l : List String), l.Nodup → ∀ (st : St),
    ∀ o ∈ l, ¬ o = uid → ¬ uid ∈ read_shared (l.foldl (remStep3 uid) st) o := by
  intro l
  induction l with
  | nil =>
    intro _ st o ho
    exact absurd ho (List.not_mem_nil o)
  | cons o2 rest ihl =>
    intro hnd st o ho hou
    obtain ⟨ho2r, hndr⟩ := List.nodup_cons.1 hnd
    rw [List.foldl_cons]
    rcases List.mem_cons.1 ho with he | hm
    · subst he
      intro hmem
      rw [read_shared_eq_of_look o
        (foldS3_shr_notin uid rest (remStep3 uid st o) o ho2r)] at hmem
      exact remStep3_shared_self uid st o hou hmem
    · exact ihl hndr (remStep3 uid st o2) o hm hou

theorem remStep3_subs_pres (uid : String) (st : St) (o E : String)
    (h : ¬ uid ∈ akeys (expOf st E).subs) :
    ¬ uid ∈ akeys (expOf (remStep3 uid st o) E).subs := by
  by_cases ho : o = uid
  · rw [ho, remStep3_self]
    exact h
  · rw [remStep3_cases uid st o ho]
    by_cases hsh : uid ∈ read_shared st o
    · rw [if_pos hsh]
      by_cases hE : E = o
      · subst hE
        exact subs_absent_safe_rmtree_sub _ E uid
      · rw [expOf_safe_rmtree_sub_ne _ o uid E hE]
        exact h
    · rw [if_neg hsh]
      exact h

theorem foldS3_subs_absent (uid E : String) : ∀ (l : List String) (st : St),
    ((E ∈ l ∧ ¬ E = uid ∧ uid ∈ read_shared st E) ∨
      ¬ uid ∈ akeys (expOf st E).subs) →
    ¬ uid ∈ akeys (expOf (l.foldl (remStep3 uid) st) E).subs := by
  intro l
  induction l with
  | nil =>
    intro st h
    rcases h with ⟨hin, _⟩ | h
    · exact absurd hin (List.not_mem_nil E)
    · exact h
  | cons o2 rest ihl =>
    intro st h
    rw [List.foldl_cons]
    rcases h with ⟨hin, hEu, hsh⟩ | h
    · by_cases hEo2 : E = o2
      · subst hEo2
        refine ihl (remStep3 uid st E) (Or.inr ?_)
        rw [remStep3_cases uid st E hEu, if_pos hsh]
        exact subs_absent_safe_rmtree_sub _ E uid
      · have hm : E ∈ rest := by
          rcases List.mem_cons.1 hin with he | hm
          · exact absurd he hEo2
          · exact hm
        refine ihl (remStep3 uid st o2) (Or.inl ⟨hm, hEu, ?_⟩)
        rw [read_shared_eq_of_look E (remStep3_shr_ne uid st o2 E hEo2)]
        exact hsh
    · exact ihl (remStep3 uid st o2) (Or.inr (remStep3_subs_pres uid st o2 E h))

theorem remStep3_files_pres (uid : String) (st : St) (o E : String)
    (h : ¬ uid ∈ akeys (expOf st E).files) :
    ¬ uid ∈ akeys (expOf (remStep3 uid st o) E).files := by
  by_cases ho : o = uid
  · rw [ho, remStep3_self]
    exact h
  · rw [remStep3_cases uid st o ho]
    by_cases hsh : uid ∈ read_shared st o
    · rw [if_pos hsh]
      rw [files_safe_rmtree_sub _ o uid E]
      exact h
    · rw [if_neg hsh]
      exact h

theorem foldS3_files_pres (uid E : String) : ∀ (l : List String) (st : St),
    ¬ uid ∈ akeys (expOf st E).files →
    ¬ uid ∈ akeys (expOf (l.foldl (remStep3 uid) st) E).files := by
  intro l
  induction l with
  | nil => intro st h; exact h
  | cons o l ihl =>
    intro st h
    rw [List.foldl_cons]
    exact ihl (remStep3 uid st o) (remStep3_files_pres uid st o E h)

theorem remStep3_subfile_pres (uid : String) (st : St) (o V S : String)
    (h : ¬ uid ∈ akeys ((subOf st V S).getD [])) :
    ¬ uid ∈ akeys ((subOf (remStep3 uid st o) V S).getD []) := by
  by_cases ho : o = uid
  · rw [ho, remStep3_self]
    exact h
  · rw [remStep3_cases uid st o ho]
    by_cases hsh : uid ∈ read_shared st o
    · rw [if_pos hsh]
      by_cases hV : V = o
      · by_cases hS : S = uid
        · subst hV
          subst hS
          rw [subOf_safe_rmtree_sub_self]
          simp [akeys]
        · rw [subOf_safe_rmtree_sub_ne _ o uid V S (Or.inr hS)]
          exact h
      · rw [subOf_safe_rmtree_sub_ne _ o uid V S (Or.inl hV)]
        exact h
    · rw [if_neg hsh]
      exact h

theorem foldS3_subfile_pres (uid V S : String) : ∀ (l : List String) (st : St),
    ¬ uid ∈ akeys ((subOf st V S).getD []) →
    ¬ uid ∈ akeys ((subOf (l.foldl (remStep3 uid) st) V S).getD []) := by
  intro l
  induction l with
  | nil => intro st h; exact h
  | cons o l ihl =>
    intro st h
    rw [List.foldl_cons]
    exact ihl (remStep3 uid st o) (remStep3_subfile_pres uid st o V S h)

/-! ### Fold (d): TOC lines are rewritten clean -/

theorem remStep4_tocs_ne (uid : String) (st : St) (tn k : String) (h : ¬ k = tn) :
    look (remStep4 uid st tn).tocs k = look st.tocs k :=
  look_aset_ne st.tocs tn k _ h

theorem foldS4_tocs_notin (uid : String) : ∀ (l : List String) (st : St) (k : String),
    ¬ k ∈ l → look ((l.foldl (remStep4 uid) st)).tocs k = look st.tocs k := by
  intro l
  induction l with
  | nil => intro st k _; rfl
  | cons tn l ihl =>
    intro st k hk
    rw [List.foldl_cons]
    rw [ihl (remStep4 uid st tn) k (fun hm => hk (List.mem_cons_of_mem tn hm))]
    exact remStep4_tocs_ne uid st tn k (fun hh => hk (hh ▸ List.mem_cons_self tn l))

theorem foldS4_frame (uid : String) : ∀ (l : List String) (st : St),
    ((l.foldl (remStep4 uid) st)).ents = st.ents ∧
    ((l.foldl (remStep4 uid) st)).imp = st.imp ∧
    ((l.foldl (remStep4 uid) st)).shr = st.shr ∧
    ((l.foldl (remStep4 uid) st)).descr = st.descr ∧
    ((l.foldl (remStep4 uid) st)).exps = st.exps := by
  intro l
  induction l with
  | nil => intro st; exact ⟨rfl, rfl, rfl, rfl, rfl⟩
  | cons tn l ihl =>
    intro st
    rw [List.foldl_cons]
    exact ihl (remStep4 uid st tn)

theorem foldS4_clean (uid : String) : ∀ (l : List String), l.Nodup → ∀ (st : St),
    ∀ tn ∈ l, ¬ uid ∈ read_lines ((l.foldl (remStep4 uid) st)).tocs tn := by
  intro l
  induction l with
  | nil =>
    intro _ st tn htn
    exact absurd htn (List.not_mem_nil tn)
  | cons tn2 rest ihl =>
    intro hnd st tn htn
    obtain ⟨htn2r, hndr⟩ := List.nodup_cons.1 hnd
    rw [List.foldl_cons]
    rcases List.mem_cons.1 htn with he | hm
    · subst he
      intro hmem
      rw [show read_lines ((rest.foldl (remStep4 uid) (remStep4 uid st tn))).tocs tn =
          read_lines (remStep4 uid st tn).tocs tn from by
        unfold read_lines
        rw [foldS4_tocs_notin uid rest (remStep4 uid st tn) tn htn2r]] at hmem
      exact remove_line_value_not_mem st.tocs tn uid hmem
    · exact ihl hndr (remStep4 uid st tn2) tn hm

theorem foldS4_akeys (uid : String) : ∀ (l : List String) (st : St),
    (∀ tn ∈ l, tn ∈ akeys st.tocs) →
    akeys ((l.foldl (remStep4 uid) st)).tocs = akeys st.tocs := by
  intro l
  induction l with
  | nil => intro st _; rfl
  | cons tn l ihl =>
    intro st h
    rw [List.foldl_cons]
    have hstep : akeys (remStep4 uid st tn).tocs = akeys st.tocs := by
      show akeys (aset st.tocs tn _) = akeys st.tocs
      rw [akeys_aset_cases]
      rw [if_pos (h tn (List.mem_cons_self tn l))]
    rw [ihl (remStep4 uid st tn) (fun tn2 htn2 => by
      rw [hstep]
      exact h tn2 (List.mem_cons_of_mem tn htn2)), hstep]

/-! ### Membership transport for sorted uid lists -/

theorem mem_sortStr (a : String) (l : List String) : a ∈ sortStr l ↔ a ∈ l :=
  (List.perm_insertionSort _ l).mem_iff

/-- The cascade property of the composed folds, stated on named
intermediate states. -/
theorem c2_aux (s : St) (uid : String) (s1 s2 s3 s4 sFin : St)
    (e1 : s1 = (all_uids s).foldl (remStep1 uid) s)
    (e2 : s2 = (read_imports s1 uid).foldl (remStep2 uid) s1)
    (e3 : s3 = (all_uids s).foldl (remStep3 uid) s2)
    (e4 : s4 = (all_toc_names s3).foldl (remStep4 uid) s3)
    (eF : sFin = rm_entity_dir s4 uid)
    (hnd : (all_uids s).Nodup)
    (htoc : (all_toc_names s).Nodup)
    (hedges : ∀ o ∈ all_uids s, ∀ p ∈ read_imports s o, goodEdgeB p = true)
    (hdirI : ∀ E ∈ akeys s.exps, uid ∈ akeys (expOf s E).files →
      ∃ p ∈ read_imports s uid, p.1 = E ∧ ¬ optTruthy p.2 = true)
    (hsubI : ∀ V ∈ akeys s.exps, ∀ q ∈ (expOf s V).subs, uid ∈ akeys q.2 →
      ∃ p ∈ read_imports s uid, p.1 = q.1 ∧ p.2 = some V ∧ ¬ V = "")
    (hshrI : ∀ E ∈ akeys s.exps, uid ∈ akeys (expOf s E).subs →
      E ∈ all_uids s ∧ ¬ E = uid ∧ uid ∈ read_shared s E) :
    ¬ uid ∈ sFin.ents ∧
    look sFin.imp uid = none ∧
    look sFin.shr uid = none ∧
    look sFin.descr uid = none ∧
    look sFin.exps uid = none ∧
    (∀ o ∈ all_uids sFin, ¬ o = uid →
      ∀ p ∈ read_imports sFin o, ¬ p.1 = uid ∧ ¬ p.2 = some uid) ∧
    (∀ o ∈ all_uids sFin, ¬ o = uid → ¬ uid ∈ read_shared sFin o) ∧
    (∀ E, ¬ uid ∈ akeys (expOf sFin E).files) ∧
    (∀ E, ¬ uid ∈ akeys (expOf sFin E).subs) ∧
    (∀ E S sf, subOf sFin E S = some sf → ¬ uid ∈ akeys sf) ∧
    (∀ tn ∈ all_toc_names sFin, ¬ uid ∈ read_lines sFin.tocs tn) := by
  subst eF
  obtain ⟨F1e, F1sh, F1d, F1x, F1t⟩ := foldS1_frame uid (all_uids s) s
  rw [← e1] at F1e F1sh F1d F1x F1t
  obtain ⟨F2e, F2i, F2sh, F2d, F2t⟩ := foldS2_frame uid (read_imports s1 uid) s1
  rw [← e2] at F2e F2i F2sh F2d F2t
  obtain ⟨F3e, F3i, F3d, F3t⟩ := foldS3_frame uid (all_uids s) s2
  rw [← e3] at F3e F3i F3d F3t
  obtain ⟨F4e, F4i, F4sh, F4d, F4x⟩ := foldS4_frame uid (all_toc_names s3) s3
  rw [← e4] at F4e F4i F4sh F4d F4x
  have hents4 : s4.ents = s.ents := F4e.trans (F3e.trans (F2e.trans F1e))
  have himp4 : s4.imp = s1.imp := F4i.trans (F3i.trans F2i)
  have hshr2 : s2.shr = s.shr := F2sh.trans F1sh
  have hexps1 : s1.exps = s.exps := F1x
  have htocs3 : s3.tocs = s.tocs := F3t.trans (F2t.trans F1t)
  have hexpOf1 : ∀ E, expOf s1 E = expOf s E := fun E => by
    unfold expOf
    rw [hexps1]
  have hru : read_imports s1 uid = read_imports s uid := by
    rw [e1]
    exact read_imports_eq_of_look uid (foldS1_imp_uid uid (all_uids s) s)
  have hmem_all : ∀ o, o ∈ all_uids (rm_entity_dir s4 uid) → o ∈ all_uids s := by
    intro o ho
    unfold all_uids at ho ⊢
    rw [mem_sortStr] at ho ⊢
    obtain ⟨hoe, hop⟩ := List.mem_filter.1 ho
    have hoe2 : o ∈ s4.ents := List.mem_of_mem_filter hoe
    rw [hents4] at hoe2
    exact List.mem_filter.2 ⟨hoe2, hop⟩
  refine ⟨?_, ?_, ?_, ?_, ?_, ?_, ?_, ?_, ?_, ?_, ?_⟩
  · intro hmem
    have hd := (List.mem_filter.1 hmem).2
    rw [decide_eq_true_eq] at hd
    exact hd rfl
  · exact look_aerase_self s4.imp uid
  · exact look_aerase_self s4.shr uid
  · exact look_aerase_self s4.descr uid
  · exact look_aerase_self s4.exps uid
  · intro o ho hou p hp
    have ho2 := hmem_all o ho
    rw [read_imports_eq_of_look o (show look (rm_entity_dir s4 uid).imp o = look s1.imp o from by
      show look (aerase s4.imp uid) o = look s1.imp o
      rw [look_aerase_ne s4.imp uid o hou, himp4])] at hp
    rw [e1] at hp
    exact foldS1_clean uid (all_uids s) hnd s hedges o ho2 hou p hp
  · intro o ho hou hmem
    have ho2 := hmem_all o ho
    rw [read_shared_eq_of_look o (show look (rm_entity_dir s4 uid).shr o = look s3.shr o from by
      show look (aerase s4.shr uid) o = look s3.shr o
      rw [look_aerase_ne s4.shr uid o hou, F4sh])] at hmem
    rw [e3] at hmem
    exact foldS3_shared uid (all_uids s) hnd s2 o ho2 hou hmem
  · intro E
    by_cases hEu : E = uid
    · subst hEu
      rw [show expOf (rm_entity_dir s4 E) E = ExpArea.empty from by
        unfold expOf
        show (look (aerase s4.exps E) E).getD ExpArea.empty = ExpArea.empty
        rw [look_aerase_self]
        rfl]
      simp [ExpArea.empty, akeys]
    · rw [show expOf (rm_entity_dir s4 uid) E = expOf s3 E from by
        unfold expOf
        show (look (aerase s4.exps uid) E).getD ExpArea.empty =
          (look s3.exps E).getD ExpArea.empty
        rw [look_aerase_ne s4.exps uid E hEu, F4x]]
      rw [e3]
      apply foldS3_files_pres uid E (all_uids s) s2
      rw [e2]
      apply foldS2_files_absent uid E (read_imports s1 uid) s1
      by_cases hpre : uid ∈ akeys (expOf s1 E).files
      · left
        have hpre2 : uid ∈ akeys (expOf s E).files := by
          rw [← hexpOf1 E]
          exact hpre
        have hEex : E ∈ akeys s.exps := by
          by_contra hno
          rw [show expOf s E = ExpArea.empty from by
            unfold expOf
            rw [look_eq_none hno]
            rfl] at hpre2
          simp [ExpArea.empty, akeys] at hpre2
        obtain ⟨p, hp, hp1, hp2⟩ := hdirI E hEex hpre2
        exact ⟨p, by rw [hru]; exact hp, hp1, hp2⟩
      · right
        exact hpre
  · intro E
    by_cases hEu : E = uid
    · subst hEu
      rw [show expOf (rm_entity_dir s4 E) E = ExpArea.empty from by
        unfold expOf
        show (look (aerase s4.exps E) E).getD ExpArea.empty = ExpArea.empty
        rw [look_aerase_self]
        rfl]
      simp [ExpArea.empty, akeys]
    · rw [show expOf (rm_entity_dir s4 uid) E = expOf s3 E from by
        unfold expOf
        show (look (aerase s4.exps uid) E).getD ExpArea.empty =
          (look s3.exps E).getD ExpArea.empty
        rw [look_aerase_ne s4.exps uid E hEu, F4x]]
      rw [e3]
      apply foldS3_subs_absent uid E (all_uids s) s2
      by_cases hpre : uid ∈ akeys (expOf s2 E).subs
      · left
        have hpre2 : uid ∈ akeys (expOf s E).subs := by
          rw [e2] at hpre
          rw [foldS2_subs_akeys uid (read_imports s1 uid) s1 E] at hpre
          rw [hexpOf1 E] at hpre
          exact hpre
        have hEex : E ∈ akeys s.exps := by
          by_contra hno
          rw [show expOf s E = ExpArea.empty from by
            unfold expOf
            rw [look_eq_none hno]
            rfl] at hpre2
          simp [ExpArea.empty, akeys] at hpre2
        obtain ⟨hEall, hEuid, hEshr⟩ := hshrI E hEex hpre2
        refine ⟨hEall, hEuid, ?_⟩
        rw [read_shared_eq_of_look E (show look s2.shr E = look s.shr E from by rw [hshr2])]
        exact hEshr
      · right
        exact hpre
  · intro E S sf hsub hmem
    by_cases hEu : E = uid
    · subst hEu
      rw [show subOf (rm_entity_dir s4 E) E S = none from by
        unfold subOf expOf
        show look ((look (aerase s4.exps E) E).getD ExpArea.empty).subs S = none
        rw [look_aerase_self]
        rfl] at hsub
      exact absurd hsub (by simp)
    · have habs : ¬ uid ∈ akeys ((subOf (rm_entity_dir s4 uid) E S).getD []) := by
        rw [show subOf (rm_entity_dir s4 uid) E S = subOf s3 E S from by
          unfold subOf expOf
          show look ((look (aerase s4.exps uid) E).getD ExpArea.empty).subs S =
            look ((look s3.exps E).getD ExpArea.empty).subs S
          rw [look_aerase_ne s4.exps uid E hEu, F4x]]
        rw [e3]
        apply foldS3_subfile_pres uid E S (all_uids s) s2
        rw [e2]
        apply foldS2_sub_absent uid E S (read_imports s1 uid) s1
        by_cases hpre : uid ∈ akeys ((subOf s1 E S).getD [])
        · left
          have hpre2 : uid ∈ akeys ((subOf s E S).getD []) := by
            rw [show subOf s1 E S = subOf s E S from by
              unfold subOf
              rw [hexpOf1 E]] at hpre
            exact hpre
          rcases hso : subOf s E S with _ | sf2
          · rw [hso] at hpre2
            simp [akeys] at hpre2
          · rw [hso] at hpre2
            have hEex : E ∈ akeys s.exps := by
              by_contra hno
              rw [show subOf s E S = none from by
                unfold subOf expOf
                rw [look_eq_none hno]
                rfl] at hso
              exact absurd hso (by simp)
            have hq : (S, sf2) ∈ (expOf s E).subs := look_mem hso
            obtain ⟨p, hp, hp1, hp2, hp3⟩ := hsubI E hEex (S, sf2) hq (by exact hpre2)
            exact ⟨p, by rw [hru]; exact hp, hp1, hp2, hp3⟩
        · right
          exact hpre
      rw [hsub] at habs
      exact habs (by exact hmem)
  · intro tn htn hmem
    have htA : akeys s4.tocs = akeys s3.tocs := by
      rw [e4]
      apply foldS4_akeys
      intro tn2 htn2
      unfold all_toc_names at htn2
      rw [mem_sortStr] at htn2
      exact List.mem_of_mem_filter htn2
    have htn3 : tn ∈ all_toc_names s3 := by
      unfold all_toc_names at htn ⊢
      rw [mem_sortStr] at htn ⊢
      have htn2 : tn ∈ (akeys s4.tocs).filter (fun n => strStarts n "TOC") := htn
      rw [htA] at htn2
      exact htn2
    have htnames : all_toc_names s3 = all_toc_names s := by
      unfold all_toc_names
      rw [htocs3]
    have hmem2 : uid ∈ read_lines s4.tocs tn := hmem
    rw [e4] at hmem2
    exact foldS4_clean uid (all_toc_names s3) (by rw [htnames]; exact htoc) s3 tn htn3 hmem2

/-- C2: cascading delete closure.  On a store satisfying the data-model
invariants — duplicate-free uid and TOC listings, well-formed edges, and
the reverse-record/shared-marker invariants that tie every export-area
file or sub-collection named after the removed uid to a forward edge or
a shared declaration — `remove_entity uid` succeeds and afterwards no
other entity's import list mentions uid (as imported or via), no other
entity's shared list contains uid, no export area holds a file or
sub-collection named uid or a recipient file named uid inside any
sub-collection, no TOC line equals uid, and uid's own storage (entity
directory, imports, shared, description, exports) is gone. -/
theorem c2_cascade_delete (s : St) (uid : String)
    (h1 : s.initialized = true) (h2 : entity_exists s uid = true)
    (hnd : (all_uids s).Nodup)
    (htoc : (all_toc_names s).Nodup)
    (hedges : ∀ o ∈ all_uids s, ∀ p ∈ read_imports s o, goodEdgeB p = true)
    (hdirI : ∀ E ∈ akeys s.exps, uid ∈ akeys (expOf s E).files →
      ∃ p ∈ read_imports s uid, p.1 = E ∧ ¬ optTruthy p.2 = true)
    (hsubI : ∀ V ∈ akeys s.exps, ∀ q ∈ (expOf s V).subs, uid ∈ akeys q.2 →
      ∃ p ∈ read_imports s uid, p.1 = q.1 ∧ p.2 = some V ∧ ¬ V = "")
    (hshrI : ∀ E ∈ akeys s.exps, uid ∈ akeys (expOf s E).subs →
      E ∈ all_uids s ∧ ¬ E = uid ∧ uid ∈ read_shared s E) :
    (remove_entity s uid).2 = none ∧
    (¬ uid ∈ (remove_entity s uid).1.ents ∧
     look (remove_entity s uid).1.imp uid = none ∧
     look (remove_entity s uid).1.shr uid = none ∧
     look (remove_entity s uid).1.descr uid = none ∧
     look (remove_entity s uid).1.exps uid = none ∧
     (∀ o ∈ all_uids (remove_entity s uid).1, ¬ o = uid →
       ∀ p ∈ read_imports (remove_entity s uid).1 o, ¬ p.1 = uid ∧ ¬ p.2 = some uid) ∧
     (∀ o ∈ all_uids (remove_entity s uid).1, ¬ o = uid →
       ¬ uid ∈ read_shared (remove_entity s uid).1 o) ∧
     (∀ E, ¬ uid ∈ akeys (expOf (remove_entity s uid).1 E).files) ∧
     (∀ E, ¬ uid ∈ akeys (expOf (remove_entity s uid).1 E).subs) ∧
     (∀ E S sf, subOf (remove_entity s uid).1 E S = some sf → ¬ uid ∈ akeys sf) ∧
     (∀ tn ∈ all_toc_names (remove_entity s uid).1,
       ¬ uid ∈ read_lines (remove_entity s uid).1.tocs tn)) := by
  refine ⟨?_, ?_⟩
  · rw [remove_entity_eq s uid h1 h2]
  · exact c2_aux s uid _ _ _ _ (remove_entity s uid).1 rfl rfl rfl rfl
      (by rw [remove_entity_eq s uid h1 h2]) hnd htoc hedges hdirI hsubI hshrI

/-- Witness store for C2: `obj-a` imports `obj-c` (reverse record under
`obj-c`), `obj-b` imports `obj-a` and shares `obj-a` (sub-collection
under `obj-b`), and one TOC lists `obj-a`. -/
def c2w : St :=
  ⟨true, ["obj-a", "obj-b", "obj-c"],
   [("obj-a", ["obj-c"]), ("obj-b", ["obj-a"])],
   [("obj-b", ["obj-a"])],
   [],
   [("obj-c", ⟨[("obj-a", "w\n")], []⟩),
    ("obj-b", ⟨[], [("obj-a", [("description", "d\n")])]⟩)],
   [("TOC", ["obj-a", "obj-b"])]⟩

/-- Witness for `c2_cascade_delete` on the concrete store. -/
theorem c2_witness :
    (remove_entity c2w "obj-a").2 = none ∧
    ¬ "obj-a" ∈ (remove_entity c2w "obj-a").1.ents ∧
    ¬ "obj-a" ∈ akeys (expOf (remove_entity c2w "obj-a").1 "obj-c").files ∧
    ¬ "obj-a" ∈ akeys (expOf (remove_entity c2w "obj-a").1 "obj-b").subs :=
  have key := c2_cascade_delete c2w "obj-a" (by decide) (by decide) (by decide)
    (by decide) (by decide) (by decide) (by decide) (by decide)
  ⟨key.1, key.2.1, key.2.2.2.2.2.2.2.2.1 "obj-c", key.2.2.2.2.2.2.2.2.2.1 "obj-b"⟩

/-- A walk along the BFS neighbor relation of `get_path`: each
consecutive pair is a step of the undirected union graph. -/
def nbChainB (s : St) : List String → Bool
  | [] => true
  | [_] => true
  | u :: v :: t => decide (v ∈ neighbors_of s u) && nbChainB s (v :: t)

/-- A valid route for `get_path`: starts at `fr`, ends at `w`, walks
the neighbor relation, and every node before the endpoint exists. -/
def goodToB (s : St) (fr w : String) (r : List String) : Bool :=
  decide (r.head? = some fr) && decide (r.getLast? = some w) &&
    nbChainB s r && r.dropLast.all (fun x => entity_exists s x)

theorem goodToB_iff (s : St) (fr w : String) (r : List String) :
    goodToB s fr w r = true ↔
      (r.head? = some fr ∧ r.getLast? = some w ∧ nbChainB s r = true ∧
        ∀ x ∈ r.dropLast, entity_exists s x = true) := by
  simp [goodToB, Bool.and_eq_true, decide_eq_true_eq, List.all_eq_true, and_assoc]

theorem nbChainB_cons_cons (s : St) (u v : String) (t : List String) :
    nbChainB s (u :: v :: t) = true ↔
      v ∈ neighbors_of s u ∧ nbChainB s (v :: t) = true := by
  simp [nbChainB]

theorem nbChainB_init (s : St) : ∀ (l : List String) (w : String),
    nbChainB s (l ++ [w]) = true → nbChainB s l = true := by
  intro l
  induction l with
  | nil => intro w _; rfl
  | cons a t ih =>
    intro w h
    cases t with
    | nil => rfl
    | cons b t2 =>
      rw [List.cons_append] at h
      have h2 := (nbChainB_cons_cons s a b (t2 ++ [w])).1 h
      exact (nbChainB_cons_cons s a b t2).2 ⟨h2.1, ih w h2.2⟩

theorem nbChainB_last_step (s : St) : ∀ (l : List String) (v w : String),
    l.getLast? = some v → nbChainB s (l ++ [w]) = true →
    w ∈ neighbors_of s v := by
  intro l
  induction l with
  | nil =>
    intro v w h _
    simp at h
  | cons a t ih =>
    intro v w h1 h2
    cases t with
    | nil =>
      simp at h1
      subst h1
      rw [List.cons_append, List.nil_append] at h2
      exact ((nbChainB_cons_cons s a w []).1 h2).1
    | cons b t2 =>
      rw [List.getLast?_cons_cons] at h1
      rw [List.cons_append] at h2
      exact ih v w h1 ((nbChainB_cons_cons s a b (t2 ++ [w])).1 h2).2

theorem nbChainB_snoc (s : St) : ∀ (l : List String) (w v : String),
    nbChainB s l = true → l.getLast? = some w → v ∈ neighbors_of s w →
    nbChainB s (l ++ [v]) = true := by
  intro l
  induction l with
  | nil =>
    intro w v _ h2 _
    simp at h2
  | cons a t ih =>
    intro w v h1 h2 h3
    cases t with
    | nil =>
      simp at h2
      subst h2
      rw [List.cons_append, List.nil_append]
      exact (nbChainB_cons_cons s a v []).2 ⟨h3, rfl⟩
    | cons b t2 =>
      rw [List.cons_append]
      refine (nbChainB_cons_cons s a b (t2 ++ [v])).2
        ⟨((nbChainB_cons_cons s a b t2).1 h1).1, ?_⟩
      exact ih w v ((nbChainB_cons_cons s a b t2).1 h1).2
        (by rw [List.getLast?_cons_cons] at h2; exact h2) h3

theorem listLe_total : ∀ (a b : List Char), listLe a b = true ∨ listLe b a = true := by
  intro a
  induction a with
  | nil => intro b; left; rfl
  | cons c as ih =>
    intro b
    cases b with
    | nil => right; rfl
    | cons d bs =>
      by_cases h1 : c.val < d.val
      · left
        rw [show listLe (c :: as) (d :: bs) =
          (if c.val < d.val then true else if d.val < c.val then false
            else listLe as bs) from rfl, if_pos h1]
      · by_cases h2 : d.val < c.val
        · right
          rw [show listLe (d :: bs) (c :: as) =
            (if d.val < c.val then true else if c.val < d.val then false
              else listLe bs as) from rfl, if_pos h2]
        · rcases ih bs with h | h
          · left
            rw [show listLe (c :: as) (d :: bs) =
              (if c.val < d.val then true else if d.val < c.val then false
                else listLe as bs) from rfl, if_neg h1, if_neg h2]
            exact h
          · right
            rw [show listLe (d :: bs) (c :: as) =
              (if d.val < c.val then true else if c.val < d.val then false
                else listLe bs as) from rfl, if_neg h2, if_neg h1]
            exact h

theorem listLe_trans : ∀ (a b c : List Char),
    listLe a b = true → listLe b c = true → listLe a c = true := by
  intro a
  induction a with
  | nil => intro b c _ _; rfl
  | cons x as ih =>
    intro b c hab hbc
    cases b with
    | nil => exact absurd hab (by rw [show listLe (x :: as) [] = false from rfl]; simp)
    | cons y bs =>
      cases c with
      | nil => exact absurd hbc (by rw [show listLe (y :: bs) [] = false from rfl]; simp)
      | cons z cs =>
        rw [show listLe (x :: as) (y :: bs) =
          (if x.val < y.val then true else if y.val < x.val then false
            else listLe as bs) from rfl] at hab
        rw [show listLe (y :: bs) (z :: cs) =
          (if y.val < z.val then true else if z.val < y.val then false
            else listLe bs cs) from rfl] at hbc
        rw [show listLe (x :: as) (z :: cs) =
          (if x.val < z.val then true else if z.val < x.val then false
            else listLe as cs) from rfl]
        by_cases h1 : x.val < y.val
        · have n1 : x.val.toNat < y.val.toNat := by exact_mod_cast h1
          by_cases h2 : y.val < z.val
          · have n2 : y.val.toNat < z.val.toNat := by exact_mod_cast h2
            have hxz : x.val < z.val := by
              have n3 : x.val.toNat < z.val.toNat := by omega
              exact_mod_cast n3
            rw [if_pos hxz]
          · by_cases h3 : z.val < y.val
            · rw [if_neg h2, if_pos h3] at hbc
              exact absurd hbc (by simp)
            · have n3 : ¬ z.val.toNat < y.val.toNat := fun hc => h3 (by exact_mod_cast hc)
              have hxz : x.val < z.val := by
                have n4 : x.val.toNat < z.val.toNat := by omega
                exact_mod_cast n4
              rw [if_pos hxz]
        · have n1 : ¬ x.val.toNat < y.val.toNat := fun hc => h1 (by exact_mod_cast hc)
          by_cases h1b : y.val < x.val
          · rw [if_neg h1, if_pos h1b] at hab
            exact absurd hab (by simp)
          · have n1b : ¬ y.val.toNat < x.val.toNat := fun hc => h1b (by exact_mod_cast hc)
            rw [if_neg h1, if_neg h1b] at hab
            by_cases h2 : y.val < z.val
            · have n2 : y.val.toNat < z.val.toNat := by exact_mod_cast h2
              have hxz : x.val < z.val := by
                have n4 : x.val.toNat < z.val.toNat := by omega
                exact_mod_cast n4
              rw [if_pos hxz]
            · by_cases h3 : z.val < y.val
              · rw [if_neg h2, if_pos h3] at hbc
                exact absurd hbc (by simp)
              · rw [if_neg h2, if_neg h3] at hbc
                have n2 : ¬ y.val.toNat < z.val.toNat := fun hc => h2 (by exact_mod_cast hc)
                have n3 : ¬ z.val.toNat < y.val.toNat := fun hc => h3 (by exact_mod_cast hc)
                have g1 : ¬ x.val < z.val := by
                  intro hc
                  have nc : x.val.toNat < z.val.toNat := by exact_mod_cast hc
                  omega
                have g2 : ¬ z.val < x.val := by
                  intro hc
                  have nc : z.val.toNat < x.val.toNat := by exact_mod_cast hc
                  omega
                rw [if_neg g1, if_neg g2]
                exact ih bs cs hab hbc

instance instStrLeTotal : IsTotal String (fun a b => strLe a b = true) :=
  ⟨fun a b => listLe_total a.data b.data⟩

instance instStrLeTrans : IsTrans String (fun a b => strLe a b = true) :=
  ⟨fun a b c hab hbc => listLe_trans a.data b.data c.data hab hbc⟩

theorem bfs_expand_inr (s : St) (tgt : String) (path : List String) :
    ∀ (nbs vis : List String) (q : List (String × List String)) (p : List String),
    bfs_expand s tgt path nbs vis q = Sum.inr p →
    p = path ++ [tgt] ∧ tgt ∈ nbs := by
  intro nbs
  induction nbs with
  | nil =>
    intro vis q p h
    exact Sum.noConfusion h
  | cons nb rest ih =>
    intro vis q p h
    rw [show bfs_expand s tgt path (nb :: rest) vis q =
        (if nb = tgt then Sum.inr (path ++ [nb])
         else if ¬ nb ∈ vis ∧ entity_exists s nb = true then
           bfs_expand s tgt path rest (vis ++ [nb]) (q ++ [(nb, path ++ [nb])])
         else bfs_expand s tgt path rest vis q) from rfl] at h
    by_cases h1 : nb = tgt
    · rw [if_pos h1] at h
      injection h with h2
      subst h1
      exact ⟨h2.symm, List.mem_cons_self _ _⟩
    · rw [if_neg h1] at h
      by_cases h2 : ¬ nb ∈ vis ∧ entity_exists s nb = true
      · rw [if_pos h2] at h
        obtain ⟨hp, hm⟩ := ih _ _ _ h
        exact ⟨hp, List.mem_cons_of_mem _ hm⟩
      · rw [if_neg h2] at h
        obtain ⟨hp, hm⟩ := ih _ _ _ h
        exact ⟨hp, List.mem_cons_of_mem _ hm⟩

theorem bfs_expand_inl (s : St) (tgt : String) (path : List String) :
    ∀ (nbs vis : List String) (q : List (String × List String))
      (vis2 : List String) (q2 : List (String × List String)),
    bfs_expand s tgt path nbs vis q = Sum.inl (vis2, q2) →
    ∃ new : List String,
      vis2 = vis ++ new ∧
      q2 = q ++ new.map (fun nb => (nb, path ++ [nb])) ∧
      (∀ nb ∈ new, nb ∈ nbs ∧ ¬ nb ∈ vis ∧ entity_exists s nb = true ∧ ¬ nb = tgt) ∧
      (vis.Nodup → vis2.Nodup) ∧
      (∀ nb ∈ nbs, ¬ nb = tgt ∧ (entity_exists s nb = true → nb ∈ vis2)) := by
  intro nbs
  induction nbs with
  | nil =>
    intro vis q vis2 q2 h
    injection h with h2
    injection h2 with h3 h4
    refine ⟨[], by rw [← h3, List.append_nil],
      by rw [← h4, List.map_nil, List.append_nil], ?_, ?_, ?_⟩
    · intro nb hnb
      exact absurd hnb (List.not_mem_nil nb)
    · intro hnd
      rw [← h3]
      exact hnd
    · intro nb hnb
      exact absurd hnb (List.not_mem_nil nb)
  | cons nb rest ih =>
    intro vis q vis2 q2 h
    rw [show bfs_expand s tgt path (nb :: rest) vis q =
        (if nb = tgt then Sum.inr (path ++ [nb])
         else if ¬ nb ∈ vis ∧ entity_exists s nb = true then
           bfs_expand s tgt path rest (vis ++ [nb]) (q ++ [(nb, path ++ [nb])])
         else bfs_expand s tgt path rest vis q) from rfl] at h
    by_cases h1 : nb = tgt
    · rw [if_pos h1] at h
      exact Sum.noConfusion h
    · rw [if_neg h1] at h
      by_cases h2 : ¬ nb ∈ vis ∧ entity_exists s nb = true
      · rw [if_pos h2] at h
        obtain ⟨new2, e1, e2, hmems, hnod, hcov⟩ := ih _ _ _ _ h
        refine ⟨nb :: new2, ?_, ?_, ?_, ?_, ?_⟩
        · rw [e1, List.append_assoc]
          rfl
        · rw [e2, List.append_assoc]
          rfl
        · intro m hm
          rcases List.mem_cons.1 hm with hm | hm
          · subst hm
            exact ⟨List.mem_cons_self _ _, h2.1, h2.2, h1⟩
          · obtain ⟨m1, m2, m3, m4⟩ := hmems m hm
            refine ⟨List.mem_cons_of_mem _ m1, ?_, m3, m4⟩
            intro hmv
            exact m2 (List.mem_append_left _ hmv)
        · intro hnd
          apply hnod
          rw [List.nodup_append]
          refine ⟨hnd, List.nodup_singleton nb, ?_⟩
          intro a ha hb
          rw [List.mem_singleton] at hb
          subst hb
          exact h2.1 ha
        · intro m hm
          rcases List.mem_cons.1 hm with hm | hm
          · subst hm
            refine ⟨h1, fun _ => ?_⟩
            rw [e1]
            exact List.mem_append_left _ (List.mem_append_right _ (List.mem_singleton_self m))
          · obtain ⟨c1, c2⟩ := hcov m hm
            exact ⟨c1, c2⟩
      · rw [if_neg h2] at h
        obtain ⟨new2, e1, e2, hmems, hnod, hcov⟩ := ih _ _ _ _ h
        refine ⟨new2, e1, e2, ?_, hnod, ?_⟩
        · intro m hm
          obtain ⟨m1, m2, m3, m4⟩ := hmems m hm
          exact ⟨List.mem_cons_of_mem _ m1, m2, m3, m4⟩
        · intro m hm
          rcases List.mem_cons.1 hm with hm | hm
          · subst hm
            refine ⟨h1, fun hee => ?_⟩
            by_cases hmv : m ∈ vis
            · rw [e1]
              exact List.mem_append_left _ hmv
            · exact absurd ⟨hmv, hee⟩ h2
          · exact hcov m hm

/-- Any valid route from `fr` to an unvisited node must cross the BFS
frontier: some queue entry is a strict prefix-bound for it. -/
theorem bfs_crossing (s : St) (fr tgt : String) (vis : List String)
    (q : List (String × List String))
    (hfrv : fr ∈ vis)
    (hexp : ∀ v ∈ vis, ¬ v ∈ q.map Prod.fst →
      ∀ nb ∈ neighbors_of s v, ¬ nb = tgt ∧ (entity_exists s nb = true → nb ∈ vis))
    (hlb : ∀ e ∈ q, ∀ r, goodToB s fr e.1 r = true → e.2.length ≤ r.length) :
    ∀ (r : List String) (w : String), ¬ w ∈ vis →
      (entity_exists s w = true ∨ w = tgt) →
      goodToB s fr w r = true →
      ∃ e ∈ q, e.2.length + 1 ≤ r.length := by
  intro r
  induction r using List.reverseRecOn with
  | nil =>
    intro w hw hex hg
    rw [goodToB_iff] at hg
    exact absurd hg.1 (by simp)
  | append_singleton r9 a ih =>
    intro w hw hex hg
    rw [goodToB_iff] at hg
    obtain ⟨hh, hl, hc, hdl⟩ := hg
    rw [List.getLast?_concat] at hl
    injection hl with hl2
    have hl3 : w = a := hl2.symm
    subst hl3
    cases r9 with
    | nil =>
      have hh2 : w = fr := by
        injection hh with hh2
      subst hh2
      exact absurd hfrv hw
    | cons b r99 =>
      cases hvq : (b :: r99).getLast? with
      | none =>
        rw [List.getLast?_eq_none_iff] at hvq
        exact List.noConfusion hvq
      | some v =>
        have hedge : w ∈ neighbors_of s v := nbChainB_last_step s (b :: r99) v w hvq hc
        have hh3 : (b :: r99).head? = some fr := hh
        have hchain9 : nbChainB s (b :: r99) = true := nbChainB_init s (b :: r99) w hc
        have hdl9 : ∀ x ∈ (b :: r99).dropLast, entity_exists s x = true := by
          intro x hx
          apply hdl
          rw [List.dropLast_concat]
          exact (List.dropLast_sublist (b :: r99)).subset hx
        by_cases hvv : v ∈ vis
        · by_cases hvq2 : v ∈ q.map Prod.fst
          · obtain ⟨e, he, hef⟩ := List.mem_map.1 hvq2
            refine ⟨e, he, ?_⟩
            have hgood : goodToB s fr e.1 (b :: r99) = true := by
              rw [goodToB_iff]
              refine ⟨hh3, ?_, hchain9, hdl9⟩
              rw [hef]
              exact hvq
            have hlen := hlb e he (b :: r99) hgood
            have hlapp : ((b :: r99) ++ [w]).length = (b :: r99).length + 1 := by
              simp
            omega
          · obtain ⟨hnt, himp⟩ := hexp v hvv hvq2 w hedge
            rcases hex with hex | hex
            · exact absurd (himp hex) hw
            · exact absurd hex hnt
        · have hvex : entity_exists s v = true := by
            apply hdl
            rw [List.dropLast_concat]
            exact List.mem_of_mem_getLast? hvq
          have hgood : goodToB s fr v (b :: r99) = true := by
            rw [goodToB_iff]
            exact ⟨hh3, hvq, hchain9, hdl9⟩
          obtain ⟨e, he, hlen⟩ := ih v hvv (Or.inl hvex) hgood
          refine ⟨e, he, ?_⟩
          have hlapp : ((b :: r99) ++ [w]).length = (b :: r99).length + 1 := by
            simp
          omega

/-- Correctness of the `while queue` loop of `get_path`: under the BFS
invariants the loop returns a shortest valid route to `tgt`, or `none`
exactly when no valid route exists. -/
theorem bfs_loop_correct (s : St) (fr tgt : String)
    (htgt : entity_exists s tgt = true) :
    ∀ (fuel : Nat) (vis : List String) (q : List (String × List String)),
    vis.Nodup →
    (∀ v ∈ vis, entity_exists s v = true) →
    fr ∈ vis →
    ¬ tgt ∈ vis →
    (∀ e ∈ q, e.2.getLast? = some e.1 ∧ e.2.head? = some fr ∧
      nbChainB s e.2 = true ∧ ∀ x ∈ e.2, x ∈ vis) →
    (∀ e ∈ q, ∀ r, goodToB s fr e.1 r = true → e.2.length ≤ r.length) →
    (∃ d qA qB, q = qA ++ qB ∧ (∀ e ∈ qA, e.2.length = d) ∧
      (∀ e ∈ qB, e.2.length = d + 1)) →
    (∀ v ∈ vis, ¬ v ∈ q.map Prod.fst →
      ∀ nb ∈ neighbors_of s v, ¬ nb = tgt ∧ (entity_exists s nb = true → nb ∈ vis)) →
    q.length + s.ents.length ≤ fuel + vis.length →
    (∀ p, bfs_loop s tgt fuel vis q = some p →
      goodToB s fr tgt p = true ∧
      ∀ r, goodToB s fr tgt r = true → p.length ≤ r.length) ∧
    (bfs_loop s tgt fuel vis q = none →
      ∀ r, ¬ goodToB s fr tgt r = true) := by
  intro fuel
  induction fuel with
  | zero =>
    intro vis q hnd hex hfrv htv hq hlb hlay hexp hfuel
    have hvl : vis.length ≤ s.ents.length := by
      have hsub : vis ⊆ s.ents := by
        intro v hv
        have h2 := hex v hv
        unfold entity_exists at h2
        exact of_decide_eq_true h2
      exact (hnd.subperm hsub).length_le
    have hq0 : q = [] := List.length_eq_zero.1 (by omega)
    subst hq0
    constructor
    · intro p hp
      exact Option.noConfusion hp
    · intro _ r hr
      obtain ⟨e, he, _⟩ := bfs_crossing s fr tgt vis [] hfrv hexp hlb r tgt htv (Or.inr rfl) hr
      exact absurd he (List.not_mem_nil e)
  | succ fuel ih =>
    intro vis q hnd hex hfrv htv hq hlb hlay hexp hfuel
    cases q with
    | nil =>
      constructor
      · intro p hp
        exact Option.noConfusion hp
      · intro _ r hr
        obtain ⟨e, he, _⟩ := bfs_crossing s fr tgt vis [] hfrv hexp hlb r tgt htv (Or.inr rfl) hr
        exact absurd he (List.not_mem_nil e)
    | cons c0 rest =>
      obtain ⟨cur, path⟩ := c0
      obtain ⟨hplast, hphead, hpchain, hpmem⟩ := hq (cur, path) (List.mem_cons_self _ _)
      have hmin : ∀ e ∈ (cur, path) :: rest, path.length ≤ e.2.length := by
        obtain ⟨d, qA, qB, hs9, hA, hB⟩ := hlay
        cases qA with
        | nil =>
          rw [List.nil_append] at hs9
          intro e he
          have h1 : path.length = d + 1 :=
            hB (cur, path) (by rw [← hs9]; exact List.mem_cons_self _ _)
          have h2 : e.2.length = d + 1 := hB e (by rw [← hs9]; exact he)
          omega
        | cons a qA2 =>
          rw [List.cons_append] at hs9
          injection hs9 with h1 h2
          intro e he
          have hpl : path.length = d := by
            have h3 := hA a (List.mem_cons_self a qA2)
            rw [← h1] at h3
            exact h3
          rcases List.mem_cons.1 he with he | he
          · rw [he]
          · rw [h2] at he
            rcases List.mem_append.1 he with he | he
            · have h4 := hA e (List.mem_cons_of_mem a he)
              omega
            · have h4 := hB e he
              omega
      cases hx : bfs_expand s tgt path (neighbors_of s cur) vis rest with
      | inr p2 =>
        obtain ⟨hp2, htm⟩ := bfs_expand_inr s tgt path (neighbors_of s cur) vis rest p2 hx
        have hloop : bfs_loop s tgt (fuel + 1) vis ((cur, path) :: rest) = some p2 := by
          rw [show bfs_loop s tgt (fuel + 1) vis ((cur, path) :: rest) =
            (match bfs_expand s tgt path (neighbors_of s cur) vis rest with
             | Sum.inr p => some p
             | Sum.inl (vis2, q2) => bfs_loop s tgt fuel vis2 q2) from rfl, hx]
        constructor
        · intro p hp
          rw [hloop] at hp
          injection hp with hpe
          subst hpe
          subst hp2
          constructor
          · rw [goodToB_iff]
            refine ⟨?_, List.getLast?_concat _, ?_, ?_⟩
            · cases path with
              | nil => exact absurd hphead (by simp)
              | cons x xs => exact hphead
            · exact nbChainB_snoc s path cur tgt hpchain hplast htm
            · intro x hx2
              rw [List.dropLast_concat] at hx2
              exact hex x (hpmem x hx2)
          · intro r hr
            obtain ⟨e, he, hlen⟩ :=
              bfs_crossing s fr tgt vis ((cur, path) :: rest) hfrv hexp hlb r tgt htv
                (Or.inr rfl) hr
            have hm2 := hmin e he
            have hplen : (path ++ [tgt]).length = path.length + 1 := by simp
            omega
        · intro hnone
          rw [hloop] at hnone
          exact Option.noConfusion hnone
      | inl vq =>
        obtain ⟨vis2, q2⟩ := vq
        obtain ⟨new, he1, he2, hmems, hnd2f, hcover⟩ :=
          bfs_expand_inl s tgt path (neighbors_of s cur) vis rest vis2 q2 hx
        have hloop : bfs_loop s tgt (fuel + 1) vis ((cur, path) :: rest) =
            bfs_loop s tgt fuel vis2 q2 := by
          rw [show bfs_loop s tgt (fuel + 1) vis ((cur, path) :: rest) =
            (match bfs_expand s tgt path (neighbors_of s cur) vis rest with
             | Sum.inr p => some p
             | Sum.inl (vis9, q9) => bfs_loop s tgt fuel vis9 q9) from rfl, hx]
        have hnd2 : vis2.Nodup := hnd2f hnd
        have hex2 : ∀ v ∈ vis2, entity_exists s v = true := by
          intro v hv
          rw [he1] at hv
          rcases List.mem_append.1 hv with hv | hv
          · exact hex v hv
          · exact (hmems v hv).2.2.1
        have hfrv2 : fr ∈ vis2 := by
          rw [he1]
          exact List.mem_append_left _ hfrv
        have htv2 : ¬ tgt ∈ vis2 := by
          rw [he1]
          intro hmem
          rcases List.mem_append.1 hmem with h | h
          · exact htv h
          · exact (hmems tgt h).2.2.2 rfl
        have hq2 : ∀ e ∈ q2, e.2.getLast? = some e.1 ∧ e.2.head? = some fr ∧
            nbChainB s e.2 = true ∧ ∀ x ∈ e.2, x ∈ vis2 := by
          intro e he
          rw [he2] at he
          rcases List.mem_append.1 he with he | he
          · obtain ⟨a1, a2, a3, a4⟩ := hq e (List.mem_cons_of_mem _ he)
            refine ⟨a1, a2, a3, ?_⟩
            intro x hx2
            rw [he1]
            exact List.mem_append_left _ (a4 x hx2)
          · obtain ⟨nb, hnb, hfe⟩ := List.mem_map.1 he
            obtain ⟨hnbn, hnbv, hnbe, hnbt⟩ := hmems nb hnb
            subst hfe
            refine ⟨List.getLast?_concat _, ?_, ?_, ?_⟩
            · cases path with
              | nil => exact absurd hphead (by simp)
              | cons x xs => exact hphead
            · exact nbChainB_snoc s path cur nb hpchain hplast hnbn
            · intro x hx2
              rw [he1]
              rcases List.mem_append.1 hx2 with h | h
              · exact List.mem_append_left _ (hpmem x h)
              · rw [List.mem_singleton] at h
                subst h
                exact List.mem_append_right _ hnb
        have hlb2 : ∀ e ∈ q2, ∀ r, goodToB s fr e.1 r = true → e.2.length ≤ r.length := by
          intro e he r hr
          rw [he2] at he
          rcases List.mem_append.1 he with he | he
          · exact hlb e (List.mem_cons_of_mem _ he) r hr
          · obtain ⟨nb, hnb, hfe⟩ := List.mem_map.1 he
            obtain ⟨hnbn, hnbv, hnbe, hnbt⟩ := hmems nb hnb
            subst hfe
            obtain ⟨e2, he2b, hlen⟩ :=
              bfs_crossing s fr tgt vis ((cur, path) :: rest) hfrv hexp hlb r nb hnbv
                (Or.inl hnbe) hr
            have hm2 := hmin e2 he2b
            show (path ++ [nb]).length ≤ r.length
            have hplen : (path ++ [nb]).length = path.length + 1 := by simp
            omega
        have hlay2 : ∃ d qA qB, q2 = qA ++ qB ∧ (∀ e ∈ qA, e.2.length = d) ∧
            (∀ e ∈ qB, e.2.length = d + 1) := by
          obtain ⟨d, qA, qB, hs9, hA, hB⟩ := hlay
          cases qA with
          | nil =>
            rw [List.nil_append] at hs9
            refine ⟨d + 1, rest, new.map (fun nb => (nb, path ++ [nb])), he2, ?_, ?_⟩
            · intro e he
              exact hB e (by rw [← hs9]; exact List.mem_cons_of_mem _ he)
            · intro e he
              obtain ⟨nb, hnb, hfe⟩ := List.mem_map.1 he
              subst hfe
              have hpl : path.length = d + 1 :=
                hB (cur, path) (by rw [← hs9]; exact List.mem_cons_self _ _)
              show (path ++ [nb]).length = d + 1 + 1
              simp [hpl]
          | cons a qA2 =>
            rw [List.cons_append] at hs9
            injection hs9 with h1 h2
            refine ⟨d, qA2, qB ++ new.map (fun nb => (nb, path ++ [nb])), ?_, ?_, ?_⟩
            · rw [he2, h2, List.append_assoc]
            · intro e he
              exact hA e (List.mem_cons_of_mem _ he)
            · intro e he
              rcases List.mem_append.1 he with he | he
              · exact hB e he
              · obtain ⟨nb, hnb, hfe⟩ := List.mem_map.1 he
                subst hfe
                have hpl : path.length = d := by
                  have h3 := hA a (List.mem_cons_self a qA2)
                  rw [← h1] at h3
                  exact h3
                show (path ++ [nb]).length = d + 1
                simp [hpl]
        have hexp2 : ∀ v ∈ vis2, ¬ v ∈ q2.map Prod.fst →
            ∀ nb ∈ neighbors_of s v, ¬ nb = tgt ∧
              (entity_exists s nb = true → nb ∈ vis2) := by
          intro v hv hvq nb hnb
          have hq2f : q2.map Prod.fst = rest.map Prod.fst ++ new := by
            rw [he2, List.map_append, List.map_map,
              show (Prod.fst ∘ fun nb => (nb, path ++ [nb])) = id from rfl, List.map_id]
          rw [hq2f] at hvq
          have hvrest : ¬ v ∈ rest.map Prod.fst := fun h => hvq (List.mem_append_left _ h)
          have hvnew : ¬ v ∈ new := fun h => hvq (List.mem_append_right _ h)
          have hvv : v ∈ vis := by
            rw [he1] at hv
            rcases List.mem_append.1 hv with h | h
            · exact h
            · exact absurd h hvnew
          by_cases hvc : v = cur
          · subst hvc
            exact hcover nb hnb
          · have hvq0 : ¬ v ∈ ((cur, path) :: rest).map Prod.fst := by
              rw [List.map_cons]
              intro hmem
              rcases List.mem_cons.1 hmem with h | h
              · exact hvc h
              · exact hvrest h
            obtain ⟨h1, h2⟩ := hexp v hvv hvq0 nb hnb
            refine ⟨h1, fun hee => ?_⟩
            rw [he1]
            exact List.mem_append_left _ (h2 hee)
        have hfuel2 : q2.length + s.ents.length ≤ fuel + vis2.length := by
          have hl1 : q2.length = rest.length + new.length := by
            rw [he2]
            simp
          have hl2 : vis2.length = vis.length + new.length := by
            rw [he1]
            simp
          rw [List.length_cons] at hfuel
          omega
        rw [hloop]
        exact ih vis2 q2 hnd2 hex2 hfrv2 htv2 hq2 hlb2 hlay2 hexp2 hfuel2

/-- Chain store for C6: `obj-a → obj-b → obj-c → obj-d`. -/
def c6chain : St :=
  ⟨true, ["obj-a", "obj-b", "obj-c", "obj-d"],
   [("obj-a", ["obj-b"]), ("obj-b", ["obj-c"]), ("obj-c", ["obj-d"])],
   [], [], [], []⟩

/-- Diamond store for C6: two equal-length routes `a-b-d` and `a-c-d`;
the lexicographically smaller branch wins. -/
def c6tie : St :=
  ⟨true, ["obj-a", "obj-b", "obj-c", "obj-d"],
   [("obj-a", ["obj-b", "obj-c"]), ("obj-b", ["obj-d"]), ("obj-c", ["obj-d"])],
   [], [], [], []⟩

/-- Disconnected store for C6. -/
def c6disc : St :=
  ⟨true, ["obj-a", "obj-d"], [], [], [], [], []⟩

/-- C6: `get_path` is breadth-first shortest path over the undirected
union of import edges and computed-importer edges.  For existing
endpoints: the self-path is `[fr]`; a returned path is a valid route
(both endpoints included, every step an edge of the union graph,
interior nodes existing) of minimal length among all valid routes; the
no-path answer is returned exactly when no valid route exists; neighbor
expansion is in lexicographic uid order (and the function is
deterministic); on a chain `a→b→c→d` the result is `[a,b,c,d]`, on an
equal-length diamond the lexicographically smaller route is returned,
and on a disconnected pair the result is the no-path answer. -/
theorem c6_get_path_bfs (s : St) (fr tgt : String)
    (hinit : s.initialized = true)
    (hfr : entity_exists s fr = true)
    (htgt : entity_exists s tgt = true) :
    get_path s fr fr = .ok (some [fr]) ∧
    (∀ p, get_path s fr tgt = .ok (some p) →
      goodToB s fr tgt p = true ∧
      ∀ r, goodToB s fr tgt r = true → p.length ≤ r.length) ∧
    (get_path s fr tgt = .ok none → ∀ r, ¬ goodToB s fr tgt r = true) ∧
    (∀ u, (neighbors_of s u).Pairwise (fun a b => strLe a b = true)) ∧
    get_path c6chain "obj-a" "obj-d" = .ok (some ["obj-a", "obj-b", "obj-c", "obj-d"]) ∧
    get_path c6tie "obj-a" "obj-d" = .ok (some ["obj-a", "obj-b", "obj-d"]) ∧
    get_path c6disc "obj-a" "obj-d" = .ok none := by
  have hself : get_path s fr fr = .ok (some [fr]) := by
    simp [get_path, hinit, hfr]
  have hloopcase : ¬ fr = tgt → get_path s fr tgt =
      .ok (bfs_loop s tgt (s.ents.length + 1) [fr] [(fr, [fr])]) := by
    intro h
    simp [get_path, hinit, hfr, htgt, h]
  have hmain : ¬ fr = tgt →
      (∀ p, bfs_loop s tgt (s.ents.length + 1) [fr] [(fr, [fr])] = some p →
        goodToB s fr tgt p = true ∧
        ∀ r, goodToB s fr tgt r = true → p.length ≤ r.length) ∧
      (bfs_loop s tgt (s.ents.length + 1) [fr] [(fr, [fr])] = none →
        ∀ r, ¬ goodToB s fr tgt r = true) := by
    intro hft
    apply bfs_loop_correct s fr tgt htgt (s.ents.length + 1) [fr] [(fr, [fr])]
    · exact List.nodup_singleton fr
    · intro v hv
      rw [List.mem_singleton] at hv
      subst hv
      exact hfr
    · exact List.mem_singleton_self fr
    · intro hmem
      rw [List.mem_singleton] at hmem
      exact hft hmem.symm
    · intro e he
      rw [List.mem_singleton] at he
      subst he
      refine ⟨rfl, rfl, rfl, ?_⟩
      intro x hx
      exact hx
    · intro e he r hr
      rw [List.mem_singleton] at he
      subst he
      rw [goodToB_iff] at hr
      cases r with
      | nil => exact absurd hr.1 (by simp)
      | cons a t => exact Nat.succ_le_succ (Nat.zero_le _)
    · exact ⟨1, [(fr, [fr])], [],
        by rw [List.append_nil],
        fun e he => by rw [List.mem_singleton] at he; subst he; rfl,
        fun e he => absurd he (List.not_mem_nil e)⟩
    · intro v hv hvq nb hnb
      rw [List.mem_singleton] at hv
      rw [hv] at hvq
      exact absurd (show fr ∈ [(fr, [fr])].map Prod.fst from List.mem_singleton_self fr) hvq
    · show [(fr, [fr])].length + s.ents.length ≤ s.ents.length + 1 + [fr].length
      simp only [List.length_singleton]
      omega
  refine ⟨hself, ?_, ?_, ?_, by decide, by decide, by decide⟩
  · intro p hp
    by_cases hft : fr = tgt
    · subst hft
      rw [hself] at hp
      injection hp with h1
      injection h1 with h2
      subst h2
      constructor
      · rw [goodToB_iff]
        refine ⟨rfl, rfl, rfl, ?_⟩
        intro x hx
        exact absurd hx (List.not_mem_nil x)
      · intro r hr
        rw [goodToB_iff] at hr
        cases r with
        | nil => exact absurd hr.1 (by simp)
        | cons a t => exact Nat.succ_le_succ (Nat.zero_le _)
    · rw [hloopcase hft] at hp
      injection hp with h1
      exact (hmain hft).1 p h1
  · intro hp
    by_cases hft : fr = tgt
    · subst hft
      rw [hself] at hp
      injection hp with h1
      exact Option.noConfusion h1
    · rw [hloopcase hft] at hp
      injection hp with h1
      exact (hmain hft).2 h1
  · intro u
    exact List.sorted_insertionSort _ _

/-- Witness for `c6_get_path_bfs`: the self-path on the chain store,
and the disconnected store really has no valid route at all. -/
theorem c6_witness :
    get_path c6chain "obj-a" "obj-a" = .ok (some ["obj-a"]) ∧
    (∀ r, ¬ goodToB c6disc "obj-a" "obj-d" r = true) :=
  ⟨(c6_get_path_bfs c6chain "obj-a" "obj-a" (by decide) (by decide) (by decide)).1,
   (c6_get_path_bfs c6disc "obj-a" "obj-d" (by decide) (by decide)
     (by decide)).2.2.1 (by decide)⟩

/-- Witness for `c10_shared_does_not_block_orphan`. -/
theorem c10_witness :
    (∃ L, get_orphans c10s = Except.ok L ∧ "obj-b" ∈ L) ∧
    (∀ E sids, ¬ E = "obj-b" →
      look ((create_shared c10s E sids).1).exps "obj-b" = look c10s.exps "obj-b") :=
  c10_shared_does_not_block_orphan c10s "obj-b" "obj-a" (by decide) (by decide)
    (by decide) (by decide) (by decide) (by decide) (by decide)

end DSP

